import Mathlib

/-!
The matrixone operator core: a shallow embedding and its contracts

Source files embedded here:

* `pkg/container/vector/bytes.go`   : the variable-length byte column `Bytes`
* `pkg/sql/colexec/join/join.go`     : the inner hash join operator
* `pkg/sql/colexec/mergecte/mergecte.go` : the recursive CTE merge operator
* `pkg/common/pubsub/utils.go`       : the account lookup maps built by `GetAccounts`,
  and `RemoveTable`

Go slices are embedded as lists holding the `len` elements of the slice.
Unsigned 32-bit values are natural numbers reduced modulo `2^32` at every
place where the source converts or adds in `uint32`.
-/

namespace Matrixone

/-! ## `pkg/container/vector/bytes.go` -/

/-- A byte of the arena. -/
abbrev Byte := Nat

/-- Conversion to Go `uint32` (and the result of `uint32` arithmetic). -/
def uint32 (n : Nat) : Nat := n % 4294967296

/-- Go slice expression `xs[lo:hi]` on the visible elements of a slice: it
panics (`none`) unless `lo ≤ hi ≤ len`. (Go lets `hi` run up to the capacity;
every use below is within the length.) -/
def slice {α : Type} (xs : List α) (lo hi : Nat) : Option (List α) :=
  if lo ≤ hi ∧ hi ≤ xs.length then some ((xs.drop lo).take (hi - lo)) else none

/-- Applies `f` to every element in order; `none` as soon as one application
is `none` (a panic in the middle of a loop). -/
def mapAll {α β : Type} (f : α → Option β) : List α → Option (List β)
  | [] => some []
  | x :: xs =>
    match f x with
    | none => none
    | some y =>
      match mapAll f xs with
      | none => none
      | some ys => some (y :: ys)

/-- Go `type Bytes struct { Data []byte; Os []uint32; Ns []uint32 }`, the field
types being read off `Append`. -/
structure Bytes where
  Data : List Byte
  Os : List Nat
  Ns : List Nat
deriving DecidableEq, Repr

namespace Bytes

/-- The zero value `Bytes{}`: an empty column. -/
def empty : Bytes := { Data := [], Os := [], Ns := [] }

/-- Go `func (a *Bytes) Reset()`: the three slices are re-sliced to `[:0]`. -/
def Reset (a : Bytes) : Bytes :=
  { Data := a.Data.take 0, Os := a.Os.take 0, Ns := a.Ns.take 0 }

/-- The body of the `for _, v := range vs` loop of `Append`, `o` being the
running `uint32` offset. -/
def appendLoop : Bytes → Nat → List (List Byte) → Bytes
  | a, _, [] => a
  | a, o, v :: vs =>
    appendLoop
      { Os := a.Os ++ [o], Data := a.Data ++ v, Ns := a.Ns ++ [uint32 v.length] }
      (uint32 (o + uint32 v.length)) vs

/-- Go `func (a *Bytes) Append(vs [][]byte) error`; the returned error is
always `nil`, so only the updated column is returned. -/
def Append (a : Bytes) (vs : List (List Byte)) : Bytes :=
  appendLoop a (uint32 a.Data.length) vs

/-- Go `func (a *Bytes) Window(start, end int) *Bytes`: `Data` is the same
slice, `Os` and `Ns` are re-sliced; `none` is the slice-bounds panic. -/
def Window (a : Bytes) (start stop : Nat) : Option Bytes :=
  match slice a.Os start stop, slice a.Ns start stop with
  | some os, some ns => some { Data := a.Data, Os := os, Ns := ns }
  | _, _ => none

/-- The `i`-th value of the column, `a.Data[o : o+a.Ns[i]]` with `o = a.Os[i]`,
as `String` and `ToStrings` read it; the sum is a `uint32` sum. `none` is an
index or slice-bounds panic. -/
def value (a : Bytes) (i : Nat) : Option (List Byte) :=
  match a.Os[i]?, a.Ns[i]? with
  | some o, some n => slice a.Data o (uint32 (o + n))
  | _, _ => none

/-- Go `func (a *Bytes) ToStrings() []string`: one string per offset. -/
def ToStrings (a : Bytes) : Option (List (List Byte)) :=
  mapAll a.value (List.range a.Os.length)

/-- The loop of `String`: every value, followed by a space unless it is the
last one (`i != j` with `j = len(a.Os) - 1` as a Go `int`). -/
def stringLoop (a : Bytes) (j : Int) : List Nat → List Byte → Option (List Byte)
  | [], buf => some buf
  | i :: is, buf =>
    match a.value i with
    | some v => stringLoop a j is (if (i : Int) ≠ j then buf ++ v ++ [32] else buf ++ v)
    | none => none

/-- Go `func (a *Bytes) String() string`; `91`, `32`, `93` are the bytes of
the characters `[`, space and `]`. -/
def String (a : Bytes) : Option (List Byte) :=
  (stringLoop a ((a.Os.length : Int) - 1) (List.range a.Os.length) [91]).map (· ++ [93])

/-- The column invariant of the data model: as many offsets as lengths, and
every value lies inside the arena. -/
def WF (a : Bytes) : Prop :=
  a.Os.length = a.Ns.length ∧ ∀ p ∈ a.Os.zip a.Ns, p.1 + p.2 ≤ a.Data.length

instance (a : Bytes) : Decidable (WF a) := by
  unfold WF; infer_instance

/-- The offsets `Append` stores for `vs` when the arena holds `base` bytes. -/
def offsets : Nat → List (List Byte) → List Nat
  | _, [] => []
  | base, v :: vs => uint32 base :: offsets (base + v.length) vs

end Bytes

/-! ## Shared data model: vectors, batches, registers, the process

The packages `batch`, `vector`, `hashmap`, `process`, `vm` and `colexec` are
not among the source files; what the two operators use of them is modelled
here. The memory pool is outside the model: allocation always succeeds, and
`PutBatch` is recorded in a log. Analyzer hooks have no effect on control flow
and are left out. A Go panic is `Except.error`; a returned Go `error` is a
value of type `Error` returned next to the state. -/

/-- A value held by a cell of a column. -/
inductive Value where
  | int (i : Int)
  | bytes (s : String)
deriving DecidableEq, Repr

/-- A cell of a column: `none` is SQL NULL. -/
abbrev Datum := Option Value

/-- A Go `error` value. -/
inductive Error where
  | ctx (code : Nat)
  | internal (msg : String)
  | checkRecursiveLevel
  | other (code : Nat)
deriving DecidableEq, Repr

/-- Constants the operators import: `hashmap.UnitLimit`,
`colexec.DefaultBatchSize` and `moDefaultRecursionMax`. Their declarations are
not among the source files, so they are parameters. -/
structure Consts where
  UnitLimit : Nat
  DefaultBatchSize : Nat
  moDefaultRecursionMax : Int
deriving DecidableEq, Repr

/-- Modelled from the spec: what `Iterator.Find` reports for one probe row
("per-row match validity and bucket identifiers"): the in-bucket flag written
to `inBuckets`, the null marker `zvals[k]` and the bucket id `vals[k]`. -/
structure FindRes where
  inBucket : Nat
  zval : Nat
  val : Nat
deriving DecidableEq, Repr

/-- Modelled from the spec: `hashmap.JoinMap`, the pre-built hash index, is
not among the source files. It "maps a composite key to either a single
matching row identifier or a list of matching row identifiers": `table` gives
the answer of `Find` for a key, `Sels` is the list of candidate lists returned
by `Sels()`, `size` is `Size()`. -/
structure JoinMap where
  Sels : List (List Nat)
  table : List (List Datum × FindRes)
  size : Nat
deriving DecidableEq, Repr

/-- Modelled from the spec: the answer of the index for one key; a key the
table does not hold is in the bucket, not null, and matches nothing. -/
def JoinMap.find (mp : JoinMap) (key : List Datum) : FindRes :=
  (mp.table.lookup key).getD ⟨1, 1, 0⟩

/-- Modelled from the spec: `vector.Vector`, a typed column with its
sort-order hint. -/
structure Vector where
  typ : Nat
  sorted : Bool
  data : List Datum
deriving DecidableEq, Repr

/-- Modelled from the spec: `batch.Batch`, "an ordered set of named columns,
all sharing one row count", the boundary-marker flag (`Last`/`SetLast`) and
the optional attached payload `AuxData`. -/
structure Batch where
  Attrs : List String
  Vecs : List Vector
  rowCount : Nat
  last : Bool
  AuxData : Option JoinMap
deriving DecidableEq, Repr

/-- Modelled from the spec: `batch.NewWithSize(n)` followed by the
installation of the `n` vectors. -/
def Batch.withVecs (vs : List Vector) : Batch :=
  { Attrs := [], Vecs := vs, rowCount := 0, last := false, AuxData := none }

/-- Modelled from the spec: `Batch.IsEmpty`, a batch without rows and without
attached payload. -/
def Batch.IsEmpty (b : Batch) : Bool := b.rowCount == 0 && b.AuxData.isNone

/-- Modelled from the spec: `Batch.Clean`, which frees the vectors of a
batch. -/
def Batch.Clean (b : Batch) : Batch := { b with Vecs := [], rowCount := 0 }

/-- Modelled from the spec: `process.RegisterMessage`,
`Message{batch: Option<Batch>, error: Option<Error>}`. -/
structure RegisterMessage where
  Batch : Option Batch
  Err : Option Error
deriving DecidableEq, Repr

/-- Modelled from the spec: the end-of-stream message. -/
def NormalEndRegisterMessage : RegisterMessage := { Batch := none, Err := none }

/-- Modelled from the spec: the part of `process.Process` the operators touch.
`Ctx` is the shared cancellation signal (`some e`: the context is done and
`ctx.Err()` is `e`); `MergeReceivers` holds, per register, the messages still
to be delivered, in order, an exhausted register delivering end-of-stream;
`put` is the log of the batches handed to `PutBatch`. -/
structure Process where
  Ctx : Option Error
  MergeReceivers : List (List RegisterMessage)
  put : List Batch
deriving DecidableEq, Repr

/-- Modelled from the spec: `proc.PutBatch`, the release of a batch to the
pool. -/
def Process.PutBatch (proc : Process) (b : Batch) : Process :=
  { proc with put := proc.put ++ [b] }

/-- Modelled from the spec: `vm.ExecStatus`. -/
inductive ExecStatus where
  | ExecNext
  | ExecStop
deriving DecidableEq, Repr

/-- Modelled from the spec: `vm.CallResult`, "a batch plus continue status" or
"a final/empty result plus stop status". -/
structure CallResult where
  Status : ExecStatus
  Batch : Option Batch
deriving DecidableEq, Repr

/-- Modelled from the spec: `vm.NewCallResult()`. -/
def NewCallResult : CallResult := { Status := .ExecNext, Batch := none }

/-- Modelled from the spec: `vm.CancelResult`, the stop outcome. -/
def CancelResult : CallResult := { Status := .ExecStop, Batch := none }

/-- Modelled from the spec: `vm.CancelCheck(proc)`, the poll of the shared
cancellation signal, returning `(err, isCancel)`. -/
def CancelCheck (proc : Process) : Option Error × Bool :=
  match proc.Ctx with
  | some e => (some e, true)
  | none => (none, false)

/-- Modelled from the spec: `ReceiverOperator.ReceiveFromSingleReg(idx)`,
`receive(index) -> Message`: the next message of register `idx`, or
end-of-stream when the register is exhausted. -/
def ReceiveFromSingleReg (proc : Process) (idx : Nat) :
    Except String (RegisterMessage × Process) :=
  match proc.MergeReceivers[idx]? with
  | none => .error "index out of range"
  | some [] => .ok (NormalEndRegisterMessage, proc)
  | some (m :: rest) => .ok (m, { proc with MergeReceivers := proc.MergeReceivers.set idx rest })

/-- Modelled from the spec: `Vector.UnionOne(src, sel)`, which appends row
`sel` of `src` ("emit one output row"). -/
def Vector.UnionOne (v src : Vector) (sel : Nat) : Except String Vector :=
  match src.data[sel]? with
  | some x => .ok { v with data := v.data ++ [x] }
  | none => .error "index out of range"

/-- Modelled from the spec: `Vector.UnionMulti(src, sel, cnt)`, which appends
row `sel` of `src` `cnt` times. -/
def Vector.UnionMulti (v src : Vector) (sel cnt : Nat) : Except String Vector :=
  match src.data[sel]? with
  | some x => .ok { v with data := v.data ++ List.replicate cnt x }
  | none => .error "index out of range"

/-- Modelled from the spec: one row of a batch, as `SetJoinBatchValues`
copies it into a one-row scratch batch. -/
def Batch.row (b : Batch) (r : Nat) : Option (List Datum) :=
  mapAll (fun v => v.data[r]?) b.Vecs

/-! ## `pkg/sql/colexec/join/join.go` -/

namespace Join

/-- One entry of `InnerJoin.Result`: `Rel == 0` takes column `Pos` of the probe
batch, any other `Rel` takes column `Pos` of the build side. -/
structure ResultPos where
  Rel : Int
  Pos : Nat
deriving DecidableEq, Repr

/-- The operator argument `InnerJoin`, without its container. `Conditions`
holds the compiled executors of `Conditions[0]` (each evaluates a key column
over a batch) and `Cond` the compiled executor of the residual predicate,
evaluated on the two one-row scratch batches; `some none` is a NULL result. -/
structure InnerJoin where
  Conditions : List (Batch → Except Error Vector)
  Cond : Option (List Datum → List Datum → Except Error (Option Bool))
  Result : List ResultPos
  HashOnPK : Bool
  IsShuffle : Bool

/-- The states `Build`, `Probe`, `End` of the operator. -/
inductive State where
  | Build
  | Probe
  | End
deriving DecidableEq, Repr

/-- The operator state `container`. `joinBat1` and `joinBat2` are the one-row
scratch batches of the residual predicate; each is overwritten before it is
read, so only whether it is allocated (`true`) or `nil` (`false`) is kept. -/
structure container where
  state : State
  lastrow : Nat
  inBuckets : List Nat
  bat : Option Batch
  rbat : Option Batch
  joinBat1 : Bool
  joinBat2 : Bool
  batches : List Batch
  batchRowCount : Nat
  mp : Option JoinMap
  maxAllocSize : Nat
  vecs : List Vector
deriving DecidableEq, Repr

/-- Go `InnerJoin.Prepare`: a fresh container in state `Build` (the zero
value), `inBuckets` of `UnitLimit` entries, one key vector per condition.
Compilation of the executors is outside the model. -/
def Prepare (K : Consts) (ap : InnerJoin) : container :=
  { state := .Build, lastrow := 0, inBuckets := List.replicate K.UnitLimit 0,
    bat := none, rbat := none, joinBat1 := false, joinBat2 := false, batches := [],
    batchRowCount := 0, mp := none, maxAllocSize := 0,
    vecs := List.replicate ap.Conditions.length ⟨0, false, []⟩ }

/-- Go `container.receiveHashMap`. -/
def receiveHashMap (ctr : container) (proc : Process) :
    Except String (container × Process × Option Error) :=
  match ReceiveFromSingleReg proc 1 with
  | .error p => .error p
  | .ok (msg, proc) =>
    match msg.Err with
    | some e => .ok (ctr, proc, some e)
    | none =>
      match msg.Batch with
      | some bat =>
        match bat.AuxData with
        | some jm => .ok ({ ctr with mp := some jm,
                                     maxAllocSize := max ctr.maxAllocSize jm.size }, proc, none)
        | none => .ok (ctr, proc, none)
      | none => .ok (ctr, proc, none)

/-- The receive loop of `receiveBatch` run on the messages `q` pending on the
build register: the container, the messages left, and the error that stopped
the loop, if any. An exhausted register delivers end-of-stream. -/
def drain : List RegisterMessage → container → container × List RegisterMessage × Option Error
  | [], ctr => (ctr, [], none)
  | m :: rest, ctr =>
    match m.Err with
    | some e => (ctr, rest, some e)
    | none =>
      match m.Batch with
      | some bat =>
        drain rest { ctr with batchRowCount := ctr.batchRowCount + bat.rowCount,
                              batches := ctr.batches ++ [bat] }
      | none => (ctr, rest, none)

/-- The validation loop of `receiveBatch`: every batch but the last has
`DefaultBatchSize` rows. -/
def chunksOk (K : Consts) (batches : List Batch) : Bool :=
  (batches.take (batches.length - 1)).all (fun b => b.rowCount == K.DefaultBatchSize)

/-- Go `container.receiveBatch`. -/
def receiveBatch (K : Consts) (ctr : container) (proc : Process) :
    Except String (container × Process × Option Error) :=
  match proc.MergeReceivers[1]? with
  | none => .error "index out of range"
  | some q =>
    match drain q ctr with
    | (ctr, rest, some e) =>
      .ok (ctr, { proc with MergeReceivers := proc.MergeReceivers.set 1 rest }, some e)
    | (ctr, rest, none) =>
      if chunksOk K ctr.batches then
        .ok (ctr, { proc with MergeReceivers := proc.MergeReceivers.set 1 rest }, none)
      else .error "wrong batch received for hash build!"

/-- Go `container.build`. -/
def build (K : Consts) (ctr : container) (proc : Process) :
    Except String (container × Process × Option Error) :=
  match receiveHashMap ctr proc with
  | .error p => .error p
  | .ok (ctr, proc, some e) => .ok (ctr, proc, some e)
  | .ok (ctr, proc, none) => receiveBatch K ctr proc

/-- Go `container.evalJoinCondition`, from executor number `i` on: the key
vectors, and the error that stopped the loop, if any. -/
def evalJoinCondition (bat : Batch) :
    List (Batch → Except Error Vector) → Nat → List Vector →
      Except String (List Vector × Option Error)
  | [], _, vecs => .ok (vecs, none)
  | ex :: exs, i, vecs =>
    match ex bat with
    | .error e => .ok (vecs, some e)
    | .ok vec =>
      if i < vecs.length then evalJoinCondition bat exs (i + 1) (vecs.set i vec)
      else .error "index out of range"

/-- The result of one step of the probe loops: go on, or return the error
`e`; both carry the state reached. -/
inductive Step (σ : Type) where
  | next (s : σ)
  | fail (s : σ) (e : Error)
deriving DecidableEq, Repr

/-- What the probe loops update: the vectors of `rbat` (emptied once `Clean`
has run) and the local `rowCount`. -/
structure ProbeSt where
  vecs : List Vector
  rowCount : Nat
deriving DecidableEq, Repr

/-- A loop `for j, rp := range ap.Result` that appends to `rbat.Vecs[j]` what
`f rp` yields for that column. -/
def unionLoop (f : ResultPos → Vector → Except String Vector) :
    List ResultPos → List Vector → Except String (List Vector)
  | [], vs => .ok vs
  | _ :: _, [] => .error "index out of range"
  | rp :: rps, v :: vs =>
    match f rp v with
    | .error p => .error p
    | .ok v' =>
      match unionLoop f rps vs with
      | .error p => .error p
      | .ok vs' => .ok (v' :: vs')

/-- The source vector `b.Vecs[pos]`. -/
def vecAt (b : Batch) (pos : Nat) : Except String Vector :=
  match b.Vecs[pos]? with
  | some v => .ok v
  | none => .error "index out of range"

/-- `v.UnionOne(ctr.batches[idx1].Vecs[pos], idx2)` with
`idx1, idx2 := sel/DefaultBatchSize, sel%DefaultBatchSize`. -/
def unionBuild (K : Consts) (batches : List Batch) (pos : Nat) (v : Vector) (sel : Nat) :
    Except String Vector :=
  match batches[sel / K.DefaultBatchSize]? with
  | none => .error "index out of range"
  | some b =>
    match vecAt b pos with
    | .error p => .error p
    | .ok src => v.UnionOne src (sel % K.DefaultBatchSize)

/-- The loop `for _, sel := range sels` over one build-side column. -/
def unionSels (K : Consts) (batches : List Batch) (pos : Nat) :
    List Nat → Vector → Except String Vector
  | [], v => .ok v
  | sel :: sels, v =>
    match unionBuild K batches pos v sel with
    | .error p => .error p
    | .ok v' => unionSels K batches pos sels v'

/-- The column step of the primary-key branch without residual predicate
(lines 227-238): probe row `row`, build row `idx`. -/
def unionPK (K : Consts) (bat : Batch) (batches : List Batch) (row idx : Nat)
    (rp : ResultPos) (v : Vector) : Except String Vector :=
  if rp.Rel = 0 then
    match vecAt bat rp.Pos with
    | .error p => .error p
    | .ok src => v.UnionOne src row
  else unionBuild K batches rp.Pos v idx

/-- The column step of the general branch without residual predicate (lines
242-255): probe row `row`, candidate list `sels`. -/
def unionGeneral (K : Consts) (bat : Batch) (batches : List Batch) (row : Nat)
    (sels : List Nat) (rp : ResultPos) (v : Vector) : Except String Vector :=
  if rp.Rel = 0 then
    match vecAt bat rp.Pos with
    | .error p => .error p
    | .ok src => v.UnionMulti src row sels.length
  else unionSels K batches rp.Pos sels v

/-- Go `container.evalApCondForOneSel`: the residual predicate on the pair
(probe row `row`, build row `sel`); the pair is appended to `rbat` when the
predicate is true, dropped when it is false or NULL. `jb1` and `jb2` tell
whether the scratch batches are allocated. -/
def evalApCondForOneSel (K : Consts) (ap : InnerJoin) (bat : Batch) (batches : List Batch)
    (jb1 jb2 : Bool) (st : ProbeSt) (row sel : Nat) : Except String (Step ProbeSt) :=
  if !jb1 then .error "nil pointer dereference"
  else
    match bat.row row with
    | none => .error "index out of range"
    | some r1 =>
      match batches[sel / K.DefaultBatchSize]? with
      | none => .error "index out of range"
      | some b2 =>
        if !jb2 then .error "nil pointer dereference"
        else
          match b2.row (sel % K.DefaultBatchSize) with
          | none => .error "index out of range"
          | some r2 =>
            match ap.Cond with
            | none => .error "nil pointer dereference"
            | some cond =>
              match cond r1 r2 with
              | .error e => .ok (.fail { vecs := [], rowCount := st.rowCount } e)
              | .ok (some true) =>
                match unionLoop (unionPK K bat batches row sel) ap.Result st.vecs with
                | .error p => .error p
                | .ok vs => .ok (.next { vecs := vs, rowCount := st.rowCount })
              | .ok _ => .ok (.next st)

/-- The loop `for _, sel := range sels` of the general branch with residual
predicate (lines 266-270). -/
def condSels (K : Consts) (ap : InnerJoin) (bat : Batch) (batches : List Batch)
    (jb1 jb2 : Bool) (row : Nat) : List Nat → ProbeSt → Except String (Step ProbeSt)
  | [], st => .ok (.next st)
  | sel :: sels, st =>
    match evalApCondForOneSel K ap bat batches jb1 jb2 st row sel with
    | .error p => .error p
    | .ok (.fail st' e) => .ok (.fail st' e)
    | .ok (.next st') => condSels K ap bat batches jb1 jb2 row sels st'

/-- The body of the loop `for k := 0; k < n; k++` of `probe` (lines 220-273)
for probe row `row = i+k`, `fr` being what `Find` reported for it. -/
def probeRow (K : Consts) (ap : InnerJoin) (bat : Batch) (batches : List Batch)
    (jb1 jb2 : Bool) (mSels : List (List Nat)) (fr : FindRes) (row : Nat) (st : ProbeSt) :
    Except String (Step ProbeSt) :=
  if fr.inBucket = 0 ∨ fr.zval = 0 ∨ fr.val = 0 then .ok (.next st)
  else
    match ap.Cond with
    | none =>
      if ap.HashOnPK then
        match unionLoop (unionPK K bat batches row (fr.val - 1)) ap.Result st.vecs with
        | .error p => .error p
        | .ok vs => .ok (.next { st with vecs := vs, rowCount := st.rowCount + 1 })
      else
        match mSels[fr.val - 1]? with
        | none => .error "index out of range"
        | some sels =>
          match unionLoop (unionGeneral K bat batches row sels) ap.Result st.vecs with
          | .error p => .error p
          | .ok vs => .ok (.next { st with vecs := vs, rowCount := st.rowCount + sels.length })
    | some _ =>
      if ap.HashOnPK then
        match evalApCondForOneSel K ap bat batches jb1 jb2 st row (fr.val - 1) with
        | .error p => .error p
        | .ok (.fail st' e) => .ok (.fail st' e)
        | .ok (.next st') => .ok (.next { st' with rowCount := st'.rowCount + 1 })
      else
        match mSels[fr.val - 1]? with
        | none => .error "index out of range"
        | some sels =>
          match condSels K ap bat batches jb1 jb2 row sels st with
          | .error p => .error p
          | .ok (.fail st' e) => .ok (.fail st' e)
          | .ok (.next st') => .ok (.next { st' with rowCount := st'.rowCount + sels.length })

/-- Modelled from the spec: the key of probe row `r`, read off the evaluated
key vectors. -/
def keyAt (vecs : List Vector) (r : Nat) : List Datum :=
  vecs.map (fun v => (v.data[r]?).getD none)

/-- Modelled from the spec: `itr.Find(i, n, vecs, inBuckets)`, the index
"queried in fixed-size chunks": the answers for rows `i .. i+n-1`. -/
def Find (mp : JoinMap) (vecs : List Vector) (i n : Nat) : List FindRes :=
  (List.range n).map (fun k => mp.find (keyAt vecs (i + k)))

/-- The loop `for k := 0; k < n; k++` over the answers of `Find`, `row` being
the probe row of the first answer. -/
def probeRows (K : Consts) (ap : InnerJoin) (bat : Batch) (batches : List Batch)
    (jb1 jb2 : Bool) (mSels : List (List Nat)) :
    List FindRes → Nat → ProbeSt → Except String (Step ProbeSt)
  | [], _, st => .ok (.next st)
  | fr :: frs, row, st =>
    match probeRow K ap bat batches jb1 jb2 mSels fr row st with
    | .error p => .error p
    | .ok (.fail st' e) => .ok (.fail st' e)
    | .ok (.next st') => probeRows K ap bat batches jb1 jb2 mSels frs (row + 1) st'

end Join

namespace Join

/-- The vector `probe` installs for one result column (lines 181-187): the
type of the source column, and its sort-order hint when it is a probe
column. -/
def newResultVec (bat : Batch) (batches : List Batch) (rp : ResultPos) : Except String Vector :=
  if rp.Rel = 0 then
    match vecAt bat rp.Pos with
    | .error p => .error p
    | .ok src => .ok { typ := src.typ, sorted := src.sorted, data := [] }
  else
    match batches[0]? with
    | none => .error "index out of range"
    | some b =>
      match vecAt b rp.Pos with
      | .error p => .error p
      | .ok src => .ok { typ := src.typ, sorted := false, data := [] }

/-- The loop `for i, rp := range ap.Result` that fills the fresh `rbat`
(lines 180-188). -/
def newResultVecs (bat : Batch) (batches : List Batch) :
    List ResultPos → Except String (List Vector)
  | [] => .ok []
  | rp :: rps =>
    match newResultVec bat batches rp with
    | .error p => .error p
    | .ok v =>
      match newResultVecs bat batches rps with
      | .error p => .error p
      | .ok vs => .ok (v :: vs)

/-- What the chunk loop of `probe` hands back: the loop state, `inBuckets`,
the cursor to save in `lastrow` (`0` when the batch is finished), and the
error that stopped the loop, if any. -/
structure LoopOut where
  st : ProbeSt
  inBuckets : List Nat
  lastrow : Nat
  err : Option Error
deriving DecidableEq, Repr

/-- The loop `for i := ap.ctr.lastrow; i < count; i += hashmap.UnitLimit` of
`probe` (lines 204-275), together with the two exits that save the cursor
(lines 205-211 and 277-281). `fuel` bounds the number of chunks processed;
`count` chunks are always enough when `UnitLimit` is positive, and with
`UnitLimit = 0` the Go loop does not terminate. -/
def probeLoop (K : Consts) (ap : InnerJoin) (bat : Batch) (batches : List Batch)
    (jb1 jb2 : Bool) (mp : JoinMap) (vecs : List Vector) (count : Nat) :
    Nat → Nat → List Nat → ProbeSt → Except String LoopOut
  | fuel, i, inB, st =>
    if i < count then
      if K.DefaultBatchSize ≤ st.rowCount then
        .ok { st := st, inBuckets := inB, lastrow := i, err := none }
      else
        match fuel with
        | 0 => .error "timeout"
        | fuel + 1 =>
          let n := min (count - i) K.UnitLimit
          let frs := Find mp vecs i n
          let inB' := frs.map (fun fr => fr.inBucket) ++ List.replicate (K.UnitLimit - n) 1
          match probeRows K ap bat batches jb1 jb2 mp.Sels frs i st with
          | .error p => .error p
          | .ok (.fail st' e) =>
            .ok { st := st', inBuckets := inB', lastrow := 0, err := some e }
          | .ok (.next st') =>
            probeLoop K ap bat batches jb1 jb2 mp vecs count fuel (i + K.UnitLimit) inB' st'
    else .ok { st := st, inBuckets := inB, lastrow := 0, err := none }

/-- The set-up of `joinBat2` in `probe` (lines 196-198). -/
def setupJoinBat2 (ctr : container) : Except String Bool :=
  if !ctr.joinBat2 && decide (0 < ctr.batchRowCount) then
    (match ctr.batches[0]? with
     | none => Except.error "index out of range"
     | some _ => Except.ok true)
  else Except.ok ctr.joinBat2

/-- Go `container.probe`. The result is the container, the process, the batch
stored in `result.Batch` and the error returned. On an error return the
cursor `lastrow` is left as it was. `joinBat1` is allocated when it is `nil`,
`joinBat2` when it is `nil` and the build side has rows (lines 193-198). -/
def probe (K : Consts) (ap : InnerJoin) (ctr : container) (proc : Process) :
    Except String (container × Process × Option Batch × Option Error) :=
  match ctr.bat with
  | none => .error "nil pointer dereference"
  | some bat =>
    let proc := match ctr.rbat with
      | some rb => proc.PutBatch rb
      | none => proc
    match newResultVecs bat ctr.batches ap.Result with
    | .error p => .error p
    | .ok vs =>
      match evalJoinCondition bat ap.Conditions 0 ctr.vecs with
      | .error p => .error p
      | .ok (vecs, some e) =>
        .ok ({ ctr with rbat := some (Batch.withVecs vs), vecs := vecs }, proc, none, some e)
      | .ok (vecs, none) =>
        match setupJoinBat2 ctr with
        | .error p => .error p
        | .ok jb2 =>
          match ctr.mp with
          | none => .error "nil pointer dereference"
          | some mp =>
            match probeLoop K ap bat ctr.batches true jb2 mp vecs bat.rowCount bat.rowCount
                ctr.lastrow ctr.inBuckets { vecs := vs, rowCount := 0 } with
            | .error p => .error p
            | .ok out =>
              match out.err with
              | some e =>
                .ok ({ ctr with rbat := some (Batch.withVecs out.st.vecs).Clean, vecs := vecs,
                                inBuckets := out.inBuckets, joinBat1 := true,
                                joinBat2 := jb2 }, proc, none, some e)
              | none =>
                let rb := { Batch.withVecs out.st.vecs with rowCount := out.st.rowCount }
                .ok ({ ctr with rbat := some rb, vecs := vecs, inBuckets := out.inBuckets,
                                joinBat1 := true, joinBat2 := jb2,
                                lastrow := out.lastrow }, proc, some rb, none)

/-- The outcome of a `Call`: the state after it, the `CallResult` and the
error returned. -/
abbrev Outcome := Except String (container × Process × CallResult × Option Error)

/-- The `default` case of `Call` (lines 121-124). -/
def callEnd (ctr : container) (proc : Process) : Outcome :=
  .ok (ctr, proc, { Status := .ExecStop, Batch := none }, none)

/-- The `Probe` case of `Call` once a probe batch is held (lines 109-119). -/
def callProbeHeld (K : Consts) (ap : InnerJoin) (ctr : container) (proc : Process) : Outcome :=
  match probe K ap ctr proc with
  | .error p => .error p
  | .ok (ctr', proc, rb, some e) => .ok (ctr', proc, { Status := .ExecNext, Batch := rb }, some e)
  | .ok (ctr', proc, rb, none) =>
    if ctr'.lastrow = 0 then
      match ctr'.bat with
      | some b =>
        .ok ({ ctr' with bat := none }, proc.PutBatch b, { Status := .ExecNext, Batch := rb },
          none)
      | none => .ok (ctr', proc, { Status := .ExecNext, Batch := rb }, none)
    else if ctr'.lastrow = ctr.lastrow then
      .ok (ctr', proc, { Status := .ExecNext, Batch := rb },
        some (.internal "inner join hanging"))
    else .ok (ctr', proc, { Status := .ExecNext, Batch := rb }, none)

/-- The `Probe` case of `Call` while no probe batch is held (lines 83-107),
run on the messages `q` pending on the probe register (register 0); each
`continue` of the source is one step down `q`. -/
def callProbeRecv (K : Consts) (ap : InnerJoin) :
    List RegisterMessage → container → Process → Outcome
  | [], ctr, proc => callEnd { ctr with state := .End } proc
  | m :: rest, ctr, proc =>
    let proc := { proc with MergeReceivers := proc.MergeReceivers.set 0 rest }
    match m.Err with
    | some e => .ok (ctr, proc, NewCallResult, some e)
    | none =>
      match m.Batch with
      | none => callEnd { ctr with state := .End } proc
      | some bat =>
        if bat.last then .ok (ctr, proc, { Status := .ExecNext, Batch := some bat }, none)
        else if bat.IsEmpty then callProbeRecv K ap rest ctr (proc.PutBatch bat)
        else if ctr.mp.isNone then callProbeRecv K ap rest ctr (proc.PutBatch bat)
        else callProbeHeld K ap { ctr with bat := some bat, lastrow := 0 } proc

/-- The `Probe` case of `Call` (lines 82-119). -/
def callProbe (K : Consts) (ap : InnerJoin) (ctr : container) (proc : Process) : Outcome :=
  match ctr.bat with
  | some _ => callProbeHeld K ap ctr proc
  | none =>
    match proc.MergeReceivers[0]? with
    | none => .error "index out of range"
    | some q => callProbeRecv K ap q ctr proc

/-- Go `InnerJoin.Call`. -/
def Call (K : Consts) (ap : InnerJoin) (ctr : container) (proc : Process) : Outcome :=
  match CancelCheck proc with
  | (err, true) => .ok (ctr, proc, CancelResult, err)
  | (_, false) =>
    match ctr.state with
    | .Build =>
      match build K ctr proc with
      | .error p => .error p
      | .ok (ctr, proc, some e) => .ok (ctr, proc, NewCallResult, some e)
      | .ok (ctr, proc, none) =>
        if ctr.mp.isNone && !ap.IsShuffle then callEnd { ctr with state := .End } proc
        else callProbe K ap { ctr with state := .Probe } proc
    | .Probe => callProbe K ap ctr proc
    | .End => callEnd ctr proc

end Join

/-! ## `pkg/sql/colexec/mergecte/mergecte.go` -/

namespace MergeCTE

/-- The values `sendInitial`, `sendLastTag`, `sendRecursive` of
`container.status`. -/
inductive Status where
  | sendInitial
  | sendLastTag
  | sendRecursive
deriving DecidableEq, Repr

/-- Conversion to Go `int32` (and the result of `int32` arithmetic). -/
def int32 (x : Int) : Int := (x + 2147483648) % 4294967296 - 2147483648

/-- The operator state `container`. `alive` is the receiver's list of the
registers still polled; `nodeCnt` and `curNodeCnt` are `int32`,
`recursiveLever` is `int`. -/
structure container where
  alive : List Nat
  nodeCnt : Int
  curNodeCnt : Int
  status : Status
  recursiveLever : Int
deriving DecidableEq, Repr

/-- The operator argument `Argument`: its container and the batch `buf` held
between two calls. -/
structure Argument where
  ctr : container
  buf : Option Batch
deriving DecidableEq, Repr

/-- Go `Argument.Prepare`. -/
def Prepare (proc : Process) (arg : Argument) : Argument :=
  { arg with ctr :=
      { alive := List.range proc.MergeReceivers.length,
        nodeCnt := int32 (int32 proc.MergeReceivers.length - 1),
        curNodeCnt := int32 (int32 proc.MergeReceivers.length - 1),
        status := .sendInitial,
        recursiveLever := 0 } }

/-- Modelled from the spec: the type code of `types.T_varchar`. -/
def T_varchar : Nat := 61

/-- Go `makeRecursiveBatch`: one column `recursive_col` of type varchar, one
row, the boundary flag set. -/
def makeRecursiveBatch : Batch :=
  { Attrs := ["recursive_col"],
    Vecs := [{ typ := T_varchar, sorted := false,
               data := [some (.bytes "check recursive status")] }],
    rowCount := 1, last := true, AuxData := none }

/-- Modelled from the spec: the first polled register "with data
available". -/
def firstReady (regs : List (List RegisterMessage)) : List Nat → Option Nat
  | [] => none
  | i :: is =>
    match regs[i]? with
    | some (_ :: _) => some i
    | _ => firstReady regs is

/-- Modelled from the spec: `ReceiverOperator.ReceiveFromAllRegs`,
`receive_any`, with "any-ready semantics (the first register with data
available is consumed)". A register that delivers end-of-stream is removed
from the polled ones and the poll goes on; an empty batch is released and
skipped; when every polled register is exhausted the answer is
end-of-stream. `fuel` bounds the number of messages consumed. -/
def recvAll : Nat → List Nat → Process → Except String (RegisterMessage × List Nat × Process)
  | 0, _, _ => .error "timeout"
  | fuel + 1, alive, proc =>
    match firstReady proc.MergeReceivers alive with
    | none => .ok (NormalEndRegisterMessage, [], proc)
    | some i =>
      match proc.MergeReceivers[i]? with
      | some (m :: rest) =>
        let proc := { proc with MergeReceivers := proc.MergeReceivers.set i rest }
        match m.Err with
        | some _ => .ok (m, alive, proc)
        | none =>
          match m.Batch with
          | none => recvAll fuel (alive.erase i) proc
          | some b =>
            if b.IsEmpty then recvAll fuel alive (proc.PutBatch b)
            else .ok (m, alive, proc)
      | _ => .error "index out of range"

/-- The number of messages pending on all registers. -/
def pending (proc : Process) : Nat := (proc.MergeReceivers.map List.length).sum

/-- Modelled from the spec: `ReceiveFromAllRegs` with fuel for every pending
message. -/
def ReceiveFromAllRegs (alive : List Nat) (proc : Process) :
    Except String (RegisterMessage × List Nat × Process) :=
  recvAll (pending proc + 1) alive proc

/-- The outcome of a `Call`: the state after it, the `CallResult` and the
error returned. -/
abbrev Outcome := Except String (Argument × Process × CallResult × Option Error)

/-- The end of `Call` (lines 106-109): the held batch is returned. -/
def finish (arg : Argument) (proc : Process) : Outcome :=
  .ok (arg, proc, { Status := .ExecNext, Batch := arg.buf }, none)

/-- The `sendLastTag` case of `Call` (lines 71-76), also reached by
`fallthrough` from `sendInitial`. -/
def lastTag (arg : Argument) (proc : Process) : Outcome :=
  if arg.ctr.status = .sendLastTag then
    finish { ctr := { arg.ctr with status := .sendRecursive, alive := arg.ctr.alive.erase 0 },
             buf := some makeRecursiveBatch } proc
  else finish arg proc

/-- The loop of the `sendRecursive` case of `Call` (lines 78-103). `fuel`
bounds the number of boundary markers released in one call. -/
def recursiveLoop (K : Consts) : Nat → Argument → Process → Outcome
  | 0, _, _ => .error "timeout"
  | fuel + 1, arg, proc =>
    match ReceiveFromAllRegs arg.ctr.alive proc with
    | .error p => .error p
    | .ok (msg, alive, proc) =>
      let ctr := { arg.ctr with alive := alive }
      match msg.Batch with
      | none => .ok ({ arg with ctr := ctr }, proc, { Status := .ExecStop, Batch := none }, none)
      | some b =>
        if !b.last then finish { ctr := ctr, buf := some b } proc
        else
          let b := { b with last := true }
          let cur := int32 (ctr.curNodeCnt - 1)
          if cur = 0 then
            let lever := ctr.recursiveLever + 1
            let ctr := { ctr with curNodeCnt := ctr.nodeCnt, recursiveLever := lever }
            if K.moDefaultRecursionMax < lever then
              .ok ({ ctr := ctr, buf := some b }, proc, { Status := .ExecStop, Batch := none },
                some .checkRecursiveLevel)
            else finish { ctr := ctr, buf := some b } proc
          else
            recursiveLoop K fuel { ctr := { ctr with curNodeCnt := cur }, buf := some b }
              (proc.PutBatch b)

/-- Go `Argument.Call`. -/
def Call (K : Consts) (arg : Argument) (proc : Process) : Outcome :=
  match CancelCheck proc with
  | (err, true) => .ok (arg, proc, CancelResult, err)
  | (_, false) =>
    let proc := match arg.buf with
      | some b => proc.PutBatch b
      | none => proc
    let arg := { arg with buf := none }
    match arg.ctr.status with
    | .sendInitial =>
      match ReceiveFromSingleReg proc 0 with
      | .error p => .error p
      | .ok (msg, proc) =>
        match msg.Err with
        | some e => .ok (arg, proc, { Status := .ExecStop, Batch := none }, some e)
        | none =>
          match msg.Batch with
          | some b => lastTag { arg with buf := some b } proc
          | none => lastTag { ctr := { arg.ctr with status := .sendLastTag }, buf := none } proc
    | .sendLastTag => lastTag arg proc
    | .sendRecursive => recursiveLoop K (pending proc + 1) arg proc

end MergeCTE

/-! ## Notions used to state the contracts -/

namespace Join

/-- The messages by which a register delivers the batches `bs`, in order and
without error. -/
def dataMsgs (bs : List Batch) : List RegisterMessage :=
  bs.map (fun b => { Batch := some b, Err := none })

/-- What follows the last batch of a stream that ends without error: the
register is exhausted, or its next message is the end-of-stream message. -/
def endsStream (tl : List RegisterMessage) : Prop :=
  tl = [] ∨ tl.head? = some NormalEndRegisterMessage

instance (tl : List RegisterMessage) : Decidable (endsStream tl) := by
  unfold endsStream; infer_instance

/-- The first message of the build register carries no hash index: it is
end-of-stream or a batch without attached payload. -/
def noIndex (m : RegisterMessage) : Prop :=
  m.Err = none ∧ (m.Batch = none ∨ ∃ b, m.Batch = some b ∧ b.AuxData = none)

/-- A hash index that is present and holds no key and no candidate list. -/
def emptyIndex : JoinMap := { Sels := [], table := [], size := 0 }

/-- What is observed of the outcome of a `Call`: the state of the operator,
the messages left on the probe register, the `CallResult` and the error;
`none` is a panic. -/
def view (o : Except String (container × Process × CallResult × Option Error)) :
    Option (State × Option (List RegisterMessage) × CallResult × Option Error) :=
  match o with
  | .ok (c, p, r, e) => some (c.state, p.MergeReceivers[0]?, r, e)
  | .error _ => none

end Join

/-! ## Notions used to state the contracts of `probe` -/

namespace Join

/-- The cell of probe row `row` in column `pos` of the probe batch. -/
def probeCell (bat : Batch) (pos row : Nat) : Option Datum :=
  (bat.Vecs[pos]?).bind (fun v => v.data[row]?)

/-- The cell of the build row with global row id `sel` in column `pos`: batch
`sel / DefaultBatchSize`, row `sel % DefaultBatchSize`. -/
def buildCell (K : Consts) (batches : List Batch) (pos sel : Nat) : Option Datum :=
  (batches[sel / K.DefaultBatchSize]?).bind
    (fun b => (b.Vecs[pos]?).bind (fun v => v.data[sel % K.DefaultBatchSize]?))

/-- The values that the pairs of probe row `row` with the candidates `sels`
put in result column `rp`: the probe cell once per candidate, or the build
cells of the candidates in list order. `none` when a cell does not exist. -/
def colDelta (K : Consts) (bat : Batch) (batches : List Batch) (row : Nat) (sels : List Nat)
    (rp : ResultPos) : Option (List Datum) :=
  if rp.Rel = 0 then (probeCell bat rp.Pos row).map (List.replicate sels.length)
  else mapAll (buildCell K batches rp.Pos) sels

/-- Appending the values `ds`, column by column, to the vectors `vs`. -/
def appendCols : List (List Datum) → List Vector → List Vector
  | d :: ds, v :: vs => { v with data := v.data ++ d } :: appendCols ds vs
  | _, vs => vs

/-- Putting the values `ds`, column by column, in front of the vectors `vs`. -/
def prefixCols : List (List Datum) → List Vector → List Vector
  | d :: ds, v :: vs => { v with data := d ++ v.data } :: prefixCols ds vs
  | _, vs => vs

/-- Output rows: the cells of every result column, and the number of rows
counted for them. -/
structure Rows where
  cols : List (List Datum)
  count : Nat
deriving DecidableEq, Repr

/-- The output rows of a batch added after the rows `a`. -/
def Rows.append (a : Rows) (b : Batch) : Rows :=
  { cols := (prefixCols a.cols b.Vecs).map (fun v => v.data), count := a.count + b.rowCount }

/-- The loop state `st` with the rows `a` put in front. -/
def Rows.shift (a : Rows) (st : ProbeSt) : ProbeSt :=
  { vecs := prefixCols a.cols st.vecs, rowCount := a.count + st.rowCount }

/-- The successive `probe` calls made on the held probe batch, each starting
at the saved cursor `lastrow`, until the cursor returns to `0`; the output
rows of the calls are concatenated in order after `acc`. The result is the
rows, or the error a call returned. `fuel` bounds the number of calls. -/
def probeRun (K : Consts) (ap : InnerJoin) :
    Nat → container → Process → Rows → Except String (Except Error Rows)
  | 0, _, _, _ => .error "timeout"
  | fuel + 1, ctr, proc, acc =>
    match probe K ap ctr proc with
    | .error p => .error p
    | .ok (_, _, _, some e) => .ok (.error e)
    | .ok (_, _, none, none) => .error "nil pointer dereference"
    | .ok (ctr', proc', some rb, none) =>
      if ctr'.lastrow = 0 then .ok (.ok (acc.append rb))
      else probeRun K ap fuel ctr' proc' (acc.append rb)

/-- The reference for resumability, following the spec's words: "a single
pass over all probe rows from row 0 with no output-batch-size limit". After
the set-up of `probe` (result vectors, key vectors, scratch batches), every
probe row `0 .. count-1` is processed in order by the loop body `probeRow`. -/
def probeSinglePass (K : Consts) (ap : InnerJoin) (ctr : container) :
    Except String (Except Error Rows) :=
  match ctr.bat with
  | none => .error "nil pointer dereference"
  | some bat =>
    match newResultVecs bat ctr.batches ap.Result with
    | .error p => .error p
    | .ok vs =>
      match evalJoinCondition bat ap.Conditions 0 ctr.vecs with
      | .error p => .error p
      | .ok (_, some e) => .ok (.error e)
      | .ok (vecs, none) =>
        match setupJoinBat2 ctr with
        | .error p => .error p
        | .ok jb2 =>
          match ctr.mp with
          | none => .error "nil pointer dereference"
          | some mp =>
            match probeRows K ap bat ctr.batches true jb2 mp.Sels
                (Find mp vecs 0 bat.rowCount) 0 { vecs := vs, rowCount := 0 } with
            | .error p => .error p
            | .ok (.fail _ e) => .ok (.error e)
            | .ok (.next st) =>
              .ok (.ok { cols := st.vecs.map (fun v => v.data), count := st.rowCount })

end Join

/-! ## Notions used in the proof of resumability -/

namespace Join

/-- The outcome of a probe loop with the rows `a` put in front of its
state. -/
def shiftStep (a : Rows) : Except String (Step ProbeSt) → Except String (Step ProbeSt)
  | .error p => .error p
  | .ok (.next s) => .ok (.next (a.shift s))
  | .ok (.fail s e) => .ok (.fail (a.shift s) e)

/-- No output rows yet. -/
def Rows.empty : Rows := { cols := [], count := 0 }

/-- The set-up of a `probe` call succeeds on `ctr`: it holds the probe batch
`bat` and the index `mp`, the fresh result vectors are `vs0`, the evaluated
key vectors `vecs`, and `joinBat2` is set up as `jb2`. -/
def Ready (ap : InnerJoin) (ctr : container) (bat : Batch) (vs0 vecs : List Vector)
    (jb2 : Bool) (mp : JoinMap) : Prop :=
  ctr.bat = some bat ∧ newResultVecs bat ctr.batches ap.Result = .ok vs0 ∧
  evalJoinCondition bat ap.Conditions 0 ctr.vecs = .ok (vecs, none) ∧
  setupJoinBat2 ctr = .ok jb2 ∧ ctr.mp = some mp

/-- The vectors `vs` emptied: types and sort-order hints only. -/
def blank (vs : List Vector) : List Vector :=
  vs.map (fun v => { v with data := [] })

/-- The output rows held by the outcome of the row loop. -/
def toRows : Except String (Step ProbeSt) → Except String (Except Error Rows)
  | .error p => .error p
  | .ok (.fail _ e) => .ok (.error e)
  | .ok (.next st) => .ok (.ok { cols := st.vecs.map (fun v => v.data), count := st.rowCount })

end Join

/-! ## `pkg/common/pubsub/utils.go` -/

namespace Pubsub

/-- Modelled from the spec: the struct `AccountInfo`, "account metadata (id,
name, status, version, suspension timestamp)"; the field names and types are
read off the assignments in `GetAccounts` (`Id` is an `int32`, `Version` a
`uint64`). -/
structure AccountInfo where
  Id : Int
  Name : String
  Status : String
  Version : Nat
  SuspendedTime : String
deriving DecidableEq, Repr

/-- Modelled from the spec: one row of the result of the account query, as
the column readers return it: `cols[0]` to `cols[3]`, and `cols[4]`, which is
`none` when the cell is NULL and otherwise the text `String2` renders for the
timestamp. -/
structure AccountRow where
  id : Int
  name : String
  status : String
  version : Nat
  suspended : Option String
deriving DecidableEq, Repr

/-- A Go map whose values are pointers: the assignments made, the most
recent first. A pointer is the index of the object in the heap. -/
abbrev PtrMap (κ : Type) := List (κ × Nat)

/-- Go `m[k] = p`. -/
def PtrMap.assign {κ : Type} (m : PtrMap κ) (k : κ) (p : Nat) : PtrMap κ := (k, p) :: m

/-- Go `m[k]`: the pointer of the most recent assignment to `k`, `none` when
`k` is not a key. -/
def PtrMap.get {κ : Type} [BEq κ] (m : PtrMap κ) (k : κ) : Option Nat := m.lookup k

/-- What `GetAccounts` builds: the `AccountInfo` objects allocated, in
allocation order, and the two maps of pointers to them. -/
structure Accounts where
  heap : List AccountInfo
  nameInfoMap : PtrMap String
  idInfoMap : PtrMap Int
deriving DecidableEq, Repr

/-- The assignments to the fresh variable `accountInfo` (lines 123-132): the
fields are read from the row, the suspension time being the empty string
when the cell is NULL. -/
def infoOf (row : AccountRow) : AccountInfo :=
  { Id := row.id, Name := row.name, Status := row.status, Version := row.version,
    SuspendedTime := match row.suspended with
      | some t => t
      | none => "" }

/-- The body of the loop `for i := 0; i < rows; i++` of `GetAccounts` (lines
123-134): a fresh `accountInfo` is filled from the row and its address is
stored in both maps. -/
def addRow (s : Accounts) (row : AccountRow) : Accounts :=
  { heap := s.heap ++ [infoOf row],
    nameInfoMap := s.nameInfoMap.assign row.name s.heap.length,
    idInfoMap := s.idInfoMap.assign row.id s.heap.length }

/-- The callback passed to `ReadRows`, called on one batch of rows; it
returns `true`, so `ReadRows` goes on to the next batch. -/
def readBatch (s : Accounts) (rows : List AccountRow) : Accounts := rows.foldl addRow s

/-- Go `GetAccounts`, `res` being what `txn.Exec` returns for the account
query: an error, or the batches of rows that `ReadRows` walks through. -/
def GetAccounts (res : Except Error (List (List AccountRow))) :
    Option Accounts × Option Error :=
  match res with
  | .error e => (none, some e)
  | .ok batches =>
    (some (batches.foldl readBatch { heap := [], nameInfoMap := [], idInfoMap := [] }), none)

end Pubsub

/-! ## Notions used to state the contracts of the build side and of `Call` -/

namespace Join

/-- The rows of the concatenation of the accumulated batches, in order, each
as its position (index of the batch, offset within the batch); `j` is the
index of the first batch of the list. -/
def rowIds : Nat → List Batch → List (Nat × Nat)
  | _, [] => []
  | j, b :: bs => (List.range b.rowCount).map (fun r => (j, r)) ++ rowIds (j + 1) bs

/-- Between `proc` and `proc'` every register has delivered a prefix of its
pending messages, and every message delivered satisfies `G`. -/
def Took (proc proc' : Process) (G : RegisterMessage → Prop) : Prop :=
  ∀ (i : Nat) (q : List RegisterMessage), proc.MergeReceivers[i]? = some q →
    ∃ c q', proc'.MergeReceivers[i]? = some q' ∧ q = c ++ q' ∧ ∀ m ∈ c, G m

/-- What a `Call` took from the registers: either no message that carries
an error, or it returned the error of such a message and no batch. -/
def TookOrFailed (proc proc' : Process) (r : CallResult) (err : Option Error) : Prop :=
  Took proc proc' (fun m => m.Err = none) ∨
    (∃ e, err = some e ∧ r.Batch = none ∧ Took proc proc' (fun m => m.Err = none ∨ m.Err = some e))

end Join

/-! ## Notions used to state the contracts of the merge-CTE operator -/

namespace MergeCTE

/-- The process after the release of the batch held from the previous call
(lines 55-58 of `Call`). -/
def releaseBuf (arg : Argument) (proc : Process) : Process :=
  match arg.buf with
  | some b => proc.PutBatch b
  | none => proc

/-- The batches carried by the messages still pending on the registers. -/
def pendingBatches (proc : Process) : List Batch :=
  proc.MergeReceivers.flatten.filterMap (fun m => m.Batch)

/-- What one run of the loop of the `sendRecursive` case does to the
operator state: either the depth counter is unchanged and the call stops or
forwards an ordinary batch, or a boundary marker brought the countdown to
zero, the countdown is reset and the depth counter is one more. -/
def LoopPost (K : Consts) (arg : Argument) (proc : Process) (arg' : Argument) (proc' : Process)
    (r : CallResult) (err : Option Error) : Prop :=
  arg'.ctr.status = arg.ctr.status ∧ arg'.ctr.nodeCnt = arg.ctr.nodeCnt ∧
  proc'.Ctx = proc.Ctx ∧ arg'.ctr.alive.Sublist arg.ctr.alive ∧
  ((arg'.ctr.recursiveLever = arg.ctr.recursiveLever ∧ err = none ∧
      (r = { Status := .ExecStop, Batch := none } ∨
        ∃ b, r = { Status := .ExecNext, Batch := some b } ∧ arg'.buf = some b ∧ b.last = false)) ∨
    (arg'.ctr.recursiveLever = arg.ctr.recursiveLever + 1 ∧
      arg'.ctr.curNodeCnt = arg.ctr.nodeCnt ∧
      ∃ b, arg'.buf = some b ∧ b.last = true ∧
        ((K.moDefaultRecursionMax < arg'.ctr.recursiveLever ∧ err = some .checkRecursiveLevel ∧
            r = { Status := .ExecStop, Batch := none }) ∨
          (arg'.ctr.recursiveLever ≤ K.moDefaultRecursionMax ∧ err = none ∧
            r = { Status := .ExecNext, Batch := some b })))) ∧
  (1 ≤ arg.ctr.curNodeCnt → arg.ctr.curNodeCnt ≤ arg.ctr.nodeCnt → arg.ctr.nodeCnt < 2147483648 →
    1 ≤ arg'.ctr.curNodeCnt ∧ arg'.ctr.curNodeCnt ≤ arg.ctr.nodeCnt) ∧
  (∀ x, proc'.put.count x + r.Batch.toList.count x + (pendingBatches proc').count x
      ≤ proc.put.count x + (pendingBatches proc).count x)

/-- The messages pending on the polled registers, in the order in which the
any-ready receive takes them: register by register, in polling order. -/
def inbox (alive : List Nat) (regs : List (List RegisterMessage)) : List RegisterMessage :=
  (alive.map (fun i => (regs[i]?).getD [])).flatten

/-- What the loop of the `sendRecursive` case does on an inbox that starts
with the boundary markers `ms` followed by the batch `x`, when the countdown
is more than the number of the markers `ms`: the markers are released, and
`x` ends the loop, as an ordinary batch or as the marker that brings the
countdown to zero. -/
def LoopRun (K : Consts) (ms : List Batch) (x : Batch) (tl : List RegisterMessage)
    (arg : Argument) (proc : Process) (arg' : Argument) (proc' : Process) (r : CallResult)
    (err : Option Error) : Prop :=
  arg'.ctr.alive = arg.ctr.alive ∧ arg'.ctr.nodeCnt = arg.ctr.nodeCnt ∧
  arg'.ctr.status = arg.ctr.status ∧ arg'.buf = some x ∧ proc'.put = proc.put ++ ms ∧
  inbox arg.ctr.alive proc'.MergeReceivers = tl ∧ proc'.Ctx = proc.Ctx ∧
  (x.last = false →
    arg'.ctr.curNodeCnt = arg.ctr.curNodeCnt - ms.length ∧
    arg'.ctr.recursiveLever = arg.ctr.recursiveLever ∧
    r = { Status := .ExecNext, Batch := some x } ∧ err = none) ∧
  (x.last = true →
    arg'.ctr.curNodeCnt = arg.ctr.nodeCnt ∧
    arg'.ctr.recursiveLever = arg.ctr.recursiveLever + 1 ∧
    ((K.moDefaultRecursionMax < arg.ctr.recursiveLever + 1 ∧
        r = { Status := .ExecStop, Batch := none } ∧ err = some .checkRecursiveLevel) ∨
      (arg.ctr.recursiveLever + 1 ≤ K.moDefaultRecursionMax ∧
        r = { Status := .ExecNext, Batch := some x } ∧ err = none)))

/-- The driver of one recursion iteration: successive `Call`s, each on the
state and the process the previous one left, until a `Call` returns a batch
flagged as boundary, the stop status or an error. The result is the batches
forwarded before that, in order, and the outcome of the last `Call`. `fuel`
bounds the number of calls. -/
def runIteration (K : Consts) :
    Nat → Argument → Process →
      Except String (List Batch × Argument × Process × CallResult × Option Error)
  | 0, _, _ => .error "timeout"
  | fuel + 1, arg, proc =>
    match Call K arg proc with
    | .error p => .error p
    | .ok (arg', proc', r, err) =>
      match err, r.Status, r.Batch with
      | none, .ExecNext, some b =>
        if b.last then .ok ([], arg', proc', r, err)
        else
          match runIteration K fuel arg' proc' with
          | .error p => .error p
          | .ok (bs, out) => .ok (b :: bs, out)
      | _, _, _ => .ok ([], arg', proc', r, err)

/-- The states of the operator reachable from `Prepare` (on a process with
at least one worker register next to the anchor register, and fewer than
`2^31` registers) by `Call`s that returned no error, each `Call` on any
process: any register contents, any cancellation signal. -/
inductive Reachable (K : Consts) : Argument → Prop
  | prepare (proc : Process) (arg : Argument) (h1 : 2 ≤ proc.MergeReceivers.length)
      (h2 : proc.MergeReceivers.length < 2147483648) : Reachable K (Prepare proc arg)
  | call (arg arg' : Argument) (proc proc' : Process) (r : CallResult) (h : Reachable K arg)
      (hc : Call K arg proc = .ok (arg', proc', r, none)) : Reachable K arg'

/-- What a `Call` does to the counters of the container. -/
def CounterStep (K : Consts) (arg arg' : Argument) (err : Option Error) : Prop :=
  arg'.ctr.nodeCnt = arg.ctr.nodeCnt ∧
  (arg'.ctr.recursiveLever = arg.ctr.recursiveLever ∨
    (arg'.ctr.recursiveLever = arg.ctr.recursiveLever + 1 ∧
      ((K.moDefaultRecursionMax < arg'.ctr.recursiveLever ∧ err = some .checkRecursiveLevel) ∨
        (arg'.ctr.recursiveLever ≤ K.moDefaultRecursionMax ∧ err = none)))) ∧
  (1 ≤ arg.ctr.curNodeCnt → arg.ctr.curNodeCnt ≤ arg.ctr.nodeCnt → arg.ctr.nodeCnt < 2147483648 →
    1 ≤ arg'.ctr.curNodeCnt ∧ arg'.ctr.curNodeCnt ≤ arg.ctr.nodeCnt)

/-- The batches the operator has to do with: the released ones, the one it
holds, the ones pending on the registers, and the boundary marker it
synthesizes when it leaves the anchor phase. -/
def known (arg : Argument) (proc : Process) : List Batch :=
  proc.put ++ arg.buf.toList ++ pendingBatches proc
    ++ (if arg.ctr.status = .sendRecursive then [] else [makeRecursiveBatch])

/-- The driver: at most `n` successive `Call`s, each on the state and the
process the previous one left; it goes on as long as a `Call` returns the
continue status and no error. The result is the outcomes of the calls made,
in order, and the final state. -/
def drive (K : Consts) :
    Nat → Argument → Process →
      Except String (List (CallResult × Option Error) × Argument × Process)
  | 0, arg, proc => .ok ([], arg, proc)
  | n + 1, arg, proc =>
    match Call K arg proc with
    | .error p => .error p
    | .ok (arg', proc', r, err) =>
      if r.Status = .ExecNext ∧ err = none then
        match drive K n arg' proc' with
        | .error p => .error p
        | .ok (outs, fin) => .ok ((r, err) :: outs, fin)
      else .ok ([(r, err)], arg', proc')

/-- The messages the any-ready receive hands to the loop of the
`sendRecursive` case, one per receive, in order, up to and including the
first message without a batch. `fuel` bounds the number of receives. -/
def deliveries : Nat → List Nat → Process → List RegisterMessage
  | 0, _, _ => []
  | fuel + 1, alive, proc =>
    match ReceiveFromAllRegs alive proc with
    | .error _ => []
    | .ok (msg, alive', proc') =>
      match msg.Batch with
      | none => [msg]
      | some _ => msg :: deliveries fuel alive' proc'

/-- Following the words "a boundary marker brings the countdown to zero":
the messages received one after another start with boundary markers, each of
which decrements the countdown `cur` (an `int32`), and the countdown is zero
after one of them. A message without a batch, or with an ordinary batch,
ends the call before that. -/
def hitsZero : Int → List RegisterMessage → Bool
  | _, [] => false
  | cur, m :: ms =>
    match m.Batch with
    | none => false
    | some b => b.last && (decide (int32 (cur - 1) = 0) || hitsZero (int32 (cur - 1)) ms)

end MergeCTE

/-! ## Notions used to state the contract of `GetAccounts` -/

namespace Pubsub

/-- The maps of `s` are consistent with the rows `rows`. -/
def Consistent (rows : List AccountRow) (s : Accounts) : Prop :=
  s.heap = rows.map infoOf ∧
  (∀ k p, s.nameInfoMap.get k = some p → ∃ a, s.heap[p]? = some a ∧ a.Name = k) ∧
  (∀ k p, s.idInfoMap.get k = some p → ∃ a, s.heap[p]? = some a ∧ a.Id = k) ∧
  (∀ i row, rows[i]? = some row →
    (row.name, i) ∈ s.nameInfoMap ∧ (row.id, i) ∈ s.idInfoMap ∧
    (s.nameInfoMap.get row.name).isSome ∧ (s.idInfoMap.get row.id).isSome) ∧
  (∀ i row, rows[i]? = some row →
    (∀ j row', i < j → rows[j]? = some row' → row'.name ≠ row.name) →
    s.nameInfoMap.get row.name = some i) ∧
  (∀ i row, rows[i]? = some row →
    (∀ j row', i < j → rows[j]? = some row' → row'.id ≠ row.id) →
    s.idInfoMap.get row.id = some i)

end Pubsub

/-! ## `pkg/common/pubsub/utils.go`: `RemoveTable` -/

namespace Pubsub

/-- The constants `Sep` and `TableAll` of the package. Their declarations are
not among the source files, so they are parameters: `Sep` the separator
byte of a one-character separator string (`strings.Split` and `strings.Join`
are embedded for such a separator), `TableAll` any string. A Go string is its
sequence of bytes. -/
structure Names where
  Sep : Byte
  TableAll : List Byte
deriving DecidableEq, Repr

/-- Go `strings.Split(s, sep)` for a separator of one byte: the pieces of `s`
between the occurrences of the separator; a string without separator, the
empty one included, gives one piece. -/
def stringsSplit (sep : Byte) : List Byte → List (List Byte)
  | [] => [[]]
  | c :: cs =>
    if c = sep then [] :: stringsSplit sep cs
    else
      match stringsSplit sep cs with
      | [] => [[c]]
      | w :: ws => (c :: w) :: ws

/-- Go `strings.Join(elems, sep)` for a separator of one byte. -/
def stringsJoin (sep : Byte) : List (List Byte) → List Byte
  | [] => []
  | [w] => w
  | w :: v :: vs => w ++ sep :: stringsJoin sep (v :: vs)

/-- Go `x <= y` on strings: the lexicographic order of the bytes. -/
def lexLe : List Byte → List Byte → Bool
  | [], _ => true
  | _ :: _, [] => false
  | a :: as, b :: bs => decide (a < b) || (decide (a = b) && lexLe as bs)

/-- Go `slices.Sort` on strings: the elements in ascending order. The order
is total and antisymmetric, so the sorted arrangement is unique and the
sorting algorithm does not matter. -/
def slicesSort (xs : List (List Byte)) : List (List Byte) :=
  xs.insertionSort (fun x y => lexLe x y = true)

/-- Go `RemoveTable`. -/
def RemoveTable (N : Names) (oldTableListStr tblName : List Byte) : List Byte :=
  if oldTableListStr = N.TableAll then N.TableAll
  else
    stringsJoin N.Sep
      (slicesSort ((stringsSplit N.Sep oldTableListStr).filter
        (fun name => decide (name ≠ tblName))))

end Pubsub

/-! ## Notions used to state the contract of the text rendering -/

namespace Bytes

/-- The rendering the contract of `String` describes, following its words:
the values "separated by single spaces", with no space after the last one;
`32` is the byte of the space character. -/
def joinSpaces : List (List Byte) → List Byte
  | [] => []
  | [v] => v
  | v :: w :: vs => v ++ [32] ++ joinSpaces (w :: vs)

/-- Every value ends before byte `2^32` of the arena, so that the `uint32` sum
`Os[i] + Ns[i]` does not wrap. -/
def NoWrap (a : Bytes) : Prop := ∀ p ∈ a.Os.zip a.Ns, p.1 + p.2 < 4294967296

instance (a : Bytes) : Decidable (NoWrap a) := by
  unfold NoWrap; infer_instance

/-- The bytes `Data[Os[i] : Os[i]+Ns[i]]`, empty when `i` is not a row. -/
def cell (a : Bytes) (i : Nat) : List Byte :=
  match a.Os[i]?, a.Ns[i]? with
  | some o, some n => (a.Data.drop o).take n
  | _, _ => []

end Bytes

/-! ## Sample data for the concrete instances -/

namespace Sample

open Join

/-- Small constants: chunks of 2 probe rows, build batches of 3 rows. -/
def K : Consts := { UnitLimit := 2, DefaultBatchSize := 3, moDefaultRecursionMax := 100 }

/-- An integer cell. -/
def iv (n : Int) : Datum := some (.int n)

/-- A probe batch of five rows with one sorted column. -/
def probeBat : Batch :=
  { Attrs := [], Vecs := [⟨1, true, [iv 10, iv 20, iv 30, iv 40, iv 50]⟩], rowCount := 5,
    last := false, AuxData := none }

/-- A build batch of three rows with one column. -/
def buildBat : Batch :=
  { Attrs := [], Vecs := [⟨1, false, [iv 100, iv 200, iv 300]⟩], rowCount := 3,
    last := false, AuxData := none }

/-- A build batch of one row. -/
def buildBat1 : Batch :=
  { Attrs := [], Vecs := [⟨1, false, [iv 400]⟩], rowCount := 1, last := false,
    AuxData := none }

/-- A hash index over `buildBat`: keys 10, 20, 40, 50 match buckets 1, 2, 3,
1, key 30 is marked null. -/
def jm : JoinMap :=
  { Sels := [[0, 1], [2], [0, 1, 2]],
    table := [([iv 10], ⟨1, 1, 1⟩), ([iv 20], ⟨1, 1, 2⟩), ([iv 30], ⟨1, 0, 1⟩),
              ([iv 40], ⟨1, 1, 3⟩), ([iv 50], ⟨1, 1, 1⟩)],
    size := 7 }

/-- The control batch that carries a hash index. -/
def indexBat (mp : JoinMap) : Batch :=
  { Attrs := [], Vecs := [], rowCount := 0, last := false, AuxData := some mp }

/-- A control batch without hash index. -/
def noIndexBat : Batch :=
  { Attrs := [], Vecs := [], rowCount := 0, last := false, AuxData := none }

/-- The key executor: the first column of the batch. -/
def keyExec (b : Batch) : Except Error Vector :=
  match b.Vecs[0]? with
  | some v => .ok v
  | none => .error (.other 1)

/-- A general-mode join without residual predicate, returning the probe
column and the build column. -/
def ap : InnerJoin :=
  { Conditions := [keyExec], Cond := none, Result := [⟨0, 0⟩, ⟨1, 0⟩], HashOnPK := false,
    IsShuffle := false }

/-- The same join returning the probe column only. -/
def apProbeOnly : InnerJoin := { ap with Result := [⟨0, 0⟩] }

/-- The same join with a residual predicate that keeps the pairs whose build
row is `200`. -/
def apCond : InnerJoin :=
  { ap with Cond := some (fun _ r2 => .ok (some (decide (r2 = [iv 200])))) }

/-- The same join in primary-key mode with a residual predicate that is
always false. -/
def apFalse : InnerJoin :=
  { ap with Cond := some (fun _ _ => .ok (some false)), HashOnPK := true }

/-- A process whose probe register holds `probeBat` and whose build register
holds the messages `build`. -/
def proc (build : List RegisterMessage) : Process :=
  { Ctx := none, MergeReceivers := [[⟨some probeBat, none⟩], build], put := [] }

/-- A container in state `Probe` that holds the index `jm`, the build batch
`buildBat` and the probe batch `probeBat`, the cursor at row 0. -/
def probing : container :=
  { Prepare K ap with state := .Probe, bat := some probeBat, mp := some jm,
                      batches := [buildBat], batchRowCount := 3 }

end Sample

/-! ## Sample data for the merge-CTE operator and the build side -/

namespace Sample

/-- A build batch of four rows, one more than `DefaultBatchSize` of `K`. -/
def buildBat4 : Batch :=
  { Attrs := [], Vecs := [⟨1, false, [iv 100, iv 200, iv 300, iv 400]⟩], rowCount := 4,
    last := false, AuxData := none }

/-- Constants with the recursion maximum set to zero. -/
def K0 : Consts := { UnitLimit := 2, DefaultBatchSize := 3, moDefaultRecursionMax := 0 }

/-- A boundary marker as a worker sends it: one row, the boundary flag set. -/
def marker : Batch :=
  { Attrs := [], Vecs := [⟨1, false, [iv 1]⟩], rowCount := 1, last := true, AuxData := none }

/-- A process that is not cancelled, with the given register contents. -/
def cteProc (regs : List (List RegisterMessage)) : Process :=
  { Ctx := none, MergeReceivers := regs, put := [] }

/-- A merge-CTE operator in the `sendRecursive` state with `n` workers, the
countdown at `cur`, depth 0, polling the registers `alive`. -/
def cteRec (n cur : Int) (alive : List Nat) : MergeCTE.Argument :=
  { ctr := { alive := alive, nodeCnt := n, curNodeCnt := cur, status := .sendRecursive,
             recursiveLever := 0 },
    buf := none }

/-- A merge-CTE operator as `Prepare` leaves it for `n + 1` registers. -/
def cteInit (n : Nat) : MergeCTE.Argument :=
  MergeCTE.Prepare (cteProc (List.replicate (n + 1) []))
    ⟨⟨[], 0, 0, .sendInitial, 0⟩, none⟩

/-- The operator after `Prepare` on three registers and one `Call` that
forwarded the anchor batch `probeBat`. -/
def cteAnchor : MergeCTE.Argument := { cteInit 2 with buf := some probeBat }

end Sample

/-! ### Lemmas on `Bytes` -/

theorem uint32_le (n : Nat) : uint32 n ≤ n := Nat.mod_le _ _

theorem uint32_of_lt {n : Nat} (h : n < 4294967296) : uint32 n = n :=
  Nat.mod_eq_of_lt h

theorem uint32_add_uint32 (a b : Nat) : uint32 (uint32 a + uint32 b) = uint32 (a + b) := by
  unfold uint32; omega

namespace Bytes

theorem appendLoop_eq (vs : List (List Byte)) : ∀ (a : Bytes) (base : Nat),
    appendLoop a (uint32 base) vs =
      { Data := a.Data ++ vs.flatten, Os := a.Os ++ offsets base vs,
        Ns := a.Ns ++ vs.map (fun v => uint32 v.length) } := by
  induction vs with
  | nil => intro a base; simp [appendLoop, offsets]
  | cons v vs ih =>
    intro a base
    simp only [appendLoop, uint32_add_uint32, ih, offsets, List.flatten_cons, List.map_cons,
      List.append_assoc, List.singleton_append]

theorem Append_eq (a : Bytes) (vs : List (List Byte)) :
    a.Append vs =
      { Data := a.Data ++ vs.flatten, Os := a.Os ++ offsets a.Data.length vs,
        Ns := a.Ns ++ vs.map (fun v => uint32 v.length) } :=
  appendLoop_eq vs a a.Data.length

theorem offsets_length (vs : List (List Byte)) : ∀ base, (offsets base vs).length = vs.length := by
  induction vs with
  | nil => intro _; rfl
  | cons v vs ih => intro base; simp [offsets, ih]

theorem slice_eq_some {α : Type} (xs : List α) {lo hi : Nat} (h1 : lo ≤ hi)
    (h2 : hi ≤ xs.length) : slice xs lo hi = some ((xs.drop lo).take (hi - lo)) := by
  simp [slice, h1, h2]

theorem slice_length {α : Type} {xs ys : List α} {lo hi : Nat} (h : slice xs lo hi = some ys) :
    ys.length = hi - lo := by
  unfold slice at h
  split at h
  · rename_i hc
    cases h
    simp only [List.length_take, List.length_drop]
    omega
  · cases h

theorem slice_getElem? {α : Type} {xs ys : List α} {lo hi : Nat} (h : slice xs lo hi = some ys)
    {i : Nat} (hi' : i < hi - lo) : ys[i]? = xs[lo + i]? := by
  unfold slice at h
  split at h
  · cases h
    rw [List.getElem?_take_of_lt hi', List.getElem?_drop]
  · cases h

theorem slice_append_left {α : Type} (xs zs : List α) {lo hi : Nat} (h2 : hi ≤ xs.length) :
    slice (xs ++ zs) lo hi = slice xs lo hi := by
  unfold slice
  by_cases h1 : lo ≤ hi
  · have h3 : hi ≤ (xs ++ zs).length := by simp; omega
    simp only [h1, h2, h3, and_self, if_true]
    congr 1
    apply List.ext_getElem?
    intro i
    by_cases hi' : i < hi - lo
    · rw [List.getElem?_take_of_lt hi', List.getElem?_take_of_lt hi', List.getElem?_drop,
        List.getElem?_drop, List.getElem?_append_left (by omega)]
    · rw [List.getElem?_eq_none (by simp; omega), List.getElem?_eq_none (by simp; omega)]
  · simp [h1]

theorem offsets_getElem? (vs : List (List Byte)) : ∀ (base i : Nat), i < vs.length →
    (offsets base vs)[i]? = some (uint32 (base + (vs.take i).flatten.length)) := by
  induction vs with
  | nil => intro _ i h; simp at h
  | cons v vs ih =>
    intro base i h
    cases i with
    | zero => simp [offsets]
    | succ i =>
      have h' : i < vs.length := by simpa using h
      simp only [offsets, List.getElem?_cons_succ, ih _ _ h', List.take_succ_cons,
        List.flatten_cons, List.length_append, Nat.add_assoc]

theorem flatten_take_add_drop (vs : List (List Byte)) (i : Nat) :
    (vs.take i).flatten.length + (vs.drop i).flatten.length = vs.flatten.length := by
  have h : ((vs.take i).flatten ++ (vs.drop i).flatten).length = vs.flatten.length := by
    rw [← List.flatten_append, List.take_append_drop]
  rw [← h, List.length_append]

theorem flatten_take_le (vs : List (List Byte)) (i : Nat) :
    (vs.take i).flatten.length ≤ vs.flatten.length := by
  have := flatten_take_add_drop vs i
  omega

theorem flatten_take_succ_le (vs : List (List Byte)) (i : Nat) (h : i < vs.length) :
    (vs.take i).flatten.length + (vs.get ⟨i, h⟩).length ≤ vs.flatten.length := by
  have h1 := flatten_take_add_drop vs i
  have h2 : vs.drop i = vs.get ⟨i, h⟩ :: vs.drop (i + 1) :=
    List.drop_eq_getElem_cons h
  rw [h2, List.flatten_cons, List.length_append] at h1
  omega

theorem flatten_slice (vs : List (List Byte)) : ∀ (i : Nat) (h : i < vs.length),
    (vs.flatten.drop (vs.take i).flatten.length).take (vs.get ⟨i, h⟩).length = vs.get ⟨i, h⟩ := by
  induction vs with
  | nil => intro i h; simp at h
  | cons v vs ih =>
    intro i h
    cases i with
    | zero => simp
    | succ i =>
      have h' : i < vs.length := by simpa using h
      have := ih i h'
      simpa [List.drop_append] using this

theorem Window_eq_some (a : Bytes) {s e : Nat} (hlen : a.Os.length = a.Ns.length)
    (hse : s ≤ e) (he : e ≤ a.Os.length) :
    a.Window s e = some { Data := a.Data, Os := (a.Os.drop s).take (e - s),
                          Ns := (a.Ns.drop s).take (e - s) } := by
  unfold Window
  rw [slice_eq_some a.Os hse he, slice_eq_some a.Ns hse (hlen ▸ he)]

theorem Window_value {a w : Bytes} {s e : Nat} (h : a.Window s e = some w) {i : Nat}
    (hi : i < e - s) : w.value i = a.value (s + i) := by
  unfold Window at h
  split at h
  · rename_i os ns h1 h2
    cases h
    simp only [value, slice_getElem? h1 hi, slice_getElem? h2 hi]
  · cases h

theorem Window_value_none {a w : Bytes} {s e : Nat} (h : a.Window s e = some w) {i : Nat}
    (hi : e - s ≤ i) : w.value i = none := by
  unfold Window at h
  split at h
  · rename_i os ns h1 h2
    cases h
    have : os[i]? = none := List.getElem?_eq_none (by rw [slice_length h1]; exact hi)
    simp [value, this]
  · cases h

theorem WF_getElem? {a : Bytes} (h : WF a) {i o n : Nat} (ho : a.Os[i]? = some o)
    (hn : a.Ns[i]? = some n) : o + n ≤ a.Data.length := by
  have hz : (a.Os.zip a.Ns)[i]? = some (o, n) := by
    rw [List.getElem?_zip_eq_some]; exact ⟨ho, hn⟩
  exact h.2 (o, n) (List.getElem?_mem hz)

theorem value_append_empty (vs : List (List Byte)) (hlen : vs.flatten.length < 4294967296)
    (i : Nat) (h : i < vs.length) : (empty.Append vs).value i = some (vs.get ⟨i, h⟩) := by
  have h1 := flatten_take_succ_le vs i h
  have h2 : (vs.map (fun v => uint32 v.length))[i]? = some (uint32 (vs.get ⟨i, h⟩).length) := by
    simp [List.getElem?_map, List.getElem?_eq_getElem h]
  have h3 : uint32 (0 + (vs.take i).flatten.length) = (vs.take i).flatten.length :=
    by rw [Nat.zero_add]; exact uint32_of_lt (by omega)
  have h4 : uint32 (vs.get ⟨i, h⟩).length = (vs.get ⟨i, h⟩).length := uint32_of_lt (by omega)
  have h5 : uint32 ((vs.take i).flatten.length + (vs.get ⟨i, h⟩).length)
      = (vs.take i).flatten.length + (vs.get ⟨i, h⟩).length := uint32_of_lt (by omega)
  rw [Append_eq]
  simp only [value, empty, List.nil_append, List.length_nil, offsets_getElem? vs 0 i h, h2, h3, h4,
    h5]
  rw [slice_eq_some _ (by omega) h1, Nat.add_sub_cancel_left, flatten_slice vs i h]

theorem offsets_zip_le (vs : List (List Byte)) : ∀ (base : Nat),
    ∀ p ∈ (offsets base vs).zip (vs.map (fun v => uint32 v.length)),
      p.1 + p.2 ≤ base + vs.flatten.length := by
  induction vs with
  | nil => intro base p hp; simp [offsets] at hp
  | cons v vs ih =>
    intro base p hp
    simp only [offsets, List.map_cons, List.zip_cons_cons, List.mem_cons] at hp
    rcases hp with hp | hp
    · subst hp
      have h1 := uint32_le base
      have h2 := uint32_le v.length
      simp only [List.flatten_cons, List.length_append]
      omega
    · have := ih (base + v.length) p hp
      simp only [List.flatten_cons, List.length_append]
      omega

theorem WF_Reset (a : Bytes) : WF a.Reset := by
  simp [WF, Reset]

theorem WF_Append {a : Bytes} (h : WF a) (vs : List (List Byte)) : WF (a.Append vs) := by
  rw [Append_eq]
  refine ⟨?_, ?_⟩
  · simp [offsets_length, h.1]
  · intro p hp
    simp only [List.zip_append h.1, List.mem_append] at hp
    simp only [List.length_append]
    rcases hp with hp | hp
    · have := h.2 p hp
      omega
    · exact offsets_zip_le vs a.Data.length p hp

theorem WF_Window {a w : Bytes} (h : WF a) {s e : Nat} (hw : a.Window s e = some w) : WF w := by
  unfold Window at hw
  split at hw
  · rename_i os ns h1 h2
    cases hw
    refine ⟨by rw [slice_length h1, slice_length h2], ?_⟩
    intro p hp
    obtain ⟨i, hi⟩ := List.mem_iff_getElem?.mp hp
    rw [List.getElem?_zip_eq_some] at hi
    have hlt : i < e - s := by
      have := (List.getElem?_eq_some.mp hi.1).1
      rw [slice_length h1] at this
      exact this
    rw [slice_getElem? h1 hlt] at hi
    rw [slice_getElem? h2 hlt] at hi
    exact WF_getElem? h hi.1 hi.2
  · cases hw

theorem Append_value_old {a : Bytes} (h : WF a) (vs : List (List Byte)) {i : Nat}
    (hi : i < a.Os.length) : (a.Append vs).value i = a.value i := by
  rw [Append_eq]
  have hi' : i < a.Ns.length := h.1 ▸ hi
  have hn := WF_getElem? h (List.getElem?_eq_getElem hi) (List.getElem?_eq_getElem hi')
  have hu := uint32_le (a.Os[i] + a.Ns[i])
  simp only [value, List.getElem?_append_left hi, List.getElem?_append_left hi',
    List.getElem?_eq_getElem hi, List.getElem?_eq_getElem hi']
  exact slice_append_left _ _ (by omega)

theorem value_huge (a : Bytes) (ha : a = empty) (v : List Byte) (hv : v.length = 4294967296) :
    ((a.Append [v]).Window 0 1).bind (fun w => w.value 0) = some [] := by
  subst ha
  rw [Append_eq]
  simp [empty, offsets, Window, value, slice, uint32, hv]

theorem value_huge_direct (a : Bytes) (ha : a = empty) (v : List Byte)
    (hv : v.length = 4294967296) : (a.Append [v]).value 0 = some [] := by
  subst ha
  rw [Append_eq]
  simp [empty, offsets, value, slice, uint32, hv]

theorem huge_ne_nil (v : List Byte) (hv : v.length = 4294967296) :
    ([v] : List (List Byte))[0]? ≠ some [] := by
  intro hc
  simp only [List.getElem?_cons_zero, Option.some.injEq] at hc
  rw [hc] at hv
  simp at hv

end Bytes

/-! ## Contracts of the byte column -/

/-- C1 (as amended): for every sequence `vs` of byte strings whose total length
is below `2^32`, appended with `Append` to an empty column, and every
`a ≤ b ≤ len(vs)`, `Window(a, b)` succeeds, has exactly `b - a` offsets and
lengths, its `i`-th value `Data[Os[i] : Os[i]+Ns[i]]` is `vs[a+i]` for every
`i < b - a`, and its `Data` is the `Data` of the source column. -/
theorem Bytes.append_window_roundtrip (vs : List (List Byte)) (a b : Nat)
    (hlen : vs.flatten.length < 4294967296) (hab : a ≤ b) (hb : b ≤ vs.length) :
    ∃ w, (Bytes.empty.Append vs).Window a b = some w ∧
      w.Os.length = b - a ∧ w.Ns.length = b - a ∧
      (∀ i (hi : i < b - a), w.value i = some (vs.get ⟨a + i, by omega⟩)) ∧
      w.Data = (Bytes.empty.Append vs).Data := by
  have hOs : (Bytes.empty.Append vs).Os.length = vs.length := by
    rw [Bytes.Append_eq]; simp [Bytes.empty, Bytes.offsets_length]
  have hNs : (Bytes.empty.Append vs).Ns.length = vs.length := by
    rw [Bytes.Append_eq]; simp [Bytes.empty]
  have hw := Bytes.Window_eq_some (Bytes.empty.Append vs) (hOs.trans hNs.symm) hab (hOs ▸ hb)
  refine ⟨_, hw, ?_, ?_, ?_, rfl⟩
  · simp only [List.length_take, List.length_drop, hOs]; omega
  · simp only [List.length_take, List.length_drop, hNs]; omega
  · intro i hi
    rw [Bytes.Window_value hw hi]
    exact Bytes.value_append_empty vs hlen (a + i) (by omega)

/-- Witness of C1: three values, the window `[1, 3)`. -/
theorem Bytes.append_window_roundtrip_witness :
    ∃ w, (Bytes.empty.Append [[1, 2], [], [3, 4, 5]]).Window 1 3 = some w ∧
      w.Os.length = 3 - 1 ∧ w.Ns.length = 3 - 1 ∧
      (∀ i (hi : i < 3 - 1), w.value i
        = some (([[1, 2], [], [3, 4, 5]] : List (List Byte)).get ⟨1 + i, by
            simp only [List.length_cons, List.length_nil]; omega⟩)) ∧
      w.Data = (Bytes.empty.Append [[1, 2], [], [3, 4, 5]]).Data :=
  Bytes.append_window_roundtrip [[1, 2], [], [3, 4, 5]] 1 3 (by decide) (by decide) (by decide)

/-- Counterexample to C1 as stated: one value of `2^32` bytes appended to an
empty column. `Append` stores offset `0` and length `uint32(2^32) = 0`, so the
window `[0, 1)` reads the empty string where `vs[0]` has `2^32` bytes. -/
theorem Bytes.append_window_roundtrip_overflow :
    ((Bytes.empty.Append [List.replicate 4294967296 0]).Window 0 1).bind (fun w => w.value 0)
        = some [] ∧
      ([List.replicate 4294967296 0] : List (List Byte))[0]? ≠ some [] :=
  ⟨Bytes.value_huge Bytes.empty rfl (List.replicate 4294967296 0) (List.length_replicate _ _),
    Bytes.huge_ne_nil (List.replicate 4294967296 0) (List.length_replicate _ _)⟩

/-- C2: the column invariant (`len(Os) == len(Ns)` and `Os[i]+Ns[i] <= len(Data)`
for every `i`) is preserved by `Reset`, by `Append(vs)` for every `vs`, and by
`Window(start, end)` for every `start <= end <= len(Os)`, which succeeds; and
`Append(vs)` grows the number of values by exactly `len(vs)`. -/
theorem Bytes.wf_preserved (a : Bytes) (h : a.WF) :
    a.Reset.WF ∧
    (∀ vs, (a.Append vs).WF ∧ (a.Append vs).Os.length = a.Os.length + vs.length ∧
      (a.Append vs).Ns.length = a.Ns.length + vs.length) ∧
    (∀ s e, s ≤ e → e ≤ a.Os.length → ∃ w, a.Window s e = some w ∧ w.WF) := by
  refine ⟨Bytes.WF_Reset a, ?_, ?_⟩
  · intro vs
    refine ⟨Bytes.WF_Append h vs, ?_, ?_⟩ <;>
      (rw [Bytes.Append_eq]; simp [Bytes.offsets_length])
  · intro s e hse he
    have hw := Bytes.Window_eq_some a h.1 hse he
    exact ⟨_, hw, Bytes.WF_Window h hw⟩

/-- Witness of C2: a well-formed column of two values. -/
theorem Bytes.wf_preserved_witness :
    (Bytes.WF ⟨[7, 8, 9], [0, 1], [1, 2]⟩) ∧
    (Bytes.Reset ⟨[7, 8, 9], [0, 1], [1, 2]⟩).WF ∧
    (∀ vs, (Bytes.Append ⟨[7, 8, 9], [0, 1], [1, 2]⟩ vs).WF ∧
      (Bytes.Append ⟨[7, 8, 9], [0, 1], [1, 2]⟩ vs).Os.length = [0, 1].length + vs.length ∧
      (Bytes.Append ⟨[7, 8, 9], [0, 1], [1, 2]⟩ vs).Ns.length = [1, 2].length + vs.length) ∧
    (∀ s e, s ≤ e → e ≤ [0, 1].length →
      ∃ w, Bytes.Window ⟨[7, 8, 9], [0, 1], [1, 2]⟩ s e = some w ∧ w.WF) :=
  ⟨by decide, Bytes.wf_preserved ⟨[7, 8, 9], [0, 1], [1, 2]⟩ (by decide)⟩

/-- C3: for a well-formed column `a` and every `vs`, after `a.Append(vs)` the
old `Os`, `Ns` and `Data` are prefixes of the new ones, and for every range
`[s, e)` within the old length both windows exist and read the same values
(at every index); when the old arena is shorter than `2^32` bytes those
values are really there, none of the reads panics. -/
theorem Bytes.append_keeps_windows (a : Bytes) (h : a.WF) (vs : List (List Byte)) :
    a.Os <+: (a.Append vs).Os ∧ a.Ns <+: (a.Append vs).Ns ∧ a.Data <+: (a.Append vs).Data ∧
    ∀ s e, s ≤ e → e ≤ a.Os.length →
      ∃ w w', a.Window s e = some w ∧ (a.Append vs).Window s e = some w' ∧
        (∀ i, w'.value i = w.value i) ∧
        (a.Data.length < 4294967296 → ∀ i, i < e - s → (w.value i).isSome) := by
  have hA := Bytes.Append_eq a vs
  refine ⟨?_, ?_, ?_, ?_⟩
  · rw [hA]; exact List.prefix_append _ _
  · rw [hA]; exact List.prefix_append _ _
  · rw [hA]; exact List.prefix_append _ _
  · intro s e hse he
    have hwf := Bytes.WF_Append h vs
    have hlen : (a.Append vs).Os.length = a.Os.length + vs.length := by
      rw [hA]; simp [Bytes.offsets_length]
    have hw := Bytes.Window_eq_some a h.1 hse he
    have hw' := Bytes.Window_eq_some (a.Append vs) hwf.1 hse (by omega)
    refine ⟨_, _, hw, hw', ?_, ?_⟩
    · intro i
      by_cases hi : i < e - s
      · rw [Bytes.Window_value hw hi, Bytes.Window_value hw' hi]
        exact Bytes.Append_value_old h vs (by omega)
      · rw [Bytes.Window_value_none hw (by omega), Bytes.Window_value_none hw' (by omega)]
    · intro hd i hi
      rw [Bytes.Window_value hw hi]
      have h1 : s + i < a.Os.length := by omega
      have h2 : s + i < a.Ns.length := h.1 ▸ h1
      have hn := Bytes.WF_getElem? h (List.getElem?_eq_getElem h1) (List.getElem?_eq_getElem h2)
      have hu : uint32 (a.Os[s + i] + a.Ns[s + i]) = a.Os[s + i] + a.Ns[s + i] :=
        uint32_of_lt (by omega)
      simp only [Bytes.value, List.getElem?_eq_getElem h1, List.getElem?_eq_getElem h2, hu]
      rw [Bytes.slice_eq_some _ (by omega) hn]
      rfl

/-- Witness of C3: a well-formed column of two values, one value appended. -/
theorem Bytes.append_keeps_windows_witness :
    (Bytes.WF ⟨[7, 8, 9], [0, 1], [1, 2]⟩) ∧
    [0, 1] <+: (Bytes.Append ⟨[7, 8, 9], [0, 1], [1, 2]⟩ [[4, 4]]).Os ∧
    [1, 2] <+: (Bytes.Append ⟨[7, 8, 9], [0, 1], [1, 2]⟩ [[4, 4]]).Ns ∧
    [7, 8, 9] <+: (Bytes.Append ⟨[7, 8, 9], [0, 1], [1, 2]⟩ [[4, 4]]).Data ∧
    ∀ s e, s ≤ e → e ≤ [0, 1].length →
      ∃ w w', Bytes.Window ⟨[7, 8, 9], [0, 1], [1, 2]⟩ s e = some w ∧
        (Bytes.Append ⟨[7, 8, 9], [0, 1], [1, 2]⟩ [[4, 4]]).Window s e = some w' ∧
        (∀ i, w'.value i = w.value i) ∧
        ([7, 8, 9].length < 4294967296 → ∀ i, i < e - s → (w.value i).isSome) :=
  ⟨by decide, Bytes.append_keeps_windows ⟨[7, 8, 9], [0, 1], [1, 2]⟩ (by decide) [[4, 4]]⟩

/-- C4 (as amended): after `a.Reset()` the lengths of `Os`, `Ns` and `Data` are
all `0`; a following `Append(vs)` gives the column that `Append(vs)` gives on
an empty column, whatever `a` held, with `len(vs)` values and first offset
`0`; and when the total length of `vs` is below `2^32` its values are exactly
`vs` in order. -/
theorem Bytes.reset_then_append (a : Bytes) :
    a.Reset.Os.length = 0 ∧ a.Reset.Ns.length = 0 ∧ a.Reset.Data.length = 0 ∧
    ∀ vs : List (List Byte),
      a.Reset.Append vs = Bytes.empty.Append vs ∧
      (a.Reset.Append vs).Os.length = vs.length ∧
      (vs ≠ [] → (a.Reset.Append vs).Os[0]? = some 0) ∧
      (vs.flatten.length < 4294967296 →
        ∀ i (hi : i < vs.length), (a.Reset.Append vs).value i = some (vs.get ⟨i, hi⟩)) := by
  have hr : a.Reset = Bytes.empty := by simp [Bytes.Reset, Bytes.empty]
  refine ⟨by simp [Bytes.Reset], by simp [Bytes.Reset], by simp [Bytes.Reset], ?_⟩
  intro vs
  rw [hr]
  refine ⟨rfl, ?_, ?_, ?_⟩
  · rw [Bytes.Append_eq]; simp [Bytes.empty, Bytes.offsets_length]
  · intro hne
    cases vs with
    | nil => exact absurd rfl hne
    | cons v vs => rw [Bytes.Append_eq]; simp [Bytes.empty, Bytes.offsets, uint32]
  · intro hlen i hi
    exact Bytes.value_append_empty vs hlen i hi

/-- Witness of C4: a column holding two values is reset and two values are
appended. -/
theorem Bytes.reset_then_append_witness :
    (([[5], [6, 7]] : List (List Byte)) ≠ []) ∧
    (([[5], [6, 7]] : List (List Byte)).flatten.length < 4294967296) ∧
    (Bytes.Reset ⟨[7, 8, 9], [0, 1], [1, 2]⟩).Data.length = 0 ∧
    ((Bytes.Reset ⟨[7, 8, 9], [0, 1], [1, 2]⟩).Append [[5], [6, 7]]).Os[0]? = some 0 ∧
    ∀ i (hi : i < ([[5], [6, 7]] : List (List Byte)).length),
      ((Bytes.Reset ⟨[7, 8, 9], [0, 1], [1, 2]⟩).Append [[5], [6, 7]]).value i
        = some (([[5], [6, 7]] : List (List Byte)).get ⟨i, hi⟩) :=
  ⟨by decide, by decide,
    (Bytes.reset_then_append ⟨[7, 8, 9], [0, 1], [1, 2]⟩).2.2.1,
    ((Bytes.reset_then_append ⟨[7, 8, 9], [0, 1], [1, 2]⟩).2.2.2 [[5], [6, 7]]).2.2.1 (by decide),
    ((Bytes.reset_then_append ⟨[7, 8, 9], [0, 1], [1, 2]⟩).2.2.2 [[5], [6, 7]]).2.2.2 (by decide)⟩

/-- Counterexample to C4 as stated: a column is reset and one value of `2^32`
bytes is appended; the stored length is `uint32(2^32) = 0`, so the value read
back is the empty string, not the value appended. -/
theorem Bytes.reset_then_append_overflow :
    ((Bytes.Reset ⟨[7, 8, 9], [0, 1], [1, 2]⟩).Append [List.replicate 4294967296 1]).value 0
        = some [] ∧
      ([List.replicate 4294967296 1] : List (List Byte))[0]? ≠ some [] :=
  ⟨Bytes.value_huge_direct _ rfl (List.replicate 4294967296 1) (List.length_replicate _ _),
    Bytes.huge_ne_nil (List.replicate 4294967296 1) (List.length_replicate _ _)⟩

/-! ### Lemmas on the build phase of the join -/

namespace Join

theorem drain_dataMsgs (bs : List Batch) : ∀ (tl : List RegisterMessage) (ctr : container),
    endsStream tl →
    drain (dataMsgs bs ++ tl) ctr =
      ({ ctr with batchRowCount := ctr.batchRowCount + (bs.map (fun b => b.rowCount)).sum,
                  batches := ctr.batches ++ bs }, tl.tail, none) := by
  induction bs with
  | nil =>
    intro tl ctr h
    rcases h with h | h
    · subst h; simp [dataMsgs, drain]
    · cases tl with
      | nil => simp [dataMsgs, drain]
      | cons m tl =>
        simp only [List.head?_cons, Option.some.injEq] at h
        subst h
        simp [dataMsgs, drain, NormalEndRegisterMessage]
  | cons b bs ih =>
    intro tl ctr h
    rw [show dataMsgs (b :: bs) ++ tl
        = { Batch := some b, Err := none } :: (dataMsgs bs ++ tl) from rfl]
    simp only [drain]
    rw [ih tl _ h]
    simp [Nat.add_assoc]

theorem chunksOk_iff (K : Consts) (bs : List Batch) :
    chunksOk K bs = true ↔
      ∀ i (h : i < bs.length), i + 1 < bs.length → (bs.get ⟨i, h⟩).rowCount = K.DefaultBatchSize := by
  unfold chunksOk
  rw [List.all_eq_true]
  constructor
  · intro h i hi hi1
    have hmem : bs.get ⟨i, hi⟩ ∈ bs.take (bs.length - 1) := by
      rw [List.mem_iff_getElem?]
      refine ⟨i, ?_⟩
      rw [List.getElem?_take_of_lt (by omega), List.getElem?_eq_getElem hi]
      rfl
    simpa using h _ hmem
  · intro h b hb
    obtain ⟨i, hi⟩ := List.mem_iff_getElem?.mp hb
    have hlt : i < bs.length - 1 := by
      by_contra hc
      rw [List.getElem?_take_eq_none (by omega)] at hi
      cases hi
    rw [List.getElem?_take_of_lt hlt] at hi
    have hi' : i < bs.length := by omega
    rw [List.getElem?_eq_getElem hi'] at hi
    cases hi
    simpa using h i hi' (by omega)

end Join

/-! ## Contracts of the join operator: cancellation and the build phase -/

/-- C5: for the join operator's `Call` and the merge-CTE operator's `Call`, in
every operator state, if the cancellation check reports that the signal is
set, `Call` returns the cancel result (stop status, no batch) with the
context's error, and the whole state is returned unchanged: the operator's
fields, every register (no receive) and the log of released batches (no
release). -/
theorem cancel_stops_call (K : Consts) (proc : Process) (h : (CancelCheck proc).2 = true) :
    (∀ (ap : Join.InnerJoin) (ctr : Join.container),
      Join.Call K ap ctr proc = .ok (ctr, proc, CancelResult, (CancelCheck proc).1)) ∧
    (∀ (arg : MergeCTE.Argument),
      MergeCTE.Call K arg proc = .ok (arg, proc, CancelResult, (CancelCheck proc).1)) ∧
    CancelResult.Status = .ExecStop ∧ CancelResult.Batch = none := by
  unfold CancelCheck at h
  cases hc : proc.Ctx with
  | none => rw [hc] at h; cases h
  | some e =>
    refine ⟨?_, ?_, rfl, rfl⟩
    · intro ap ctr; simp [Join.Call, CancelCheck, hc]
    · intro arg; simp [MergeCTE.Call, CancelCheck, hc]

/-- Witness of C5: a cancelled process with pending probe input, a join that
holds a probe batch and a merge-CTE operator that holds a batch. -/
theorem cancel_stops_call_witness :
    (CancelCheck { Sample.proc [] with Ctx := some (.ctx 1) }).2 = true ∧
    Join.Call Sample.K Sample.ap Sample.probing { Sample.proc [] with Ctx := some (.ctx 1) }
      = .ok (Sample.probing, { Sample.proc [] with Ctx := some (.ctx 1) }, CancelResult,
          some (.ctx 1)) ∧
    MergeCTE.Call Sample.K ⟨⟨[0, 1], 1, 1, .sendRecursive, 3⟩, some Sample.probeBat⟩
        { Sample.proc [] with Ctx := some (.ctx 1) }
      = .ok (⟨⟨[0, 1], 1, 1, .sendRecursive, 3⟩, some Sample.probeBat⟩,
          { Sample.proc [] with Ctx := some (.ctx 1) }, CancelResult, some (.ctx 1)) :=
  ⟨rfl,
   (cancel_stops_call Sample.K { Sample.proc [] with Ctx := some (.ctx 1) } rfl).1 _ _,
   (cancel_stops_call Sample.K { Sample.proc [] with Ctx := some (.ctx 1) } rfl).2.1 _⟩

namespace Join

theorem receiveBatch_eq (K : Consts) (ctr : container) (proc : Process) (bs : List Batch)
    (tl : List RegisterMessage) (hreg : proc.MergeReceivers[1]? = some (dataMsgs bs ++ tl))
    (hend : endsStream tl) :
    receiveBatch K ctr proc =
      if chunksOk K (ctr.batches ++ bs) then
        .ok ({ ctr with batchRowCount := ctr.batchRowCount + (bs.map (fun b => b.rowCount)).sum,
                        batches := ctr.batches ++ bs },
             { proc with MergeReceivers := proc.MergeReceivers.set 1 tl.tail }, none)
      else .error "wrong batch received for hash build!" := by
  unfold receiveBatch
  rw [hreg]
  simp only [drain_dataMsgs bs tl ctr hend]

end Join

/-- C10: `receiveBatch`, on a container that holds no build batch yet and a
build register that delivers the batches `bs` followed by end-of-stream with
no error, panics if and only if some batch other than the last has a row
count different from `DefaultBatchSize`; when it does not panic it returns no
error, the accumulated batches are exactly `bs` in arrival order, and
`batchRowCount` has grown by the sum of their row counts. -/
theorem Join.receiveBatch_validation (K : Consts) (ctr : Join.container) (proc : Process)
    (bs : List Batch) (tl : List RegisterMessage)
    (hreg : proc.MergeReceivers[1]? = some (Join.dataMsgs bs ++ tl))
    (hend : Join.endsStream tl) (hb : ctr.batches = []) :
    ((∃ p, Join.receiveBatch K ctr proc = .error p) ↔
      ∃ i, ∃ h : i < bs.length, i + 1 < bs.length ∧
        (bs.get ⟨i, h⟩).rowCount ≠ K.DefaultBatchSize) ∧
    ((∀ i, ∀ h : i < bs.length, i + 1 < bs.length →
        (bs.get ⟨i, h⟩).rowCount = K.DefaultBatchSize) →
      Join.receiveBatch K ctr proc =
        .ok ({ ctr with batches := bs,
                        batchRowCount := ctr.batchRowCount
                          + (bs.map (fun b => b.rowCount)).sum },
             { proc with MergeReceivers := proc.MergeReceivers.set 1 tl.tail }, none)) := by
  have heq := Join.receiveBatch_eq K ctr proc bs tl hreg hend
  rw [hb, List.nil_append] at heq
  have hiff := Join.chunksOk_iff K bs
  by_cases hc : Join.chunksOk K bs = true
  · rw [hc, if_pos rfl] at heq
    refine ⟨⟨?_, ?_⟩, fun _ => heq⟩
    · rintro ⟨p, hp⟩
      rw [heq] at hp
      cases hp
    · rintro ⟨i, h, h1, hne⟩
      exact absurd (hiff.mp hc i h h1) hne
  · have hc' : Join.chunksOk K bs = false := by simpa using hc
    rw [hc'] at heq
    simp only [Bool.false_eq_true, if_false] at heq
    refine ⟨⟨fun _ => ?_, fun _ => ⟨_, heq⟩⟩, fun hn => absurd (hiff.mpr hn) hc⟩
    by_contra hno
    apply hc
    rw [hiff]
    intro i h h1
    by_contra hne
    exact hno ⟨i, h, h1, hne⟩

/-- Witness of C10: a full batch followed by a short last batch is accepted. -/
theorem Join.receiveBatch_validation_witness :
    Join.receiveBatch Sample.K (Join.Prepare Sample.K Sample.ap)
        (Sample.proc (Join.dataMsgs [Sample.buildBat, Sample.buildBat1]))
      = .ok ({ Join.Prepare Sample.K Sample.ap with
                 batches := [Sample.buildBat, Sample.buildBat1], batchRowCount := 0 + 4 },
             { Sample.proc (Join.dataMsgs [Sample.buildBat, Sample.buildBat1]) with
                 MergeReceivers := [[⟨some Sample.probeBat, none⟩], []] }, none) :=
  (Join.receiveBatch_validation Sample.K (Join.Prepare Sample.K Sample.ap)
    (Sample.proc (Join.dataMsgs [Sample.buildBat, Sample.buildBat1]))
    [Sample.buildBat, Sample.buildBat1] [] rfl (Or.inl rfl) rfl).2 (by decide)

namespace Join

theorem receiveHashMap_noIndex (ctr : container) (proc : Process) (m : RegisterMessage)
    (q : List RegisterMessage) (hreg : proc.MergeReceivers[1]? = some (m :: q))
    (hm : noIndex m) :
    receiveHashMap ctr proc
      = .ok (ctr, { proc with MergeReceivers := proc.MergeReceivers.set 1 q }, none) := by
  unfold receiveHashMap ReceiveFromSingleReg
  rw [hreg]
  obtain ⟨he, hb | ⟨b, hb, ha⟩⟩ := hm
  · simp [he, hb]
  · simp [he, hb, ha]

theorem getElem?_set_one (regs : List (List RegisterMessage)) (q r : List RegisterMessage)
    (h : regs[1]? = some q) : (regs.set 1 r)[1]? = some r := by
  have hlt : 1 < regs.length := (List.getElem?_eq_some.mp h).1
  simp [List.getElem?_set, hlt]

end Join

/-- C6 (as amended): for a join that is not a shuffle variant, is in the
`Build` state and holds no hash index, if the first message on the build
register carries no hash index (it is end-of-stream, or a batch without
attached index) and the build register then delivers the batches `bs`, which
pass the chunk-size validation, followed by end-of-stream with no error, then
`Call` moves the state to `End` and returns the stop status with no batch and
no error; the probe register is not read and no batch is released. From then
on every `Call` returns no batch. -/
theorem Join.empty_build_ends (K : Consts) (ap : Join.InnerJoin) (ctr : Join.container)
    (proc : Process) (m : RegisterMessage) (bs : List Batch) (tl : List RegisterMessage)
    (hctx : proc.Ctx = none) (hst : ctr.state = .Build) (hmp : ctr.mp = none)
    (hsh : ap.IsShuffle = false)
    (hreg : proc.MergeReceivers[1]? = some (m :: (Join.dataMsgs bs ++ tl)))
    (hm : Join.noIndex m) (hend : Join.endsStream tl)
    (hok : Join.chunksOk K (ctr.batches ++ bs) = true) :
    Join.Call K ap ctr proc =
      .ok ({ ctr with state := .End, batches := ctr.batches ++ bs,
                      batchRowCount := ctr.batchRowCount + (bs.map (fun b => b.rowCount)).sum },
           { proc with MergeReceivers := proc.MergeReceivers.set 1 tl.tail },
           { Status := .ExecStop, Batch := none }, none) ∧
    (proc.MergeReceivers.set 1 tl.tail)[0]? = proc.MergeReceivers[0]? ∧
    (∀ (c : Join.container) (p : Process), c.state = .End →
      ∃ r e, Join.Call K ap c p = .ok (c, p, r, e) ∧ r.Batch = none) := by
  refine ⟨?_, ?_, ?_⟩
  · have h1 := Join.receiveHashMap_noIndex ctr proc m _ hreg hm
    have h2 := Join.receiveBatch_eq K ctr
      { proc with MergeReceivers := proc.MergeReceivers.set 1 (Join.dataMsgs bs ++ tl) } bs tl
      (Join.getElem?_set_one _ _ _ hreg) hend
    rw [hok, if_pos rfl] at h2
    have hb : Join.build K ctr proc = .ok
        ({ ctr with batchRowCount := ctr.batchRowCount + (bs.map (fun b => b.rowCount)).sum,
                    batches := ctr.batches ++ bs },
         { proc with MergeReceivers := proc.MergeReceivers.set 1 tl.tail }, none) := by
      unfold Join.build
      rw [h1]
      simp only [h2, List.set_set]
    simp [Join.Call, CancelCheck, hctx, hst, hb, hmp, hsh, Join.callEnd]
  · simp [List.getElem?_set]
  · intro c p hc
    cases hp : p.Ctx with
    | some e => exact ⟨CancelResult, some e, by simp [Join.Call, CancelCheck, hp], rfl⟩
    | none =>
      exact ⟨{ Status := .ExecStop, Batch := none }, none,
        by simp [Join.Call, CancelCheck, hp, hc, Join.callEnd], rfl⟩

/-- Witness of C6: after `Prepare`, the build register delivers a control
batch without index and then end-of-stream. -/
theorem Join.empty_build_ends_witness :
    Join.noIndex ⟨some Sample.noIndexBat, none⟩ ∧
    Join.Call Sample.K Sample.ap (Join.Prepare Sample.K Sample.ap)
        (Sample.proc [⟨some Sample.noIndexBat, none⟩])
      = .ok ({ Join.Prepare Sample.K Sample.ap with state := .End },
             { Sample.proc [⟨some Sample.noIndexBat, none⟩] with
                 MergeReceivers := [[⟨some Sample.probeBat, none⟩], []] },
             { Status := .ExecStop, Batch := none }, none) :=
  ⟨⟨rfl, Or.inr ⟨_, rfl, rfl⟩⟩,
   (Join.empty_build_ends Sample.K Sample.ap (Join.Prepare Sample.K Sample.ap)
      (Sample.proc [⟨some Sample.noIndexBat, none⟩]) ⟨some Sample.noIndexBat, none⟩ [] []
      rfl rfl rfl rfl rfl ⟨rfl, Or.inr ⟨_, rfl, rfl⟩⟩ (Or.inl rfl) rfl).1⟩

/-- Counterexample to C6 as stated. First, an index that is present but empty:
the join moves to `Probe`, reads the probe register and returns an output
batch. Second, an absent index followed by an upstream error on the build
register: `Call` returns that error and stays in `Build`. -/
theorem Join.empty_build_not_always_end :
    Join.view (Join.Call Sample.K Sample.apProbeOnly (Join.Prepare Sample.K Sample.apProbeOnly)
        (Sample.proc [⟨some (Sample.indexBat Join.emptyIndex), none⟩]))
      = some (.Probe, some [],
          { Status := .ExecNext,
            Batch := some { Attrs := [], Vecs := [⟨1, true, []⟩], rowCount := 0, last := false,
                            AuxData := none } }, none) ∧
    Join.view (Join.Call Sample.K Sample.ap (Join.Prepare Sample.K Sample.ap)
        (Sample.proc [⟨some Sample.noIndexBat, none⟩, ⟨none, some (.other 7)⟩]))
      = some (.Build, some [⟨some Sample.probeBat, none⟩], NewCallResult, some (.other 7)) :=
  ⟨by decide, by decide⟩

/-! ### Lemmas on the row step of `probe` -/

namespace Join

theorem unionBuild_eq (K : Consts) (batches : List Batch) (pos : Nat) (v : Vector) (sel : Nat) :
    unionBuild K batches pos v sel =
      match buildCell K batches pos sel with
      | some x => .ok { v with data := v.data ++ [x] }
      | none => .error "index out of range" := by
  unfold unionBuild buildCell vecAt Vector.UnionOne
  cases h1 : batches[sel / K.DefaultBatchSize]? with
  | none => simp
  | some b =>
    cases h2 : b.Vecs[pos]? with
    | none => simp [h2]
    | some src =>
      cases h : src.data[sel % K.DefaultBatchSize]? <;> simp [h2, h]

theorem unionSels_eq (K : Consts) (batches : List Batch) (pos : Nat) (sels : List Nat) :
    ∀ v : Vector, unionSels K batches pos sels v =
      match mapAll (buildCell K batches pos) sels with
      | some d => .ok { v with data := v.data ++ d }
      | none => .error "index out of range" := by
  induction sels with
  | nil => intro v; simp [unionSels, mapAll]
  | cons sel sels ih =>
    intro v
    simp only [unionSels, unionBuild_eq, mapAll]
    cases hx : buildCell K batches pos sel with
    | none => simp
    | some x =>
      simp only [ih]
      cases hd : mapAll (buildCell K batches pos) sels with
      | none => simp
      | some d => simp

theorem unionGeneral_eq (K : Consts) (bat : Batch) (batches : List Batch) (row : Nat)
    (sels : List Nat) (rp : ResultPos) (v : Vector) :
    unionGeneral K bat batches row sels rp v =
      match colDelta K bat batches row sels rp with
      | some d => .ok { v with data := v.data ++ d }
      | none => .error "index out of range" := by
  unfold unionGeneral colDelta
  by_cases h : rp.Rel = 0
  · simp only [h, if_true, vecAt, probeCell, Vector.UnionMulti]
    cases h2 : bat.Vecs[rp.Pos]? with
    | none => simp
    | some src => cases hx : src.data[row]? <;> simp [hx]
  · simp only [h, if_false, unionSels_eq]

theorem unionPK_eq (K : Consts) (bat : Batch) (batches : List Batch) (row idx : Nat)
    (rp : ResultPos) (v : Vector) :
    unionPK K bat batches row idx rp v = unionGeneral K bat batches row [idx] rp v := by
  unfold unionPK unionGeneral
  by_cases h : rp.Rel = 0
  · simp only [h, if_true, Vector.UnionOne, Vector.UnionMulti, List.length_singleton,
      List.replicate_one]
  · simp only [h, if_false, unionSels]
    cases unionBuild K batches rp.Pos v idx <;> rfl

theorem unionLoop_eq (K : Consts) (bat : Batch) (batches : List Batch) (row : Nat)
    (sels : List Nat) (rps : List ResultPos) : ∀ vs : List Vector,
    unionLoop (unionGeneral K bat batches row sels) rps vs =
      match mapAll (colDelta K bat batches row sels) rps with
      | some ds =>
        if rps.length ≤ vs.length then .ok (appendCols ds vs) else .error "index out of range"
      | none => .error "index out of range" := by
  induction rps with
  | nil => intro vs; simp [unionLoop, appendCols, mapAll]
  | cons rp rps ih =>
    intro vs
    cases vs with
    | nil =>
      simp only [unionLoop, mapAll]
      cases colDelta K bat batches row sels rp with
      | none => simp
      | some d =>
        cases mapAll (colDelta K bat batches row sels) rps <;> simp
    | cons v vs =>
      simp only [unionLoop, unionGeneral_eq, mapAll, ih]
      cases colDelta K bat batches row sels rp with
      | none => simp
      | some d =>
        cases mapAll (colDelta K bat batches row sels) rps with
        | none => simp
        | some ds =>
          by_cases hl : rps.length ≤ vs.length
          · simp [hl, appendCols]
          · simp [hl]

theorem unionLoop_PK_eq (K : Consts) (bat : Batch) (batches : List Batch) (row idx : Nat)
    (rps : List ResultPos) (vs : List Vector) :
    unionLoop (unionPK K bat batches row idx) rps vs =
      match mapAll (colDelta K bat batches row [idx]) rps with
      | some ds =>
        if rps.length ≤ vs.length then .ok (appendCols ds vs) else .error "index out of range"
      | none => .error "index out of range" := by
  have h : unionPK K bat batches row idx = unionGeneral K bat batches row [idx] := by
    funext rp v; exact unionPK_eq K bat batches row idx rp v
  rw [h, unionLoop_eq]

theorem mapM_length {α β : Type} (f : α → Option β) (xs : List α) : ∀ ys : List β,
    mapAll f xs = some ys → ys.length = xs.length := by
  induction xs with
  | nil => intro ys h; simp [mapAll] at h; subst h; rfl
  | cons x xs ih =>
    intro ys h
    simp only [mapAll] at h
    cases hx : f x with
    | none => simp [hx] at h
    | some y =>
      cases hr : mapAll f xs with
      | none => simp [hx, hr] at h
      | some r =>
        simp [hx, hr] at h
        subst h
        simp [ih r hr]

theorem colDelta_length {K : Consts} {bat : Batch} {batches : List Batch} {row : Nat}
    {sels : List Nat} {rp : ResultPos} {d : List Datum}
    (h : colDelta K bat batches row sels rp = some d) : d.length = sels.length := by
  unfold colDelta at h
  split at h
  · cases hx : probeCell bat rp.Pos row with
    | none => simp [hx] at h
    | some x => simp [hx] at h; subst h; simp
  · exact mapM_length _ _ _ h

theorem colDeltas_length {K : Consts} {bat : Batch} {batches : List Batch} {row : Nat}
    {sels : List Nat} (rps : List ResultPos) : ∀ ds : List (List Datum),
    mapAll (colDelta K bat batches row sels) rps = some ds → ∀ d ∈ ds, d.length = sels.length := by
  induction rps with
  | nil => intro ds h; simp [mapAll] at h; subst h; simp
  | cons rp rps ih =>
    intro ds h
    simp only [mapAll] at h
    cases hx : colDelta K bat batches row sels rp with
    | none => simp [hx] at h
    | some y =>
      cases hr : mapAll (colDelta K bat batches row sels) rps with
      | none => simp [hx, hr] at h
      | some r =>
        simp [hx, hr] at h
        subst h
        intro d hd
        rcases List.mem_cons.mp hd with hd | hd
        · subst hd; exact colDelta_length hx
        · exact ih r hr d hd

end Join

namespace Join

theorem mapAll_length_eq {K : Consts} {bat : Batch} {batches : List Batch} {row : Nat}
    {sels : List Nat} {rps : List ResultPos} {ds : List (List Datum)}
    (h : mapAll (colDelta K bat batches row sels) rps = some ds) : ds.length = rps.length :=
  mapM_length _ _ _ h

theorem grows_zero (vs : List Vector) :
    List.Forall₂ (fun v v' : Vector => v'.data.length = v.data.length + 0) vs vs := by
  induction vs with
  | nil => exact List.Forall₂.nil
  | cons v vs ih => exact List.Forall₂.cons rfl ih

theorem grows_appendCols (k : Nat) : ∀ (ds : List (List Datum)) (vs : List Vector),
    ds.length = vs.length → (∀ d ∈ ds, d.length = k) →
    List.Forall₂ (fun v v' : Vector => v'.data.length = v.data.length + k) vs
      (appendCols ds vs) := by
  intro ds
  induction ds with
  | nil =>
    intro vs hl _
    cases vs with
    | nil => exact List.Forall₂.nil
    | cons v vs => simp at hl
  | cons d ds ih =>
    intro vs hl hd
    cases vs with
    | nil => simp at hl
    | cons v vs =>
      simp only [appendCols]
      refine List.Forall₂.cons ?_ (ih vs (by simpa using hl) (fun d' h' => hd d' (by simp [h'])))
      simp [hd d (by simp)]

theorem grows_trans {m n : Nat} : ∀ {a b c : List Vector},
    List.Forall₂ (fun v v' : Vector => v'.data.length = v.data.length + m) a b →
    List.Forall₂ (fun v v' : Vector => v'.data.length = v.data.length + n) b c →
    List.Forall₂ (fun v v' : Vector => v'.data.length = v.data.length + (m + n)) a c := by
  intro a b c h1
  induction h1 generalizing c with
  | nil => intro h2; cases h2; exact List.Forall₂.nil
  | cons hab _ ih =>
    intro h2
    cases h2 with
    | cons hbc h2' => exact List.Forall₂.cons (by omega) (ih h2')

theorem evalApCondForOneSel_next {K : Consts} {ap : InnerJoin} {bat : Batch}
    {batches : List Batch} {jb1 jb2 : Bool} {st st' : ProbeSt} {row sel : Nat}
    (hlen : st.vecs.length = ap.Result.length)
    (h : evalApCondForOneSel K ap bat batches jb1 jb2 st row sel = .ok (.next st')) :
    st'.rowCount = st.rowCount ∧
    ∃ m, m ≤ 1 ∧
      List.Forall₂ (fun v v' : Vector => v'.data.length = v.data.length + m) st.vecs st'.vecs := by
  have hle : ap.Result.length ≤ st.vecs.length := by omega
  unfold evalApCondForOneSel at h
  cases hds : mapAll (colDelta K bat batches row [sel]) ap.Result with
  | none =>
    simp only [unionLoop_PK_eq, hle, if_true, hds] at h
    repeat' split at h
    all_goals try cases h
    all_goals exact ⟨rfl, 0, by omega, grows_zero _⟩
  | some ds =>
    simp only [unionLoop_PK_eq, hle, if_true, hds] at h
    repeat' split at h
    all_goals try cases h
    all_goals first
      | exact ⟨rfl, 0, by omega, grows_zero _⟩
      | exact ⟨rfl, 1, le_refl _, grows_appendCols 1 _ _
          ((mapAll_length_eq hds).trans hlen.symm) (colDeltas_length _ _ hds)⟩

theorem forall₂_length_eq {m : Nat} {a b : List Vector}
    (h : List.Forall₂ (fun v v' : Vector => v'.data.length = v.data.length + m) a b) :
    b.length = a.length := h.length_eq.symm

theorem condSels_next {K : Consts} {ap : InnerJoin} {bat : Batch} {batches : List Batch}
    {jb1 jb2 : Bool} {row : Nat} (sels : List Nat) : ∀ {st st' : ProbeSt},
    st.vecs.length = ap.Result.length →
    condSels K ap bat batches jb1 jb2 row sels st = .ok (.next st') →
    st'.rowCount = st.rowCount ∧
    ∃ m, m ≤ sels.length ∧
      List.Forall₂ (fun v v' : Vector => v'.data.length = v.data.length + m) st.vecs st'.vecs := by
  induction sels with
  | nil =>
    intro st st' _ h
    simp only [condSels, Except.ok.injEq, Step.next.injEq] at h
    subst h
    exact ⟨rfl, 0, le_refl _, grows_zero _⟩
  | cons sel sels ih =>
    intro st st' hlen h
    simp only [condSels] at h
    split at h
    · cases h
    · cases h
    · rename_i st1 h1
      obtain ⟨hr1, m1, hm1, hg1⟩ := evalApCondForOneSel_next hlen h1
      obtain ⟨hr2, m2, hm2, hg2⟩ := ih ((forall₂_length_eq hg1).trans hlen) h
      exact ⟨hr2.trans hr1, m1 + m2, by simp only [List.length_cons]; omega, grows_trans hg1 hg2⟩

end Join

/-- C7: in `probe`, for every probe row processed (the loop state holding one
vector per result column): a row whose key is outside the bucket, null, or has
bucket id 0 emits nothing. Otherwise, with no residual predicate and every
source cell in range, the row emits exactly one output row in primary-key mode
and exactly `k` output rows in general mode, `k` being the length of the
matched bucket's candidate list: every result column receives exactly that
many values, a probe-side column the probe cell repeated, a build-side column
the cells of the candidates in list order (`colDelta`), and `rowCount` grows
by that number. With a residual predicate the number of values every column
receives is one same number, at most `1` resp. `k`. -/
theorem Join.probeRow_completeness (K : Consts) (ap : Join.InnerJoin) (bat : Batch)
    (batches : List Batch) (jb1 jb2 : Bool) (mSels : List (List Nat)) (fr : FindRes)
    (row : Nat) (st : Join.ProbeSt) (hlen : st.vecs.length = ap.Result.length) :
    ((fr.inBucket = 0 ∨ fr.zval = 0 ∨ fr.val = 0) →
      Join.probeRow K ap bat batches jb1 jb2 mSels fr row st = .ok (.next st)) ∧
    (¬ (fr.inBucket = 0 ∨ fr.zval = 0 ∨ fr.val = 0) → ap.Cond = none → ap.HashOnPK = true →
      ∀ ds, mapAll (Join.colDelta K bat batches row [fr.val - 1]) ap.Result = some ds →
        Join.probeRow K ap bat batches jb1 jb2 mSels fr row st
          = .ok (.next { vecs := Join.appendCols ds st.vecs, rowCount := st.rowCount + 1 }) ∧
        ds.length = st.vecs.length ∧ ∀ d ∈ ds, d.length = 1) ∧
    (¬ (fr.inBucket = 0 ∨ fr.zval = 0 ∨ fr.val = 0) → ap.Cond = none → ap.HashOnPK = false →
      ∀ sels, mSels[fr.val - 1]? = some sels →
      ∀ ds, mapAll (Join.colDelta K bat batches row sels) ap.Result = some ds →
        Join.probeRow K ap bat batches jb1 jb2 mSels fr row st
          = .ok (.next { vecs := Join.appendCols ds st.vecs,
                         rowCount := st.rowCount + sels.length }) ∧
        ds.length = st.vecs.length ∧ ∀ d ∈ ds, d.length = sels.length) ∧
    (¬ (fr.inBucket = 0 ∨ fr.zval = 0 ∨ fr.val = 0) → ap.Cond ≠ none →
      ∀ st', Join.probeRow K ap bat batches jb1 jb2 mSels fr row st = .ok (.next st') →
        ∃ m, m ≤ (if ap.HashOnPK then 1 else ((mSels[fr.val - 1]?).getD []).length) ∧
          List.Forall₂ (fun v v' : Vector => v'.data.length = v.data.length + m)
            st.vecs st'.vecs) := by
  have hle : ap.Result.length ≤ st.vecs.length := by omega
  refine ⟨?_, ?_, ?_, ?_⟩
  · intro h
    simp [Join.probeRow, h]
  · intro hn hc hpk ds hds
    have hl := (Join.mapAll_length_eq hds).trans hlen.symm
    refine ⟨?_, hl, Join.colDeltas_length _ _ hds⟩
    simp only [Join.probeRow, hn, if_false, hc, hpk, if_true, Join.unionLoop_PK_eq, hds, hle]
  · intro hn hc hpk sels hsels ds hds
    have hl := (Join.mapAll_length_eq hds).trans hlen.symm
    refine ⟨?_, hl, Join.colDeltas_length _ _ hds⟩
    simp [Join.probeRow, hn, hc, hpk, hsels, Join.unionLoop_eq, hds, hle]
  · intro hn hc st' h
    cases hcond : ap.Cond with
    | none => exact absurd hcond hc
    | some cond =>
      simp only [Join.probeRow, hn, if_false, hcond] at h
      by_cases hpk : ap.HashOnPK = true
      · simp only [hpk, if_true] at h ⊢
        cases h1 : Join.evalApCondForOneSel K ap bat batches jb1 jb2 st row (fr.val - 1) with
        | error p => simp [h1] at h
        | ok s =>
          cases s with
          | fail s e => simp [h1] at h
          | next st1 =>
            obtain ⟨_, m, hm, hg⟩ := Join.evalApCondForOneSel_next hlen h1
            simp only [h1, Except.ok.injEq, Join.Step.next.injEq] at h
            subst h
            exact ⟨m, hm, hg⟩
      · have hpk' : ap.HashOnPK = false := by simpa using hpk
        simp only [hpk', Bool.false_eq_true, if_false] at h ⊢
        cases hsels : mSels[fr.val - 1]? with
        | none => simp [hsels] at h
        | some sels =>
          simp only [hsels] at h
          cases h1 : Join.condSels K ap bat batches jb1 jb2 row sels st with
          | error p => simp [h1] at h
          | ok s =>
            cases s with
            | fail s e => simp [h1] at h
            | next st1 =>
              obtain ⟨_, m, hm, hg⟩ := Join.condSels_next sels hlen h1
              simp only [h1, Except.ok.injEq, Join.Step.next.injEq] at h
              subst h
              exact ⟨m, by simpa using hm, hg⟩

/-- Witness of C7: general mode, probe row 0 matches bucket 1 with the two
candidates `[0, 1]`; both result columns receive two values. -/
theorem Join.probeRow_completeness_witness :
    Join.probeRow Sample.K Sample.ap Sample.probeBat [Sample.buildBat] true true
        Sample.jm.Sels ⟨1, 1, 1⟩ 0 ⟨[⟨1, true, []⟩, ⟨1, false, []⟩], 0⟩
      = .ok (.next
          { vecs := Join.appendCols
              [[Sample.iv 10, Sample.iv 10], [Sample.iv 100, Sample.iv 200]]
              [⟨1, true, []⟩, ⟨1, false, []⟩],
            rowCount := 0 + [0, 1].length }) :=
  ((Join.probeRow_completeness Sample.K Sample.ap Sample.probeBat [Sample.buildBat] true true
      Sample.jm.Sels ⟨1, 1, 1⟩ 0 ⟨[⟨1, true, []⟩, ⟨1, false, []⟩], 0⟩ rfl).2.2.1
    (by decide) rfl rfl [0, 1] rfl
    [[Sample.iv 10, Sample.iv 10], [Sample.iv 100, Sample.iv 200]] rfl).1

/-- C9, the code at a failing input: primary-key mode with a residual predicate
that is false on every pair. The first `probe` call on `probeBat` returns a
result batch whose row count is 3, the number of candidate pairs seen, while
every output column is empty: no pair survives. -/
theorem Join.probe_counts_dropped_pairs :
    (Join.probe Sample.K Sample.apFalse Sample.probing (Sample.proc [])).toOption.map
        (fun r => (r.2.2.1.map (fun rb => (rb.rowCount, rb.Vecs.map (fun v => v.data))),
                   r.2.2.2))
      = some (some (3, [[], []]), none) := by
  rfl

/-! ### Lemmas on resumability of `probe` -/

namespace Join

theorem prefixCols_length (cs : List (List Datum)) : ∀ vs : List Vector,
    (prefixCols cs vs).length = vs.length := by
  induction cs with
  | nil => intro vs; cases vs <;> rfl
  | cons c cs ih =>
    intro vs
    cases vs with
    | nil => rfl
    | cons v vs => simp [prefixCols, ih]

theorem prefixCols_appendCols (cs : List (List Datum)) : ∀ (ds : List (List Datum))
    (vs : List Vector),
    appendCols ds (prefixCols cs vs) = prefixCols cs (appendCols ds vs) := by
  induction cs with
  | nil =>
    intro ds vs
    cases ds <;> cases vs <;> simp [prefixCols, appendCols]
  | cons c cs ih =>
    intro ds vs
    cases ds with
    | nil => cases vs <;> simp [prefixCols, appendCols]
    | cons d ds =>
      cases vs with
      | nil => simp [prefixCols, appendCols]
      | cons v vs => simp [prefixCols, appendCols, ih]

theorem unionLoop_shift (K : Consts) (bat : Batch) (batches : List Batch) (row : Nat)
    (sels : List Nat) (rps : List ResultPos) (cs : List (List Datum)) (vs : List Vector) :
    unionLoop (unionGeneral K bat batches row sels) rps (prefixCols cs vs) =
      match unionLoop (unionGeneral K bat batches row sels) rps vs with
      | .error p => .error p
      | .ok vs' => .ok (prefixCols cs vs') := by
  rw [unionLoop_eq, unionLoop_eq, prefixCols_length]
  cases mapAll (colDelta K bat batches row sels) rps with
  | none => rfl
  | some ds =>
    by_cases h : rps.length ≤ vs.length
    · simp [h, prefixCols_appendCols]
    · simp [h]

theorem unionLoop_PK_shift (K : Consts) (bat : Batch) (batches : List Batch) (row idx : Nat)
    (rps : List ResultPos) (cs : List (List Datum)) (vs : List Vector) :
    unionLoop (unionPK K bat batches row idx) rps (prefixCols cs vs) =
      match unionLoop (unionPK K bat batches row idx) rps vs with
      | .error p => .error p
      | .ok vs' => .ok (prefixCols cs vs') := by
  have h : unionPK K bat batches row idx = unionGeneral K bat batches row [idx] := by
    funext rp v; exact unionPK_eq K bat batches row idx rp v
  rw [h]
  exact unionLoop_shift K bat batches row [idx] rps cs vs

theorem evalApCondForOneSel_shift (K : Consts) (ap : InnerJoin) (bat : Batch)
    (batches : List Batch) (jb1 jb2 : Bool) (a : Rows) (st : ProbeSt) (row sel : Nat) :
    evalApCondForOneSel K ap bat batches jb1 jb2 (a.shift st) row sel =
      shiftStep a (evalApCondForOneSel K ap bat batches jb1 jb2 st row sel) := by
  unfold evalApCondForOneSel
  cases jb1 with
  | false => rfl
  | true =>
    simp only [Bool.not_true, Bool.false_eq_true, if_false]
    cases bat.row row with
    | none => rfl
    | some r1 =>
      dsimp only
      cases batches[sel / K.DefaultBatchSize]? with
      | none => rfl
      | some b2 =>
        dsimp only
        cases jb2 with
        | false => rfl
        | true =>
          simp only [Bool.not_true, Bool.false_eq_true, if_false]
          cases b2.row (sel % K.DefaultBatchSize) with
          | none => rfl
          | some r2 =>
            dsimp only
            cases ap.Cond with
            | none => rfl
            | some cond =>
              dsimp only
              cases cond r1 r2 with
              | error e => simp [shiftStep, Rows.shift, prefixCols]
              | ok o =>
                cases o with
                | none => rfl
                | some bv =>
                  cases bv with
                  | false => rfl
                  | true =>
                    simp only [Rows.shift, unionLoop_PK_shift]
                    cases unionLoop (unionPK K bat batches row sel) ap.Result st.vecs with
                    | error p => rfl
                    | ok vs => rfl

theorem condSels_shift (K : Consts) (ap : InnerJoin) (bat : Batch) (batches : List Batch)
    (jb1 jb2 : Bool) (a : Rows) (row : Nat) (sels : List Nat) : ∀ st : ProbeSt,
    condSels K ap bat batches jb1 jb2 row sels (a.shift st) =
      shiftStep a (condSels K ap bat batches jb1 jb2 row sels st) := by
  induction sels with
  | nil => intro st; rfl
  | cons sel sels ih =>
    intro st
    simp only [condSels, evalApCondForOneSel_shift]
    cases evalApCondForOneSel K ap bat batches jb1 jb2 st row sel with
    | error p => rfl
    | ok s =>
      cases s with
      | fail s e => rfl
      | next s => simp only [shiftStep, ih]

theorem probeRow_shift (K : Consts) (ap : InnerJoin) (bat : Batch) (batches : List Batch)
    (jb1 jb2 : Bool) (mSels : List (List Nat)) (a : Rows) (fr : FindRes) (row : Nat)
    (st : ProbeSt) :
    probeRow K ap bat batches jb1 jb2 mSels fr row (a.shift st) =
      shiftStep a (probeRow K ap bat batches jb1 jb2 mSels fr row st) := by
  unfold probeRow
  by_cases hn : fr.inBucket = 0 ∨ fr.zval = 0 ∨ fr.val = 0
  · simp only [hn, if_true]; rfl
  · simp only [hn, if_false]
    cases ap.Cond with
    | none =>
      cases ap.HashOnPK with
      | true =>
        simp only [if_true, Rows.shift, unionLoop_PK_shift]
        cases unionLoop (unionPK K bat batches row (fr.val - 1)) ap.Result st.vecs with
        | error p => rfl
        | ok vs => simp [shiftStep, Rows.shift, Nat.add_assoc]
      | false =>
        simp only [Bool.false_eq_true, if_false]
        cases mSels[fr.val - 1]? with
        | none => rfl
        | some sels =>
          simp only [Rows.shift, unionLoop_shift]
          cases unionLoop (unionGeneral K bat batches row sels) ap.Result st.vecs with
          | error p => rfl
          | ok vs => simp [shiftStep, Rows.shift, Nat.add_assoc]
    | some cond =>
      cases ap.HashOnPK with
      | true =>
        simp only [if_true, evalApCondForOneSel_shift]
        cases evalApCondForOneSel K ap bat batches jb1 jb2 st row (fr.val - 1) with
        | error p => rfl
        | ok s =>
          cases s with
          | fail s e => rfl
          | next s => simp [shiftStep, Rows.shift, Nat.add_assoc]
      | false =>
        simp only [Bool.false_eq_true, if_false]
        cases mSels[fr.val - 1]? with
        | none => rfl
        | some sels =>
          simp only [condSels_shift]
          cases condSels K ap bat batches jb1 jb2 row sels st with
          | error p => rfl
          | ok s =>
            cases s with
            | fail s e => rfl
            | next s => simp [shiftStep, Rows.shift, Nat.add_assoc]

theorem probeRows_shift (K : Consts) (ap : InnerJoin) (bat : Batch) (batches : List Batch)
    (jb1 jb2 : Bool) (mSels : List (List Nat)) (a : Rows) (frs : List FindRes) :
    ∀ (row : Nat) (st : ProbeSt),
    probeRows K ap bat batches jb1 jb2 mSels frs row (a.shift st) =
      shiftStep a (probeRows K ap bat batches jb1 jb2 mSels frs row st) := by
  induction frs with
  | nil => intro row st; rfl
  | cons fr frs ih =>
    intro row st
    simp only [probeRows, probeRow_shift]
    cases probeRow K ap bat batches jb1 jb2 mSels fr row st with
    | error p => rfl
    | ok s =>
      cases s with
      | fail s e => rfl
      | next s => simp only [shiftStep, ih]

theorem probeRows_append (K : Consts) (ap : InnerJoin) (bat : Batch) (batches : List Batch)
    (jb1 jb2 : Bool) (mSels : List (List Nat)) (xs ys : List FindRes) :
    ∀ (row : Nat) (st : ProbeSt),
    probeRows K ap bat batches jb1 jb2 mSels (xs ++ ys) row st =
      match probeRows K ap bat batches jb1 jb2 mSels xs row st with
      | .ok (.next s) => probeRows K ap bat batches jb1 jb2 mSels ys (row + xs.length) s
      | r => r := by
  induction xs with
  | nil => intro row st; simp [probeRows]
  | cons x xs ih =>
    intro row st
    simp only [List.cons_append, probeRows]
    cases probeRow K ap bat batches jb1 jb2 mSels x row st with
    | error p => rfl
    | ok s =>
      cases s with
      | fail s e => rfl
      | next s =>
        have hr : row + 1 + xs.length = row + (xs.length + 1) := by omega
        have := ih (row + 1) s
        rw [hr] at this
        simpa using this

theorem Find_add (mp : JoinMap) (vecs : List Vector) (i n m : Nat) :
    Find mp vecs i (n + m) = Find mp vecs i n ++ Find mp vecs (i + n) m := by
  unfold Find
  rw [List.range_add, List.map_append, List.map_map]
  congr 1
  apply List.map_congr_left
  intro k _
  simp [Nat.add_assoc]

theorem Find_length (mp : JoinMap) (vecs : List Vector) (i n : Nat) :
    (Find mp vecs i n).length = n := by
  simp [Find]

end Join

namespace Join

theorem blank_appendCols (ds : List (List Datum)) : ∀ vs : List Vector,
    blank (appendCols ds vs) = blank vs := by
  induction ds with
  | nil => intro vs; cases vs <;> rfl
  | cons d ds ih =>
    intro vs
    cases vs with
    | nil => rfl
    | cons v vs =>
      have := ih vs
      simp only [blank] at this
      simp [appendCols, blank, this]

theorem blank_prefixCols (cs : List (List Datum)) : ∀ vs : List Vector,
    blank (prefixCols cs vs) = blank vs := by
  induction cs with
  | nil => intro vs; cases vs <;> rfl
  | cons c cs ih =>
    intro vs
    cases vs with
    | nil => rfl
    | cons v vs =>
      have := ih vs
      simp only [blank] at this
      simp [prefixCols, blank, this]

theorem prefixCols_data_blank : ∀ vs : List Vector,
    prefixCols (vs.map (fun v => v.data)) (blank vs) = vs := by
  intro vs
  induction vs with
  | nil => rfl
  | cons v vs ih =>
    simp only [blank] at ih
    simp [prefixCols, blank, ih]

theorem unionLoop_blank {K : Consts} {bat : Batch} {batches : List Batch} {row : Nat}
    {sels : List Nat} {rps : List ResultPos} {vs vs' : List Vector}
    (h : unionLoop (unionGeneral K bat batches row sels) rps vs = .ok vs') :
    blank vs' = blank vs := by
  rw [unionLoop_eq] at h
  cases hds : mapAll (colDelta K bat batches row sels) rps with
  | none => simp [hds] at h
  | some ds =>
    simp only [hds] at h
    split at h
    · cases h; exact blank_appendCols ds vs
    · cases h

theorem unionLoop_PK_blank {K : Consts} {bat : Batch} {batches : List Batch} {row idx : Nat}
    {rps : List ResultPos} {vs vs' : List Vector}
    (h : unionLoop (unionPK K bat batches row idx) rps vs = .ok vs') :
    blank vs' = blank vs := by
  have hf : unionPK K bat batches row idx = unionGeneral K bat batches row [idx] := by
    funext rp v; exact unionPK_eq K bat batches row idx rp v
  rw [hf] at h
  exact unionLoop_blank h

theorem evalApCondForOneSel_blank {K : Consts} {ap : InnerJoin} {bat : Batch}
    {batches : List Batch} {jb1 jb2 : Bool} {st st' : ProbeSt} {row sel : Nat}
    (h : evalApCondForOneSel K ap bat batches jb1 jb2 st row sel = .ok (.next st')) :
    blank st'.vecs = blank st.vecs := by
  unfold evalApCondForOneSel at h
  cases hu : unionLoop (unionPK K bat batches row sel) ap.Result st.vecs with
  | error p =>
    simp only [hu] at h
    repeat' split at h
    all_goals try cases h
    all_goals rfl
  | ok vs =>
    have hb := unionLoop_PK_blank hu
    simp only [hu] at h
    repeat' split at h
    all_goals try cases h
    all_goals first
      | rfl
      | exact hb

theorem condSels_blank {K : Consts} {ap : InnerJoin} {bat : Batch} {batches : List Batch}
    {jb1 jb2 : Bool} {row : Nat} (sels : List Nat) : ∀ {st st' : ProbeSt},
    condSels K ap bat batches jb1 jb2 row sels st = .ok (.next st') →
    blank st'.vecs = blank st.vecs := by
  induction sels with
  | nil =>
    intro st st' h
    simp only [condSels, Except.ok.injEq, Step.next.injEq] at h
    subst h; rfl
  | cons sel sels ih =>
    intro st st' h
    simp only [condSels] at h
    cases h1 : evalApCondForOneSel K ap bat batches jb1 jb2 st row sel with
    | error p => simp [h1] at h
    | ok s =>
      cases s with
      | fail s e => simp [h1] at h
      | next s1 =>
        simp only [h1] at h
        exact (ih h).trans (evalApCondForOneSel_blank h1)

theorem probeRow_blank {K : Consts} {ap : InnerJoin} {bat : Batch} {batches : List Batch}
    {jb1 jb2 : Bool} {mSels : List (List Nat)} {fr : FindRes} {row : Nat} {st st' : ProbeSt}
    (h : probeRow K ap bat batches jb1 jb2 mSels fr row st = .ok (.next st')) :
    blank st'.vecs = blank st.vecs := by
  unfold probeRow at h
  by_cases hn : fr.inBucket = 0 ∨ fr.zval = 0 ∨ fr.val = 0
  · simp only [hn, if_true, Except.ok.injEq, Step.next.injEq] at h
    subst h; rfl
  · simp only [hn, if_false] at h
    cases hc : ap.Cond with
    | none =>
      simp only [hc] at h
      cases hpk : ap.HashOnPK with
      | true =>
        simp only [hpk, if_true] at h
        cases hu : unionLoop (unionPK K bat batches row (fr.val - 1)) ap.Result st.vecs with
        | error p => simp [hu] at h
        | ok vs =>
          simp only [hu, Except.ok.injEq, Step.next.injEq] at h
          subst h
          exact unionLoop_PK_blank hu
      | false =>
        simp only [hpk, Bool.false_eq_true, if_false] at h
        cases hs : mSels[fr.val - 1]? with
        | none => simp [hs] at h
        | some sels =>
          simp only [hs] at h
          cases hu : unionLoop (unionGeneral K bat batches row sels) ap.Result st.vecs with
          | error p => simp [hu] at h
          | ok vs =>
            simp only [hu, Except.ok.injEq, Step.next.injEq] at h
            subst h
            exact unionLoop_blank hu
    | some cond =>
      simp only [hc] at h
      cases hpk : ap.HashOnPK with
      | true =>
        simp only [hpk, if_true] at h
        cases h1 : evalApCondForOneSel K ap bat batches jb1 jb2 st row (fr.val - 1) with
        | error p => simp [h1] at h
        | ok s =>
          cases s with
          | fail s e => simp [h1] at h
          | next s1 =>
            simp only [h1, Except.ok.injEq, Step.next.injEq] at h
            subst h
            exact (evalApCondForOneSel_blank h1 : blank s1.vecs = blank st.vecs)
      | false =>
        simp only [hpk, Bool.false_eq_true, if_false] at h
        cases hs : mSels[fr.val - 1]? with
        | none => simp [hs] at h
        | some sels =>
          simp only [hs] at h
          cases h1 : condSels K ap bat batches jb1 jb2 row sels st with
          | error p => simp [h1] at h
          | ok s =>
            cases s with
            | fail s e => simp [h1] at h
            | next s1 =>
              simp only [h1, Except.ok.injEq, Step.next.injEq] at h
              subst h
              exact (condSels_blank sels h1 : blank s1.vecs = blank st.vecs)

theorem probeRows_blank {K : Consts} {ap : InnerJoin} {bat : Batch} {batches : List Batch}
    {jb1 jb2 : Bool} {mSels : List (List Nat)} (frs : List FindRes) :
    ∀ {row : Nat} {st st' : ProbeSt},
    probeRows K ap bat batches jb1 jb2 mSels frs row st = .ok (.next st') →
    blank st'.vecs = blank st.vecs := by
  induction frs with
  | nil =>
    intro row st st' h
    simp only [probeRows, Except.ok.injEq, Step.next.injEq] at h
    subst h; rfl
  | cons fr frs ih =>
    intro row st st' h
    simp only [probeRows] at h
    cases h1 : probeRow K ap bat batches jb1 jb2 mSels fr row st with
    | error p => simp [h1] at h
    | ok s =>
      cases s with
      | fail s e => simp [h1] at h
      | next s1 =>
        simp only [h1] at h
        exact (ih h).trans (probeRow_blank h1)

theorem newResultVecs_blank {bat : Batch} {batches : List Batch} (rps : List ResultPos) :
    ∀ {vs : List Vector}, newResultVecs bat batches rps = .ok vs → blank vs = vs := by
  induction rps with
  | nil =>
    intro vs h
    simp only [newResultVecs, Except.ok.injEq] at h
    subst h; rfl
  | cons rp rps ih =>
    intro vs h
    simp only [newResultVecs] at h
    cases h1 : newResultVec bat batches rp with
    | error p => simp [h1] at h
    | ok v =>
      simp only [h1] at h
      cases h2 : newResultVecs bat batches rps with
      | error p => simp [h2] at h
      | ok vs1 =>
        simp only [h2, Except.ok.injEq] at h
        subst h
        have hv : ({ v with data := [] } : Vector) = v := by
          unfold newResultVec at h1
          repeat' split at h1
          all_goals try cases h1
          all_goals rfl
        have := ih h2
        simp only [blank] at this
        simp [blank, this, hv]

end Join

namespace Join

theorem evalJoinCondition_frame (bat : Batch) (exs : List (Batch → Except Error Vector)) :
    ∀ (i : Nat) (vecs w : List Vector) (e : Option Error),
    evalJoinCondition bat exs i vecs = .ok (w, e) →
    w.length = vecs.length ∧ ∀ j, j < i → w[j]? = vecs[j]? := by
  induction exs with
  | nil =>
    intro i vecs w e h
    simp only [evalJoinCondition, Except.ok.injEq, Prod.mk.injEq] at h
    obtain ⟨h1, _⟩ := h
    subst h1
    exact ⟨rfl, fun _ _ => rfl⟩
  | cons ex exs ih =>
    intro i vecs w e h
    simp only [evalJoinCondition] at h
    cases hx : ex bat with
    | error err =>
      simp only [hx, Except.ok.injEq, Prod.mk.injEq] at h
      obtain ⟨h1, _⟩ := h
      subst h1
      exact ⟨rfl, fun _ _ => rfl⟩
    | ok vec =>
      simp only [hx] at h
      by_cases hi : i < vecs.length
      · simp only [hi, if_true] at h
        obtain ⟨hl, hj⟩ := ih (i + 1) _ w e h
        refine ⟨by simpa using hl, ?_⟩
        intro j hji
        rw [hj j (by omega), List.getElem?_set_ne (by omega)]
      · simp [hi] at h

theorem evalJoinCondition_idem (bat : Batch) (exs : List (Batch → Except Error Vector)) :
    ∀ (i : Nat) (vecs w : List Vector),
    evalJoinCondition bat exs i vecs = .ok (w, none) →
    evalJoinCondition bat exs i w = .ok (w, none) := by
  induction exs with
  | nil => intro i vecs w _; rfl
  | cons ex exs ih =>
    intro i vecs w h
    simp only [evalJoinCondition] at h ⊢
    cases hx : ex bat with
    | error err => simp [hx] at h
    | ok vec =>
      simp only [hx] at h ⊢
      by_cases hi : i < vecs.length
      · simp only [hi, if_true] at h
        obtain ⟨hl, hj⟩ := evalJoinCondition_frame bat exs (i + 1) _ w none h
        have hlw : i < w.length := by
          rw [hl]; simpa using hi
        have hwi : w[i]? = some vec := by
          rw [hj i (by omega)]
          simp [List.getElem?_set, hi]
        have hset : w.set i vec = w := by
          apply List.ext_getElem?
          intro k
          by_cases hk : k = i
          · subst hk
            simp [List.getElem?_set, hlw, hwi]
          · rw [List.getElem?_set_ne (by omega)]
        simp only [hlw, if_true, hset]
        exact ih (i + 1) _ w h
      · simp [hi] at h

theorem probeLoop_unfold (K : Consts) (ap : InnerJoin) (bat : Batch) (batches : List Batch)
    (jb1 jb2 : Bool) (mp : JoinMap) (vecs : List Vector) (count fuel i : Nat) (inB : List Nat)
    (st : ProbeSt) :
    probeLoop K ap bat batches jb1 jb2 mp vecs count fuel i inB st =
      if i < count then
        if K.DefaultBatchSize ≤ st.rowCount then
          .ok { st := st, inBuckets := inB, lastrow := i, err := none }
        else
          match fuel with
          | 0 => .error "timeout"
          | fuel + 1 =>
            match probeRows K ap bat batches jb1 jb2 mp.Sels
                (Find mp vecs i (min (count - i) K.UnitLimit)) i st with
            | .error p => .error p
            | .ok (.fail st' e) =>
              .ok { st := st',
                    inBuckets := (Find mp vecs i (min (count - i) K.UnitLimit)).map
                        (fun fr => fr.inBucket)
                      ++ List.replicate (K.UnitLimit - min (count - i) K.UnitLimit) 1,
                    lastrow := 0, err := some e }
            | .ok (.next st') =>
              probeLoop K ap bat batches jb1 jb2 mp vecs count fuel (i + K.UnitLimit)
                ((Find mp vecs i (min (count - i) K.UnitLimit)).map (fun fr => fr.inBucket)
                  ++ List.replicate (K.UnitLimit - min (count - i) K.UnitLimit) 1) st'
      else .ok { st := st, inBuckets := inB, lastrow := 0, err := none } := by
  cases fuel <;> rfl

/-- What the chunk loop computes, in terms of the row loop over the rows
`i .. count-1`. -/
theorem probeLoop_spec (K : Consts) (ap : InnerJoin) (bat : Batch) (batches : List Batch)
    (jb1 jb2 : Bool) (mp : JoinMap) (vecs : List Vector) (count : Nat)
    (hU : 0 < K.UnitLimit) :
    ∀ (fuel i : Nat) (inB : List Nat) (st : ProbeSt), count - i ≤ fuel →
    (∀ p, probeLoop K ap bat batches jb1 jb2 mp vecs count fuel i inB st = .error p →
      probeRows K ap bat batches jb1 jb2 mp.Sels (Find mp vecs i (count - i)) i st = .error p) ∧
    (∀ out e, probeLoop K ap bat batches jb1 jb2 mp vecs count fuel i inB st = .ok out →
      out.err = some e →
      ∃ s, probeRows K ap bat batches jb1 jb2 mp.Sels (Find mp vecs i (count - i)) i st
        = .ok (.fail s e)) ∧
    (∀ out, probeLoop K ap bat batches jb1 jb2 mp vecs count fuel i inB st = .ok out →
      out.err = none →
      ∃ r, probeRows K ap bat batches jb1 jb2 mp.Sels (Find mp vecs i r) i st
          = .ok (.next out.st) ∧
        ((out.lastrow = 0 ∧ r = count - i) ∨
         (out.lastrow = i + r ∧ i + r < count ∧
           (r = 0 → K.DefaultBatchSize ≤ st.rowCount)))) := by
  intro fuel
  induction fuel with
  | zero =>
    intro i inB st hf
    rw [probeLoop_unfold]
    have hi : ¬ i < count := by omega
    simp only [hi, if_false]
    refine ⟨fun p h => (by cases h), fun out e h he => ?_, fun out h _ => ?_⟩
    · cases h; cases he
    · cases h
      refine ⟨0, rfl, Or.inl ⟨rfl, by omega⟩⟩
  | succ fuel ih =>
    intro i inB st hf
    rw [probeLoop_unfold]
    by_cases hi : i < count
    · simp only [hi, if_true]
      by_cases hd : K.DefaultBatchSize ≤ st.rowCount
      · simp only [hd, if_true]
        refine ⟨fun p h => (by cases h), fun out e h he => ?_, fun out h _ => ?_⟩
        · cases h; cases he
        · cases h
          exact ⟨0, rfl, Or.inr ⟨rfl, by omega, fun _ => trivial⟩⟩
      · simp only [hd, if_false]
        have hsplit : Find mp vecs i (count - i)
            = Find mp vecs i (min (count - i) K.UnitLimit)
              ++ Find mp vecs (i + min (count - i) K.UnitLimit)
                  (count - i - min (count - i) K.UnitLimit) := by
          rw [← Find_add]
          congr 1
          omega
        have happ := probeRows_append K ap bat batches jb1 jb2 mp.Sels
          (Find mp vecs i (min (count - i) K.UnitLimit))
          (Find mp vecs (i + min (count - i) K.UnitLimit)
            (count - i - min (count - i) K.UnitLimit)) i st
        rw [← hsplit, Find_length] at happ
        cases hchunk : probeRows K ap bat batches jb1 jb2 mp.Sels
            (Find mp vecs i (min (count - i) K.UnitLimit)) i st with
        | error p =>
          rw [hchunk] at happ
          simp only []
          refine ⟨fun q h => ?_, fun out e h _ => (by cases h), fun out h _ => (by cases h)⟩
          cases h
          exact happ
        | ok s =>
          cases s with
          | fail s e =>
            rw [hchunk] at happ
            simp only []
            refine ⟨fun q h => (by cases h), fun out e' h he => ?_, fun out h he => ?_⟩
            · cases h
              simp only [Option.some.injEq] at he
              subst he
              exact ⟨s, happ⟩
            · cases h; cases he
          | next s =>
            rw [hchunk] at happ
            simp only [] at happ ⊢
            obtain ⟨ih1, ih2, ih3⟩ := ih (i + K.UnitLimit)
              ((Find mp vecs i (min (count - i) K.UnitLimit)).map (fun fr => fr.inBucket)
                ++ List.replicate (K.UnitLimit - min (count - i) K.UnitLimit) 1) s (by omega)
            by_cases hfull : K.UnitLimit ≤ count - i
            · have hmin : min (count - i) K.UnitLimit = K.UnitLimit := by omega
              rw [hmin] at happ hchunk
              have hcnt : count - i - K.UnitLimit = count - (i + K.UnitLimit) := by omega
              rw [hcnt] at happ
              refine ⟨fun p h => ?_, fun out e h he => ?_, fun out h he => ?_⟩
              · rw [happ]; exact ih1 p h
              · rw [happ]; exact ih2 out e h he
              · obtain ⟨r, hr, hcase⟩ := ih3 out h he
                refine ⟨K.UnitLimit + r, ?_, ?_⟩
                · rw [Find_add, probeRows_append, hchunk, Find_length]
                  exact hr
                · rcases hcase with ⟨h0, hr0⟩ | ⟨hl, hlt, _⟩
                  · exact Or.inl ⟨h0, by omega⟩
                  · exact Or.inr ⟨by omega, by omega, fun h0 => by omega⟩
            · have hmin : min (count - i) K.UnitLimit = count - i := by omega
              have hnot : ¬ (i + K.UnitLimit < count) := by omega
              rw [probeLoop_unfold]
              simp only [hnot, if_false]
              rw [hmin] at hchunk
              refine ⟨fun p h => (by cases h), fun out e h he => ?_, fun out h _ => ?_⟩
              · cases h; cases he
              · cases h
                exact ⟨count - i, hchunk, Or.inl ⟨rfl, rfl⟩⟩
    · simp only [hi, if_false]
      refine ⟨fun p h => (by cases h), fun out e h he => ?_, fun out h _ => ?_⟩
      · cases h; cases he
      · cases h
        refine ⟨0, rfl, Or.inl ⟨rfl, by omega⟩⟩

end Join

namespace Join

theorem probe_of_ready (K : Consts) {ap : InnerJoin} {ctr : container} {bat : Batch}
    {vs0 vecs : List Vector} {jb2 : Bool} {mp : JoinMap} (proc : Process)
    (h : Ready ap ctr bat vs0 vecs jb2 mp) :
    probe K ap ctr proc =
      match probeLoop K ap bat ctr.batches true jb2 mp vecs bat.rowCount bat.rowCount
          ctr.lastrow ctr.inBuckets { vecs := vs0, rowCount := 0 } with
      | .error p => .error p
      | .ok out =>
        match out.err with
        | some e =>
          .ok ({ ctr with rbat := some (Batch.withVecs out.st.vecs).Clean, vecs := vecs,
                          inBuckets := out.inBuckets, joinBat1 := true, joinBat2 := jb2 },
               (match ctr.rbat with
                | some rb => proc.PutBatch rb
                | none => proc), none, some e)
        | none =>
          .ok ({ ctr with rbat := some { Batch.withVecs out.st.vecs with
                                           rowCount := out.st.rowCount },
                          vecs := vecs, inBuckets := out.inBuckets, joinBat1 := true,
                          joinBat2 := jb2, lastrow := out.lastrow },
               (match ctr.rbat with
                | some rb => proc.PutBatch rb
                | none => proc),
               some { Batch.withVecs out.st.vecs with rowCount := out.st.rowCount }, none) := by
  obtain ⟨h1, h2, h3, h4, h5⟩ := h
  unfold probe
  simp only [h1, h2, h3, h4, h5]
  try rfl

theorem ready_next {ap : InnerJoin} {ctr : container} {bat : Batch}
    {vs0 vecs : List Vector} {jb2 : Bool} {mp : JoinMap}
    (h : Ready ap ctr bat vs0 vecs jb2 mp) (rb : Option Batch) (inB : List Nat) (l : Nat) :
    Ready ap { ctr with rbat := rb, vecs := vecs, inBuckets := inB, joinBat1 := true,
                        joinBat2 := jb2, lastrow := l } bat vs0 vecs jb2 mp := by
  obtain ⟨h1, h2, h3, h4, h5⟩ := h
  refine ⟨h1, h2, evalJoinCondition_idem _ _ _ _ _ h3, ?_, h5⟩
  unfold setupJoinBat2 at h4 ⊢
  cases jb2 with
  | true => simp
  | false =>
    simp only [Bool.not_false, Bool.true_and]
    by_cases hb : 0 < ctr.batchRowCount
    · simp only [hb, decide_True, Bool.and_true] at h4
      cases hj : ctr.joinBat2 with
      | true => simp [hj] at h4
      | false =>
        simp only [hj, Bool.not_false, if_true] at h4
        cases h0 : ctr.batches[0]? with
        | none => simp [h0] at h4
        | some b => simp [h0] at h4
    · simp [hb]

theorem shift_append (acc : Rows) (st : ProbeSt) (vs0 : List Vector)
    (hb : blank st.vecs = vs0) :
    (acc.append { Batch.withVecs st.vecs with rowCount := st.rowCount }).shift
        { vecs := vs0, rowCount := 0 } = acc.shift st := by
  have h1 : blank (prefixCols acc.cols st.vecs) = vs0 := by
    rw [blank_prefixCols]; exact hb
  have h2 := prefixCols_data_blank (prefixCols acc.cols st.vecs)
  rw [h1] at h2
  simp only [Rows.shift, Rows.append, Batch.withVecs, h2, Nat.add_zero]

theorem probeRun_eq (K : Consts) (ap : InnerJoin) (bat : Batch) (vs0 vecs : List Vector)
    (jb2 : Bool) (mp : JoinMap) (batches : List Batch) (hU : 0 < K.UnitLimit)
    (hD : 0 < K.DefaultBatchSize) (hvs : blank vs0 = vs0) :
    ∀ (n fuel : Nat) (ctr : container) (proc : Process) (acc : Rows),
    Ready ap ctr bat vs0 vecs jb2 mp → ctr.batches = batches →
    bat.rowCount - ctr.lastrow ≤ n → n < fuel →
    probeRun K ap fuel ctr proc acc =
      toRows (probeRows K ap bat batches true jb2 mp.Sels
        (Find mp vecs ctr.lastrow (bat.rowCount - ctr.lastrow)) ctr.lastrow
        (acc.shift { vecs := vs0, rowCount := 0 })) := by
  intro n
  induction n with
  | zero =>
    intro fuel ctr proc acc hR hB hn hf
    obtain ⟨f, rfl⟩ : ∃ f, fuel = f + 1 := ⟨fuel - 1, by omega⟩
    subst hB
    obtain ⟨b1, b2, b3⟩ := probeLoop_spec K ap bat ctr.batches true jb2 mp vecs bat.rowCount hU
      bat.rowCount ctr.lastrow ctr.inBuckets { vecs := vs0, rowCount := 0 } (by omega)
    simp only [probeRun, probe_of_ready K proc hR, probeRows_shift]
    cases hL : probeLoop K ap bat ctr.batches true jb2 mp vecs bat.rowCount bat.rowCount
        ctr.lastrow ctr.inBuckets { vecs := vs0, rowCount := 0 } with
    | error p => simp [b1 p hL, shiftStep, toRows]
    | ok out =>
      cases he : out.err with
      | some e =>
        obtain ⟨s, hs⟩ := b2 out e hL he
        simp [he, hs, shiftStep, toRows]
      | none =>
        obtain ⟨r, hr, hcase⟩ := b3 out hL he
        rcases hcase with ⟨h0, hr0⟩ | ⟨hl, hlt, hz⟩
        · subst hr0
          simp [he, hr, h0, shiftStep, toRows, Rows.append, Rows.shift, Batch.withVecs]
        · omega
  | succ n ih =>
    intro fuel ctr proc acc hR hB hn hf
    obtain ⟨f, rfl⟩ : ∃ f, fuel = f + 1 := ⟨fuel - 1, by omega⟩
    subst hB
    obtain ⟨b1, b2, b3⟩ := probeLoop_spec K ap bat ctr.batches true jb2 mp vecs bat.rowCount hU
      bat.rowCount ctr.lastrow ctr.inBuckets { vecs := vs0, rowCount := 0 } (by omega)
    simp only [probeRun, probe_of_ready K proc hR, probeRows_shift]
    cases hL : probeLoop K ap bat ctr.batches true jb2 mp vecs bat.rowCount bat.rowCount
        ctr.lastrow ctr.inBuckets { vecs := vs0, rowCount := 0 } with
    | error p => simp [b1 p hL, shiftStep, toRows]
    | ok out =>
      cases he : out.err with
      | some e =>
        obtain ⟨s, hs⟩ := b2 out e hL he
        simp [he, hs, shiftStep, toRows]
      | none =>
        obtain ⟨r, hr, hcase⟩ := b3 out hL he
        rcases hcase with ⟨h0, hr0⟩ | ⟨hl, hlt, hz⟩
        · subst hr0
          simp [he, hr, h0, shiftStep, toRows, Rows.append, Rows.shift, Batch.withVecs]
        · have hrpos : 0 < r := by
            rcases Nat.eq_zero_or_pos r with h | h
            · have := hz h
              simp only at this
              omega
            · exact h
          have hne : ¬ out.lastrow = 0 := by omega
          have hblank : blank out.st.vecs = vs0 := by
            have := probeRows_blank _ hr
            simpa [hvs] using this
          have hR' := ready_next hR
            (some { Batch.withVecs out.st.vecs with rowCount := out.st.rowCount })
            out.inBuckets out.lastrow
          have hih := ih f
            { ctr with rbat := some { Batch.withVecs out.st.vecs with
                                        rowCount := out.st.rowCount },
                       vecs := vecs, inBuckets := out.inBuckets, joinBat1 := true,
                       joinBat2 := jb2, lastrow := out.lastrow }
            (match ctr.rbat with
             | some rb => proc.PutBatch rb
             | none => proc)
            (acc.append { Batch.withVecs out.st.vecs with rowCount := out.st.rowCount })
            hR' rfl (by simp only; omega) (by omega)
          simp only [he, hne, if_false]
          rw [hih, shift_append acc out.st vs0 hblank]
          simp only [probeRows_shift]
          have hsplit : Find mp vecs ctr.lastrow (bat.rowCount - ctr.lastrow)
              = Find mp vecs ctr.lastrow r
                ++ Find mp vecs (ctr.lastrow + r) (bat.rowCount - ctr.lastrow - r) := by
            rw [← Find_add]
            congr 1
            omega
          rw [hsplit, probeRows_append, hr, Find_length, hl]
          have hc : bat.rowCount - ctr.lastrow - r = bat.rowCount - (ctr.lastrow + r) := by omega
          simp only [hc]

end Join

namespace Join

theorem prefixCols_nil (vs : List Vector) : prefixCols [] vs = vs := by
  cases vs <;> rfl

theorem probeSinglePass_of_ready (K : Consts) {ap : InnerJoin} {ctr : container} {bat : Batch}
    {vs0 vecs : List Vector} {jb2 : Bool} {mp : JoinMap}
    (h : Ready ap ctr bat vs0 vecs jb2 mp) :
    probeSinglePass K ap ctr =
      toRows (probeRows K ap bat ctr.batches true jb2 mp.Sels
        (Find mp vecs 0 bat.rowCount) 0 { vecs := vs0, rowCount := 0 }) := by
  obtain ⟨h1, h2, h3, h4, h5⟩ := h
  unfold probeSinglePass
  simp only [h1, h2, h3, h4, h5]
  cases probeRows K ap bat ctr.batches true jb2 mp.Sels (Find mp vecs 0 bat.rowCount) 0
      { vecs := vs0, rowCount := 0 } with
  | error p => rfl
  | ok s => cases s <;> rfl

end Join

/-- C8: for every probe batch held with the cursor at row 0, every hash index
and every result-column layout, with positive `UnitLimit` and
`DefaultBatchSize`: the successive `probe` calls made on that batch, each
starting at the saved cursor `lastrow`, until the cursor returns to 0, give,
concatenated in order, exactly the output rows (the cells of every result
column and the rows counted) of a single pass over all probe rows from row 0
with no output-batch-size limit, and the same error or panic when there is
one. One call more than the batch has rows is always enough. -/
theorem Join.probe_resumable (K : Consts) (ap : Join.InnerJoin) (ctr : Join.container)
    (proc : Process) (hU : 0 < K.UnitLimit) (hD : 0 < K.DefaultBatchSize)
    (h0 : ctr.lastrow = 0) (fuel : Nat)
    (hf : ((ctr.bat.map (fun b => b.rowCount)).getD 0) < fuel) :
    Join.probeRun K ap fuel ctr proc Join.Rows.empty = Join.probeSinglePass K ap ctr := by
  obtain ⟨f, rfl⟩ : ∃ f, fuel = f + 1 := ⟨fuel - 1, by omega⟩
  cases hb : ctr.bat with
  | none => simp [Join.probeRun, Join.probe, Join.probeSinglePass, hb]
  | some bat =>
    cases hv : Join.newResultVecs bat ctr.batches ap.Result with
    | error p => simp [Join.probeRun, Join.probe, Join.probeSinglePass, hb, hv]
    | ok vs0 =>
      cases hc : Join.evalJoinCondition bat ap.Conditions 0 ctr.vecs with
      | error p => simp [Join.probeRun, Join.probe, Join.probeSinglePass, hb, hv, hc]
      | ok r =>
        obtain ⟨vecs, e⟩ := r
        cases e with
        | some e => simp [Join.probeRun, Join.probe, Join.probeSinglePass, hb, hv, hc]
        | none =>
          cases hj : Join.setupJoinBat2 ctr with
          | error p => simp [Join.probeRun, Join.probe, Join.probeSinglePass, hb, hv, hc, hj]
          | ok jb2 =>
            cases hm : ctr.mp with
            | none =>
              simp [Join.probeRun, Join.probe, Join.probeSinglePass, hb, hv, hc, hj, hm]
            | some mp =>
              have hR : Join.Ready ap ctr bat vs0 vecs jb2 mp := ⟨hb, hv, hc, hj, hm⟩
              have hrun := Join.probeRun_eq K ap bat vs0 vecs jb2 mp ctr.batches hU hD
                (Join.newResultVecs_blank _ hv) bat.rowCount (f + 1) ctr proc Join.Rows.empty
                hR rfl (by omega) (by simpa [hb] using hf)
              rw [hrun, Join.probeSinglePass_of_ready K hR, h0]
              simp [Join.Rows.shift, Join.Rows.empty, Join.prefixCols_nil]

/-- Witness of C8: the five-row probe batch is returned in three calls (3, 3
and 2 rows), and the concatenation is the single pass. -/
theorem Join.probe_resumable_witness :
    Join.probeRun Sample.K Sample.ap 6 Sample.probing (Sample.proc []) Join.Rows.empty
        = Join.probeSinglePass Sample.K Sample.ap Sample.probing ∧
    Join.probeSinglePass Sample.K Sample.ap Sample.probing
        = .ok (.ok { cols := [[Sample.iv 10, Sample.iv 10, Sample.iv 20, Sample.iv 40,
                               Sample.iv 40, Sample.iv 40, Sample.iv 50, Sample.iv 50],
                              [Sample.iv 100, Sample.iv 200, Sample.iv 300, Sample.iv 100,
                               Sample.iv 200, Sample.iv 300, Sample.iv 100, Sample.iv 200]],
                     count := 8 }) :=
  ⟨Join.probe_resumable Sample.K Sample.ap Sample.probing (Sample.proc []) (by decide)
    (by decide) rfl 6 (by decide), by rfl⟩

/-! ### Lemmas on the translation of global row ids -/

namespace Join

theorem drain_rowCount : ∀ (q : List RegisterMessage) (ctr ctr' : container)
    (rest : List RegisterMessage) (e : Option Error),
    ctr.batchRowCount = (ctr.batches.map (fun b => b.rowCount)).sum →
    drain q ctr = (ctr', rest, e) →
    ctr'.batchRowCount = (ctr'.batches.map (fun b => b.rowCount)).sum := by
  intro q
  induction q with
  | nil =>
    intro ctr ctr' rest e hinv h
    simp only [drain, Prod.mk.injEq] at h
    rw [← h.1]; exact hinv
  | cons m q ih =>
    intro ctr ctr' rest e hinv h
    simp only [drain] at h
    cases he : m.Err with
    | some err =>
      simp only [he, Prod.mk.injEq] at h
      rw [← h.1]; exact hinv
    | none =>
      simp only [he] at h
      cases hb : m.Batch with
      | none =>
        simp only [hb, Prod.mk.injEq] at h
        rw [← h.1]; exact hinv
      | some bat =>
        simp only [hb] at h
        refine ih _ ctr' rest e ?_ h
        simp [hinv]

theorem receiveBatch_accepts (K : Consts) (ctr ctr' : container) (proc proc' : Process)
    (hinv : ctr.batchRowCount = (ctr.batches.map (fun b => b.rowCount)).sum)
    (h : receiveBatch K ctr proc = .ok (ctr', proc', none)) :
    chunksOk K ctr'.batches = true ∧
    ctr'.batchRowCount = (ctr'.batches.map (fun b => b.rowCount)).sum := by
  unfold receiveBatch at h
  cases hq : proc.MergeReceivers[1]? with
  | none => simp [hq] at h
  | some q =>
    simp only [hq] at h
    cases hd : drain q ctr with
    | mk c1 v =>
      obtain ⟨rest, e⟩ := v
      have hsum := drain_rowCount q ctr c1 rest e hinv hd
      simp only [hd] at h
      cases e with
      | some err => simp at h
      | none =>
        simp only at h
        by_cases hc : chunksOk K c1.batches = true
        · simp only [hc, if_true, Except.ok.injEq, Prod.mk.injEq] at h
          obtain ⟨h1, _⟩ := h
          subst h1
          exact ⟨hc, hsum⟩
        · simp [hc] at h

theorem chunk_position (D : Nat) (hD : 0 < D) : ∀ (batches : List Batch) (j idx : Nat),
    (∀ i b, batches[i]? = some b → i + 1 < batches.length → b.rowCount = D) →
    (∀ b, batches[batches.length - 1]? = some b → b.rowCount ≤ D) →
    idx < (batches.map (fun b => b.rowCount)).sum →
    ∃ b, batches[idx / D]? = some b ∧ idx % D < b.rowCount ∧
      (rowIds j batches)[idx]? = some (j + idx / D, idx % D) := by
  intro batches
  induction batches with
  | nil => intro j idx _ _ h; simp at h
  | cons b bs ih =>
    intro j idx h1 h2 hidx
    simp only [List.map_cons, List.sum_cons] at hidx
    by_cases hlt : idx < b.rowCount
    · have hbD : b.rowCount ≤ D := by
        cases bs with
        | nil => exact h2 b rfl
        | cons c cs => exact le_of_eq (h1 0 b rfl (by simp))
      have hd : idx / D = 0 := Nat.div_eq_of_lt (by omega)
      have hm : idx % D = idx := Nat.mod_eq_of_lt (by omega)
      refine ⟨b, by rw [hd]; simp, by rw [hm]; exact hlt, ?_⟩
      rw [hd, hm]
      simp only [rowIds]
      rw [List.getElem?_append_left (by simpa using hlt)]
      simp [List.getElem?_map, List.getElem?_range hlt]
    · have hne : bs ≠ [] := by
        intro hnil
        subst hnil
        simp at hidx
        omega
      obtain ⟨c, cs, rfl⟩ := List.exists_cons_of_ne_nil hne
      have hb : b.rowCount = D := h1 0 b rfl (by simp)
      obtain ⟨b', e1, e2, e3⟩ := ih (j + 1) (idx - D)
        (fun i x hx hi => h1 (i + 1) x (by simpa using hx) (by simp at hi ⊢; omega))
        (fun x hx => h2 x (by simpa using hx)) (by omega)
      have hidx' : idx = (idx - D) + D := by omega
      have hd : idx / D = (idx - D) / D + 1 := by
        conv_lhs => rw [hidx']
        exact Nat.add_div_right _ hD
      have hm : idx % D = (idx - D) % D := by
        conv_lhs => rw [hidx']
        exact Nat.add_mod_right _ _
      refine ⟨b', by rw [hd]; simpa using e1, by rw [hm]; exact e2, ?_⟩
      rw [hd, hm]
      simp only [rowIds] at e3 ⊢
      rw [List.getElem?_append_right (by simp [hb]; omega)]
      simp only [List.length_map, List.length_range, hb]
      rw [e3]
      simp [Nat.add_assoc, Nat.add_comm 1]

end Join

/-! ## Contract of the build side: global row ids -/

/-- C11 (as amended): after the build phase has accepted the accumulated batch
set (`receiveBatch` returned without error or panic on a container whose
`batchRowCount` is the number of rows it holds, as after `Prepare`), if
moreover the last batch has at most `DefaultBatchSize` rows, then for every
global row id `idx < batchRowCount` the pair
`(idx / DefaultBatchSize, idx % DefaultBatchSize)` is in bounds: the chunk
index is less than the number of batches, the offset is less than the row
count of that batch, the pair is the position of the `idx`-th row of the
concatenation of the batches, and the chunk lookup of `unionBuild` succeeds
and reads that batch. -/
theorem Join.global_row_id (K : Consts) (ctr ctr' : Join.container) (proc proc' : Process)
    (hD : 0 < K.DefaultBatchSize)
    (hinv : ctr.batchRowCount = (ctr.batches.map (fun b => b.rowCount)).sum)
    (hrecv : Join.receiveBatch K ctr proc = .ok (ctr', proc', none))
    (hlast : ∀ b, ctr'.batches.getLast? = some b → b.rowCount ≤ K.DefaultBatchSize)
    (idx : Nat) (hidx : idx < ctr'.batchRowCount) :
    idx / K.DefaultBatchSize < ctr'.batches.length ∧
    ∃ b, ctr'.batches[idx / K.DefaultBatchSize]? = some b ∧
      idx % K.DefaultBatchSize < b.rowCount ∧
      (Join.rowIds 0 ctr'.batches)[idx]?
        = some (idx / K.DefaultBatchSize, idx % K.DefaultBatchSize) ∧
      ∀ (pos : Nat) (v : Vector),
        Join.unionBuild K ctr'.batches pos v idx =
          match Join.vecAt b pos with
          | .error p => .error p
          | .ok src => v.UnionOne src (idx % K.DefaultBatchSize) := by
  obtain ⟨hok, hsum⟩ := Join.receiveBatch_accepts K ctr ctr' proc proc' hinv hrecv
  rw [hsum] at hidx
  have h1 := (Join.chunksOk_iff K ctr'.batches).1 hok
  obtain ⟨b, e1, e2, e3⟩ := Join.chunk_position K.DefaultBatchSize hD ctr'.batches 0 idx
    (fun i x hx hi => by
      have hlt : i < ctr'.batches.length := by omega
      have := h1 i hlt hi
      rw [List.getElem?_eq_getElem hlt] at hx
      cases hx
      exact this)
    (fun x hx => hlast x (by rw [List.getLast?_eq_getElem?]; exact hx)) hidx
  have hlt : idx / K.DefaultBatchSize < ctr'.batches.length := by
    rcases Nat.lt_or_ge (idx / K.DefaultBatchSize) ctr'.batches.length with h | h
    · exact h
    · rw [List.getElem?_eq_none h] at e1; cases e1
  refine ⟨hlt, b, e1, e2, by simpa using e3, ?_⟩
  intro pos v
  simp only [Join.unionBuild, e1]

/-- Witness of C11: a full batch of three rows and a last batch of one row;
global row id 3 is row 0 of batch 1. -/
theorem Join.global_row_id_witness :
    3 / Sample.K.DefaultBatchSize < [Sample.buildBat, Sample.buildBat1].length ∧
    ∃ b, [Sample.buildBat, Sample.buildBat1][3 / Sample.K.DefaultBatchSize]? = some b ∧
      3 % Sample.K.DefaultBatchSize < b.rowCount ∧
      (Join.rowIds 0 [Sample.buildBat, Sample.buildBat1])[3]?
        = some (3 / Sample.K.DefaultBatchSize, 3 % Sample.K.DefaultBatchSize) ∧
      ∀ (pos : Nat) (v : Vector),
        Join.unionBuild Sample.K [Sample.buildBat, Sample.buildBat1] pos v 3 =
          match Join.vecAt b pos with
          | .error p => .error p
          | .ok src => v.UnionOne src (3 % Sample.K.DefaultBatchSize) :=
  Join.global_row_id Sample.K (Join.Prepare Sample.K Sample.ap)
    { Join.Prepare Sample.K Sample.ap with
        batches := [Sample.buildBat, Sample.buildBat1], batchRowCount := 4 }
    (Sample.proc (Join.dataMsgs [Sample.buildBat, Sample.buildBat1]))
    { Sample.proc (Join.dataMsgs [Sample.buildBat, Sample.buildBat1]) with
        MergeReceivers := [[⟨some Sample.probeBat, none⟩], []] }
    (by decide) rfl rfl (by simp [Sample.buildBat1, Sample.K]) 3 (by decide)

/-- Counterexample to C11 as stated: the build register delivers one batch of four rows while `DefaultBatchSize` is 3. `receiveBatch` accepts
it (it is the last batch), `batchRowCount` is 4, and for the global row id 3
the chunk index `3 / 3 = 1` is not less than the number of batches; the
chunk lookup of `unionBuild` panics. -/
theorem Join.global_row_id_oversized_last :
    Join.receiveBatch Sample.K (Join.Prepare Sample.K Sample.ap)
        (Sample.proc (Join.dataMsgs [Sample.buildBat4]))
      = .ok ({ Join.Prepare Sample.K Sample.ap with
                 batches := [Sample.buildBat4], batchRowCount := 4 },
             { Sample.proc (Join.dataMsgs [Sample.buildBat4]) with
                 MergeReceivers := [[⟨some Sample.probeBat, none⟩], []] }, none) ∧
    ¬ (3 / Sample.K.DefaultBatchSize < [Sample.buildBat4].length) ∧
    Join.unionBuild Sample.K [Sample.buildBat4] 0 ⟨1, false, []⟩ 3
      = .error "index out of range" := by
  refine ⟨rfl, by decide, rfl⟩

/-! ### Lemmas on what a `Call` of the join takes from the registers -/

namespace Join

theorem Took_of_eq {proc proc' : Process} (G : RegisterMessage → Prop)
    (h : proc'.MergeReceivers = proc.MergeReceivers) : Took proc proc' G := by
  intro i q hq
  exact ⟨[], q, by rw [h]; exact hq, rfl, fun m hm => by cases hm⟩

theorem Took_trans {p p1 p2 : Process} {G : RegisterMessage → Prop}
    (h1 : Took p p1 G) (h2 : Took p1 p2 G) : Took p p2 G := by
  intro i q hq
  obtain ⟨c1, q1, a1, a2, a3⟩ := h1 i q hq
  obtain ⟨c2, q2, b1, b2, b3⟩ := h2 i q1 a1
  refine ⟨c1 ++ c2, q2, b1, by rw [a2, b2, List.append_assoc], ?_⟩
  intro m hm
  rcases List.mem_append.1 hm with h | h
  · exact a3 m h
  · exact b3 m h

theorem Took_mono {p p1 : Process} {G G' : RegisterMessage → Prop}
    (hG : ∀ m, G m → G' m) (h : Took p p1 G) : Took p p1 G' := by
  intro i q hq
  obtain ⟨c, q', a1, a2, a3⟩ := h i q hq
  exact ⟨c, q', a1, a2, fun m hm => hG m (a3 m hm)⟩

theorem Took_set (proc : Process) (G : RegisterMessage → Prop) (i : Nat)
    (c rest : List RegisterMessage) (hq : proc.MergeReceivers[i]? = some (c ++ rest))
    (hc : ∀ m ∈ c, G m) :
    Took proc { proc with MergeReceivers := proc.MergeReceivers.set i rest } G := by
  intro j q hj
  by_cases hij : i = j
  · subst hij
    rw [hq] at hj
    cases hj
    have hlt : i < proc.MergeReceivers.length := by
      rcases Nat.lt_or_ge i proc.MergeReceivers.length with h | h
      · exact h
      · rw [List.getElem?_eq_none h] at hq; cases hq
    exact ⟨c, rest, List.getElem?_set_self hlt, rfl, hc⟩
  · refine ⟨[], q, ?_, rfl, fun m hm => by cases hm⟩
    simp only
    rw [List.getElem?_set_ne hij]
    exact hj

theorem receiveHashMap_took (ctr ctr' : container) (proc proc' : Process) (e : Option Error)
    (h : receiveHashMap ctr proc = .ok (ctr', proc', e)) :
    Took proc proc' (fun m => m.Err = e) := by
  unfold receiveHashMap ReceiveFromSingleReg at h
  cases hq : proc.MergeReceivers[1]? with
  | none => simp [hq] at h
  | some q =>
    cases q with
    | nil =>
      simp only [hq, NormalEndRegisterMessage, Except.ok.injEq, Prod.mk.injEq] at h
      obtain ⟨_, h2, _⟩ := h
      subst h2
      exact Took_of_eq _ rfl
    | cons m rest =>
      simp only [hq] at h
      have hset := Took_set proc (fun x => x.Err = m.Err) 1 [m] rest hq
        (fun x hx => by rw [List.mem_singleton.1 hx])
      cases he : m.Err with
      | some err =>
        simp only [he, Except.ok.injEq, Prod.mk.injEq] at h
        obtain ⟨_, h2, h3⟩ := h
        subst h2 h3
        rw [he] at hset
        exact hset
      | none =>
        rw [he] at hset
        simp only [he] at h
        cases hb : m.Batch with
        | none =>
          simp only [hb, Except.ok.injEq, Prod.mk.injEq] at h
          obtain ⟨_, h2, h3⟩ := h
          subst h2 h3
          exact hset
        | some bat =>
          simp only [hb] at h
          cases ha : bat.AuxData with
          | none =>
            simp only [ha, Except.ok.injEq, Prod.mk.injEq] at h
            obtain ⟨_, h2, h3⟩ := h
            subst h2 h3
            exact hset
          | some jm =>
            simp only [ha, Except.ok.injEq, Prod.mk.injEq] at h
            obtain ⟨_, h2, h3⟩ := h
            subst h2 h3
            exact hset

theorem drain_took : ∀ (q : List RegisterMessage) (ctr ctr' : container)
    (rest : List RegisterMessage) (e : Option Error), drain q ctr = (ctr', rest, e) →
    ∃ c, q = c ++ rest ∧ ∀ m ∈ c, m.Err = none ∨ m.Err = e := by
  intro q
  induction q with
  | nil =>
    intro ctr ctr' rest e h
    simp only [drain, Prod.mk.injEq] at h
    obtain ⟨_, h2, _⟩ := h
    subst h2
    exact ⟨[], rfl, fun m hm => by cases hm⟩
  | cons m q ih =>
    intro ctr ctr' rest e h
    simp only [drain] at h
    cases he : m.Err with
    | some err =>
      simp only [he, Prod.mk.injEq] at h
      obtain ⟨_, h2, h3⟩ := h
      subst h2 h3
      exact ⟨[m], rfl, fun x hx => by rw [List.mem_singleton.1 hx]; exact Or.inr he⟩
    | none =>
      simp only [he] at h
      cases hb : m.Batch with
      | none =>
        simp only [hb, Prod.mk.injEq] at h
        obtain ⟨_, h2, h3⟩ := h
        subst h2 h3
        exact ⟨[m], rfl, fun x hx => by rw [List.mem_singleton.1 hx]; exact Or.inl he⟩
      | some bat =>
        simp only [hb] at h
        obtain ⟨c, h1, h2⟩ := ih _ ctr' rest e h
        refine ⟨m :: c, by rw [h1]; rfl, ?_⟩
        intro x hx
        rcases List.mem_cons.1 hx with hx | hx
        · rw [hx]; exact Or.inl he
        · exact h2 x hx

theorem receiveBatch_took (K : Consts) (ctr ctr' : container) (proc proc' : Process)
    (e : Option Error) (h : receiveBatch K ctr proc = .ok (ctr', proc', e)) :
    Took proc proc' (fun m => m.Err = none ∨ m.Err = e) := by
  unfold receiveBatch at h
  cases hq : proc.MergeReceivers[1]? with
  | none => simp [hq] at h
  | some q =>
    simp only [hq] at h
    cases hd : drain q ctr with
    | mk c1 v =>
      obtain ⟨rest, e1⟩ := v
      obtain ⟨c, hc1, hc2⟩ := drain_took q ctr c1 rest e1 hd
      subst hc1
      simp only [hd] at h
      cases e1 with
      | some err =>
        simp only [Except.ok.injEq, Prod.mk.injEq] at h
        obtain ⟨_, h2, h3⟩ := h
        subst h2 h3
        exact Took_set proc _ 1 c rest hq hc2
      | none =>
        simp only at h
        split at h
        · simp only [Except.ok.injEq, Prod.mk.injEq] at h
          obtain ⟨_, h2, h3⟩ := h
          subst h2 h3
          exact Took_set proc _ 1 c rest hq hc2
        · cases h

theorem build_took (K : Consts) (ctr ctr' : container) (proc proc' : Process)
    (e : Option Error) (h : build K ctr proc = .ok (ctr', proc', e)) :
    Took proc proc' (fun m => m.Err = none ∨ m.Err = e) := by
  unfold build at h
  cases hr : receiveHashMap ctr proc with
  | error p => simp [hr] at h
  | ok v =>
    obtain ⟨c1, p1, e1⟩ := v
    have h1 := receiveHashMap_took ctr c1 proc p1 e1 hr
    simp only [hr] at h
    cases e1 with
    | some err =>
      simp only [Except.ok.injEq, Prod.mk.injEq] at h
      obtain ⟨_, h2, h3⟩ := h
      subst h2 h3
      exact Took_mono (fun m hm => Or.inr hm) h1
    | none =>
      simp only at h
      have h2 := receiveBatch_took K c1 ctr' p1 proc' e h
      exact Took_trans (Took_mono (fun m hm => Or.inl hm) h1) h2

theorem probe_regs (K : Consts) (ap : InnerJoin) (ctr ctr' : container) (proc proc' : Process)
    (rb : Option Batch) (e : Option Error)
    (h : probe K ap ctr proc = .ok (ctr', proc', rb, e)) :
    proc'.MergeReceivers = proc.MergeReceivers := by
  unfold probe at h
  repeat' split at h
  all_goals cases h
  all_goals rfl

theorem callProbeHeld_regs (K : Consts) (ap : InnerJoin) (ctr ctr' : container)
    (proc proc' : Process) (r : CallResult) (e : Option Error)
    (h : callProbeHeld K ap ctr proc = .ok (ctr', proc', r, e)) :
    proc'.MergeReceivers = proc.MergeReceivers := by
  unfold callProbeHeld at h
  cases hp : probe K ap ctr proc with
  | error p => simp [hp] at h
  | ok v =>
    obtain ⟨c1, p1, rb, e1⟩ := v
    have hr := probe_regs K ap ctr c1 proc p1 rb e1 hp
    simp only [hp] at h
    cases e1 with
    | some e =>
      simp only [Except.ok.injEq, Prod.mk.injEq] at h
      obtain ⟨_, h2, _⟩ := h
      subst h2
      exact hr
    | none =>
      simp only at h
      split at h
      · split at h
        · cases h
          exact hr
        · cases h
          exact hr
      · split at h
        · cases h
          exact hr
        · cases h
          exact hr

theorem TookOrFailed_trans {p p1 p2 : Process} {r : CallResult} {err : Option Error}
    (h1 : Took p p1 (fun m => m.Err = none)) (h2 : TookOrFailed p1 p2 r err) :
    TookOrFailed p p2 r err := by
  rcases h2 with h2 | ⟨e, a, b, c⟩
  · exact Or.inl (Took_trans h1 h2)
  · exact Or.inr ⟨e, a, b, Took_trans (Took_mono (fun m hm => Or.inl hm) h1) c⟩

theorem callProbeRecv_took (K : Consts) (ap : InnerJoin) : ∀ (q : List RegisterMessage)
    (ctr ctr' : container) (proc proc' : Process) (r : CallResult) (err : Option Error),
    proc.MergeReceivers[0]? = some q →
    callProbeRecv K ap q ctr proc = .ok (ctr', proc', r, err) →
    TookOrFailed proc proc' r err := by
  intro q
  induction q with
  | nil =>
    intro ctr ctr' proc proc' r err _ h
    simp only [callProbeRecv, callEnd, Except.ok.injEq, Prod.mk.injEq] at h
    obtain ⟨_, h2, _⟩ := h
    subst h2
    exact Or.inl (Took_of_eq _ rfl)
  | cons m rest ih =>
    intro ctr ctr' proc proc' r err hq h
    have hlt : 0 < proc.MergeReceivers.length := by
      rcases Nat.lt_or_ge 0 proc.MergeReceivers.length with h | h
      · exact h
      · rw [List.getElem?_eq_none h] at hq; cases hq
    simp only [callProbeRecv] at h
    cases he : m.Err with
    | some e =>
      simp only [he, Except.ok.injEq, Prod.mk.injEq] at h
      obtain ⟨_, h2, h3, h4⟩ := h
      subst h2 h3 h4
      refine Or.inr ⟨e, rfl, rfl, ?_⟩
      exact Took_set proc _ 0 [m] rest hq
        (fun x hx => by rw [List.mem_singleton.1 hx]; exact Or.inr he)
    | none =>
      have hstep : Took proc { proc with MergeReceivers := proc.MergeReceivers.set 0 rest }
          (fun m => m.Err = none) :=
        Took_set proc _ 0 [m] rest hq (fun x hx => by rw [List.mem_singleton.1 hx]; exact he)
      simp only [he] at h
      cases hb : m.Batch with
      | none =>
        simp only [hb, callEnd, Except.ok.injEq, Prod.mk.injEq] at h
        obtain ⟨_, h2, _⟩ := h
        subst h2
        exact Or.inl hstep
      | some bat =>
        simp only [hb] at h
        by_cases hl : bat.last = true
        · simp only [hl, if_true, Except.ok.injEq, Prod.mk.injEq] at h
          obtain ⟨_, h2, _⟩ := h
          subst h2
          exact Or.inl hstep
        · simp only [hl, Bool.false_eq_true, if_false] at h
          have hq1 : (Process.PutBatch
              { proc with MergeReceivers := proc.MergeReceivers.set 0 rest } bat).MergeReceivers[0]?
                = some rest := by
            simp only [Process.PutBatch]
            exact List.getElem?_set_self hlt
          by_cases hem : bat.IsEmpty = true
          · simp only [hem, if_true] at h
            exact TookOrFailed_trans
              (Took_trans hstep (Took_of_eq _ rfl)) (ih _ _ (Process.PutBatch
                { proc with MergeReceivers := proc.MergeReceivers.set 0 rest } bat) _ _ _ hq1 h)
          · simp only [hem, Bool.false_eq_true, if_false] at h
            by_cases hmp : ctr.mp.isNone = true
            · simp only [hmp, if_true] at h
              exact TookOrFailed_trans
                (Took_trans hstep (Took_of_eq _ rfl)) (ih _ _ (Process.PutBatch
                { proc with MergeReceivers := proc.MergeReceivers.set 0 rest } bat) _ _ _ hq1 h)
            · simp only [hmp, Bool.false_eq_true, if_false] at h
              have := callProbeHeld_regs K ap _ _ _ _ _ _ h
              exact Or.inl (Took_trans hstep (Took_of_eq _ this))

theorem callProbe_took (K : Consts) (ap : InnerJoin) (ctr ctr' : container)
    (proc proc' : Process) (r : CallResult) (err : Option Error)
    (h : callProbe K ap ctr proc = .ok (ctr', proc', r, err)) :
    TookOrFailed proc proc' r err := by
  unfold callProbe at h
  cases hb : ctr.bat with
  | some b =>
    simp only [hb] at h
    exact Or.inl (Took_of_eq _ (callProbeHeld_regs K ap _ _ _ _ _ _ h))
  | none =>
    simp only [hb] at h
    cases hq : proc.MergeReceivers[0]? with
    | none => simp [hq] at h
    | some q =>
      simp only [hq] at h
      exact callProbeRecv_took K ap q _ _ _ _ _ _ hq h

theorem Call_took (K : Consts) (ap : InnerJoin) (ctr ctr' : container)
    (proc proc' : Process) (r : CallResult) (err : Option Error)
    (h : Call K ap ctr proc = .ok (ctr', proc', r, err)) :
    TookOrFailed proc proc' r err := by
  unfold Call at h
  cases hc : proc.Ctx with
  | some e =>
    simp only [CancelCheck, hc, Except.ok.injEq, Prod.mk.injEq] at h
    obtain ⟨_, h2, _⟩ := h
    subst h2
    exact Or.inl (Took_of_eq _ rfl)
  | none =>
    simp only [CancelCheck, hc] at h
    cases hs : ctr.state with
    | Build =>
      simp only [hs] at h
      cases hb : build K ctr proc with
      | error p => simp [hb] at h
      | ok v =>
        obtain ⟨c1, p1, e1⟩ := v
        have hbt := build_took K ctr c1 proc p1 e1 hb
        simp only [hb] at h
        cases e1 with
        | some e =>
          simp only [Except.ok.injEq, Prod.mk.injEq] at h
          obtain ⟨_, h2, h3, h4⟩ := h
          subst h2 h3 h4
          exact Or.inr ⟨e, rfl, rfl, hbt⟩
        | none =>
          simp only at h
          have hclean : Took proc p1 (fun m => m.Err = none) :=
            Took_mono (fun m hm => by rcases hm with h | h <;> exact h) hbt
          split at h
          · simp only [callEnd, Except.ok.injEq, Prod.mk.injEq] at h
            obtain ⟨_, h2, _⟩ := h
            subst h2
            exact Or.inl hclean
          · exact TookOrFailed_trans hclean (callProbe_took K ap _ _ _ _ _ _ h)
    | Probe =>
      simp only [hs] at h
      exact callProbe_took K ap _ _ _ _ _ _ h
    | End =>
      simp only [hs, callEnd, Except.ok.injEq, Prod.mk.injEq] at h
      obtain ⟨_, h2, _⟩ := h
      subst h2
      exact Or.inl (Took_of_eq _ rfl)

end Join

/-! ## Contract of the join operator: upstream errors -/

/-- C12: whenever a message taken by a `Call` of the join from the build
register or the probe register (indeed from any register: `c` is what the
call took from register `i`) carries an error `e`, the `Call` returns exactly
`e` as its error and no output batch. -/
theorem Join.upstream_error_propagates (K : Consts) (ap : Join.InnerJoin)
    (ctr ctr' : Join.container) (proc proc' : Process) (r : CallResult) (err : Option Error)
    (i : Nat) (c q' : List RegisterMessage) (m : RegisterMessage) (e : Error)
    (hcall : Join.Call K ap ctr proc = .ok (ctr', proc', r, err))
    (hq : proc.MergeReceivers[i]? = some (c ++ q'))
    (hq' : proc'.MergeReceivers[i]? = some q')
    (hm : m ∈ c) (he : m.Err = some e) :
    err = some e ∧ r.Batch = none := by
  have key : ∀ (G : RegisterMessage → Prop), Join.Took proc proc' G → G m := by
    intro G hT
    obtain ⟨c1, q1, a1, a2, a3⟩ := hT i _ hq
    rw [hq'] at a1
    cases a1
    have : c = c1 := List.append_cancel_right a2
    exact a3 m (this ▸ hm)
  rcases Join.Call_took K ap ctr ctr' proc proc' r err hcall with h | ⟨e1, a, b, h⟩
  · have := key _ h
    rw [he] at this
    cases this
  · have := key _ h
    rw [he] at this
    rcases this with h | h
    · cases h
    · cases h
      exact ⟨a, b⟩

/-- Witness of C12: in state `Build`, the build register delivers the hash
index, one batch and then a message that carries the error `other 7`; in
state `Probe`, the probe register delivers a message that carries the error
`other 9`. -/
theorem Join.upstream_error_propagates_witness :
    (Join.Call Sample.K Sample.ap (Join.Prepare Sample.K Sample.ap)
        (Sample.proc [⟨some (Sample.indexBat Sample.jm), none⟩, ⟨some Sample.buildBat, none⟩,
          ⟨none, some (.other 7)⟩])
      = .ok ({ Join.Prepare Sample.K Sample.ap with
                 mp := some Sample.jm, maxAllocSize := 7, batches := [Sample.buildBat],
                 batchRowCount := 3 },
             { Sample.proc [] with MergeReceivers := [[⟨some Sample.probeBat, none⟩], []] },
             NewCallResult, some (.other 7)) ∧
      some (Error.other 7) = some (.other 7) ∧ NewCallResult.Batch = none) ∧
    (Join.Call Sample.K Sample.ap { Sample.probing with bat := none }
        { Sample.proc [] with MergeReceivers := [[⟨none, some (.other 9)⟩], []] }
      = .ok ({ Sample.probing with bat := none },
             { Sample.proc [] with MergeReceivers := [[], []] },
             NewCallResult, some (.other 9)) ∧
      some (Error.other 9) = some (.other 9) ∧ NewCallResult.Batch = none) :=
  ⟨⟨rfl, Join.upstream_error_propagates Sample.K Sample.ap (Join.Prepare Sample.K Sample.ap)
      { Join.Prepare Sample.K Sample.ap with
          mp := some Sample.jm, maxAllocSize := 7, batches := [Sample.buildBat],
          batchRowCount := 3 }
      (Sample.proc [⟨some (Sample.indexBat Sample.jm), none⟩, ⟨some Sample.buildBat, none⟩,
        ⟨none, some (.other 7)⟩])
      { Sample.proc [] with MergeReceivers := [[⟨some Sample.probeBat, none⟩], []] }
      NewCallResult (some (.other 7)) 1
      [⟨some (Sample.indexBat Sample.jm), none⟩, ⟨some Sample.buildBat, none⟩,
        ⟨none, some (.other 7)⟩] [] ⟨none, some (.other 7)⟩ (.other 7) rfl rfl rfl
      (by decide) rfl⟩,
   ⟨rfl, Join.upstream_error_propagates Sample.K Sample.ap { Sample.probing with bat := none }
      { Sample.probing with bat := none }
      { Sample.proc [] with MergeReceivers := [[⟨none, some (.other 9)⟩], []] }
      { Sample.proc [] with MergeReceivers := [[], []] }
      NewCallResult (some (.other 9)) 0 [⟨none, some (.other 9)⟩] [] ⟨none, some (.other 9)⟩
      (.other 9) rfl rfl rfl (by decide) rfl⟩⟩

/-! ### Lemmas on the receives and the loop of the merge-CTE operator -/

namespace MergeCTE

theorem CancelCheck_none {proc : Process} (h : proc.Ctx = none) :
    CancelCheck proc = (none, false) := by
  simp [CancelCheck, h]

theorem Call_eq (K : Consts) (arg : Argument) (proc : Process) (h : proc.Ctx = none) :
    Call K arg proc =
      match arg.ctr.status with
      | .sendInitial =>
        match ReceiveFromSingleReg (releaseBuf arg proc) 0 with
        | .error p => .error p
        | .ok (msg, proc) =>
          match msg.Err with
          | some e => .ok ({ arg with buf := none }, proc, { Status := .ExecStop, Batch := none },
              some e)
          | none =>
            match msg.Batch with
            | some b => lastTag { arg with buf := some b } proc
            | none => lastTag { ctr := { arg.ctr with status := .sendLastTag }, buf := none } proc
      | .sendLastTag => lastTag { arg with buf := none } (releaseBuf arg proc)
      | .sendRecursive =>
        recursiveLoop K (pending (releaseBuf arg proc) + 1) { arg with buf := none }
          (releaseBuf arg proc) := by
  unfold Call
  rw [CancelCheck_none h]
  rfl

theorem pending_PutBatch (proc : Process) (b : Batch) : pending (proc.PutBatch b) = pending proc :=
  rfl

theorem pending_releaseBuf (arg : Argument) (proc : Process) :
    pending (releaseBuf arg proc) = pending proc := by
  unfold releaseBuf
  cases arg.buf <;> rfl

theorem firstReady_some {regs : List (List RegisterMessage)} : ∀ {alive : List Nat} {i : Nat},
    firstReady regs alive = some i → ∃ m rest, regs[i]? = some (m :: rest) := by
  intro alive
  induction alive with
  | nil => intro i h; cases h
  | cons a as ih =>
    intro i h
    simp only [firstReady] at h
    split at h
    · next m rest hm =>
      cases h
      exact ⟨_, _, hm⟩
    · exact ih h

theorem sum_length_set {regs : List (List RegisterMessage)} : ∀ {i : Nat} {m : RegisterMessage}
    {rest : List RegisterMessage}, regs[i]? = some (m :: rest) →
    ((regs.set i rest).map List.length).sum + 1 = (regs.map List.length).sum := by
  induction regs with
  | nil => intro i m rest h; cases h
  | cons q qs ih =>
    intro i m rest h
    cases i with
    | zero =>
      simp only [List.getElem?_cons_zero, Option.some.injEq] at h
      subst h
      simp only [List.set_cons_zero, List.map_cons, List.sum_cons, List.length_cons]
      omega
    | succ i =>
      simp only [List.getElem?_cons_succ] at h
      have := ih h
      simp only [List.set_cons_succ, List.map_cons, List.sum_cons]
      omega

theorem count_pending_set {regs : List (List RegisterMessage)} (x : Batch) :
    ∀ {i : Nat} {m : RegisterMessage} {rest : List RegisterMessage},
    regs[i]? = some (m :: rest) →
    ((regs.set i rest).flatten.filterMap (fun m => m.Batch)).count x + m.Batch.toList.count x
      = (regs.flatten.filterMap (fun m => m.Batch)).count x := by
  induction regs with
  | nil => intro i m rest h; cases h
  | cons q qs ih =>
    intro i m rest h
    cases i with
    | zero =>
      simp only [List.getElem?_cons_zero, Option.some.injEq] at h
      subst h
      simp only [List.set_cons_zero, List.flatten_cons, List.filterMap_append, List.count_append]
      cases hb : m.Batch with
      | none => simp [List.filterMap_cons, hb]
      | some b =>
        simp only [List.filterMap_cons, hb, Option.toList_some, List.count_cons, List.count_nil]
        omega
    | succ i =>
      simp only [List.getElem?_cons_succ] at h
      have := ih h
      simp only [List.set_cons_succ, List.flatten_cons, List.filterMap_append, List.count_append]
      omega

theorem recvAll_spec : ∀ (fuel : Nat) (alive : List Nat) (proc : Process), pending proc < fuel →
    ∃ msg alive' proc', recvAll fuel alive proc = .ok (msg, alive', proc') ∧
      proc'.Ctx = proc.Ctx ∧ pending proc' ≤ pending proc ∧
      (∀ b, msg.Batch = some b → pending proc' < pending proc) ∧
      alive'.Sublist alive ∧
      (∀ x, proc'.put.count x + msg.Batch.toList.count x + (pendingBatches proc').count x
          = proc.put.count x + (pendingBatches proc).count x) := by
  intro fuel
  induction fuel with
  | zero => intro alive proc h; omega
  | succ fuel ih =>
    intro alive proc hf
    have hf' : (proc.MergeReceivers.map List.length).sum < fuel + 1 := hf
    unfold recvAll
    cases hfr : firstReady proc.MergeReceivers alive with
    | none =>
      refine ⟨_, _, _, rfl, rfl, le_refl _, ?_, List.nil_sublist _, ?_⟩
      · intro b hb; cases hb
      · intro x; simp [NormalEndRegisterMessage]
    | some i =>
      obtain ⟨m, rest, hm⟩ := firstReady_some hfr
      have hp := sum_length_set hm
      have hc := fun x => count_pending_set x hm
      simp only [hm]
      cases he : m.Err with
      | some e =>
        refine ⟨_, _, _, rfl, rfl, ?_, ?_, List.Sublist.refl _, ?_⟩
        · simp only [pending]; omega
        · intro b _; simp only [pending]; omega
        · intro x
          have := hc x
          simp only [pendingBatches]
          omega
      | none =>
        cases hb : m.Batch with
        | none =>
          obtain ⟨msg, alive', proc', h1, h2, h3, h4, h5, h6⟩ := ih (alive.erase i)
            { proc with MergeReceivers := proc.MergeReceivers.set i rest }
            (by simp only [pending]; omega)
          refine ⟨msg, alive', proc', h1, h2, ?_, ?_, h5.trans (List.erase_sublist _ _), ?_⟩
          · simp only [pending] at h3 ⊢; omega
          · intro b hb'
            have := h4 b hb'
            simp only [pending] at this ⊢; omega
          · intro x
            have := hc x
            have := h6 x
            simp only [pendingBatches, hb, Option.toList_none, List.count_nil] at *
            omega
        | some b =>
          by_cases hemp : b.IsEmpty = true
          · simp only [hemp, if_true]
            obtain ⟨msg, alive', proc', h1, h2, h3, h4, h5, h6⟩ := ih alive
              (Process.PutBatch { proc with MergeReceivers := proc.MergeReceivers.set i rest } b)
              (by simp only [pending, Process.PutBatch]; omega)
            refine ⟨msg, alive', proc', h1, h2, ?_, ?_, h5, ?_⟩
            · simp only [pending, Process.PutBatch] at h3 ⊢; omega
            · intro b' hb'
              have := h4 b' hb'
              simp only [pending, Process.PutBatch] at this ⊢; omega
            · intro x
              have := hc x
              have := h6 x
              simp only [pendingBatches, hb, Option.toList_some, Process.PutBatch,
                List.count_append] at *
              omega
          · simp only [hemp, if_false]
            refine ⟨_, _, _, rfl, rfl, ?_, ?_, List.Sublist.refl _, ?_⟩
            · simp only [pending]; omega
            · intro b _; simp only [pending]; omega
            · intro x
              have := hc x
              simp only [pendingBatches]
              omega

theorem setLast_eq {b : Batch} (h : b.last = true) : ({ b with last := true } : Batch) = b := by
  cases b
  simp_all

theorem recursiveLoop_spec (K : Consts) : ∀ (fuel : Nat) (arg : Argument) (proc : Process),
    pending proc < fuel →
    ∃ arg' proc' r err, recursiveLoop K fuel arg proc = .ok (arg', proc', r, err) ∧
      LoopPost K arg proc arg' proc' r err := by
  intro fuel
  induction fuel with
  | zero => intro arg proc h; omega
  | succ fuel ih =>
    intro arg proc hf
    obtain ⟨msg, alive', proc1, h1, h2, h3, h4, h5, h6⟩ :=
      recvAll_spec (pending proc + 1) arg.ctr.alive proc (by omega)
    unfold recursiveLoop
    simp only [ReceiveFromAllRegs, h1]
    cases hb : msg.Batch with
    | none =>
      refine ⟨_, _, _, _, rfl, rfl, rfl, h2, h5, Or.inl ⟨rfl, rfl, Or.inl rfl⟩, ?_, ?_⟩
      · intro a b _; exact ⟨a, b⟩
      · intro x
        have := h6 x
        simp only [hb, Option.toList_none, List.count_nil] at this ⊢
        omega
    | some b =>
      have hlt := h4 b hb
      cases hl : b.last with
      | false =>
        simp only [hl, Bool.not_false, if_true, finish]
        refine ⟨_, _, _, _, rfl, rfl, rfl, h2, h5, Or.inl ⟨rfl, rfl, Or.inr ⟨b, rfl, rfl, hl⟩⟩,
          ?_, ?_⟩
        · intro a b _; exact ⟨a, b⟩
        · intro x
          have := h6 x
          simp only [hb] at this
          simp only
          omega
      | true =>
        have hbl : ({ b with last := true } : Batch) = b := setLast_eq hl
        simp only [hl, Bool.not_true, hbl]
        by_cases hz : int32 (arg.ctr.curNodeCnt - 1) = 0
        · simp only [hz, if_true, Bool.false_eq_true, if_false]
          by_cases hmax : K.moDefaultRecursionMax < arg.ctr.recursiveLever + 1
          · simp only [hmax, if_true]
            refine ⟨_, _, _, _, rfl, rfl, rfl, h2, h5,
              Or.inr ⟨rfl, rfl, b, rfl, hl, Or.inl ⟨hmax, rfl, rfl⟩⟩, ?_, ?_⟩
            · intro a _ c; simp only; omega
            · intro x
              have := h6 x
              simp only [hb, Option.toList_some] at this
              simp only [Option.toList_none, List.count_nil]
              omega
          · simp only [hmax, if_false, finish]
            refine ⟨_, _, _, _, rfl, rfl, rfl, h2, h5,
              Or.inr ⟨rfl, rfl, b, rfl, hl, Or.inr ⟨by simp only; omega, rfl, rfl⟩⟩, ?_, ?_⟩
            · intro a _ c; simp only; omega
            · intro x
              have := h6 x
              simp only [hb] at this
              simp only
              omega
        · simp only [hz, if_false, Bool.false_eq_true]
          obtain ⟨arg', proc', r, err, e1, e2, e3, e4, e5, e6, e7, e8⟩ := ih
            { ctr := { arg.ctr with alive := alive', curNodeCnt := int32 (arg.ctr.curNodeCnt - 1) },
              buf := some b } (proc1.PutBatch b) (by rw [pending_PutBatch]; omega)
          refine ⟨arg', proc', r, err, e1, e2, e3, e4.trans h2, e5.trans h5, e6, ?_, ?_⟩
          · intro a c d
            have hi : int32 (arg.ctr.curNodeCnt - 1) = arg.ctr.curNodeCnt - 1 := by
              unfold int32; omega
            rw [hi] at hz
            simp only [hi] at e7
            have := e7 (by omega) (by omega) d
            omega
          · intro x
            have := h6 x
            have := e8 x
            simp only [hb, Option.toList_some, Process.PutBatch, List.count_append,
              pendingBatches] at *
            omega

theorem Call_cancel (K : Consts) (arg : Argument) (proc : Process) (e : Error)
    (h : proc.Ctx = some e) : Call K arg proc = .ok (arg, proc, CancelResult, some e) := by
  unfold Call
  simp [CancelCheck, h]

theorem Call_recursive (K : Consts) (arg : Argument) (proc : Process) (h : proc.Ctx = none)
    (hs : arg.ctr.status = .sendRecursive) :
    ∃ arg' proc' r err, Call K arg proc = .ok (arg', proc', r, err) ∧
      LoopPost K { arg with buf := none } (releaseBuf arg proc) arg' proc' r err := by
  rw [Call_eq K arg proc h]
  simp only [hs]
  exact recursiveLoop_spec K _ _ _ (by omega)

theorem recvAll_regs : ∀ (fuel : Nat) (alive : List Nat) (p q : Process),
    p.MergeReceivers = q.MergeReceivers →
    (∃ e, recvAll fuel alive p = .error e ∧ recvAll fuel alive q = .error e) ∨
    (∃ m a p' q', recvAll fuel alive p = .ok (m, a, p') ∧ recvAll fuel alive q = .ok (m, a, q') ∧
      p'.MergeReceivers = q'.MergeReceivers) := by
  intro fuel
  induction fuel with
  | zero => intro alive p q _; exact Or.inl ⟨_, rfl, rfl⟩
  | succ fuel ih =>
    intro alive p q h
    unfold recvAll
    rw [h]
    cases firstReady q.MergeReceivers alive with
    | none => exact Or.inr ⟨_, _, _, _, rfl, rfl, h⟩
    | some i =>
      simp only
      cases hq : q.MergeReceivers[i]? with
      | none => exact Or.inl ⟨_, rfl, rfl⟩
      | some l =>
        cases l with
        | nil => exact Or.inl ⟨_, rfl, rfl⟩
        | cons m rest =>
          simp only
          cases hE : m.Err with
          | some e =>
            simp only
            exact Or.inr ⟨_, _, _, _, rfl, rfl, by simp only [h]⟩
          | none =>
            simp only
            cases hB : m.Batch with
            | none =>
              simp only
              exact ih _ _ _ (by simp only [h])
            | some b =>
              simp only
              by_cases he : b.IsEmpty = true
              · simp only [he, if_true]
                exact ih _ _ _ (by simp only [Process.PutBatch, h])
              · simp only [he, if_false, Bool.false_eq_true]
                exact Or.inr ⟨_, _, _, _, rfl, rfl, by simp only [h]⟩

theorem deliveries_regs : ∀ (n : Nat) (alive : List Nat) (p q : Process),
    p.MergeReceivers = q.MergeReceivers → deliveries n alive p = deliveries n alive q := by
  intro n
  induction n with
  | zero => intro alive p q _; rfl
  | succ n ih =>
    intro alive p q h
    have hp : pending p = pending q := by unfold pending; rw [h]
    unfold deliveries ReceiveFromAllRegs
    rw [hp]
    rcases recvAll_regs (pending q + 1) alive p q h with ⟨e, h1, h2⟩ | ⟨m, a, p', q', h1, h2, h3⟩
    · rw [h1, h2]
    · rw [h1, h2]
      simp only
      cases m.Batch with
      | none => rfl
      | some b => simp only; rw [ih a p' q' h3]

/-- The loop of the `sendRecursive` case and the event that a boundary marker
brings the countdown to zero: with the event the countdown is reset, the
depth counter is incremented and the error depends on the maximum; without
it the depth counter is left and no error is returned. -/
theorem recursiveLoop_event (K : Consts) : ∀ (fuel : Nat) (arg : Argument) (proc : Process),
    pending proc < fuel → ∀ (n : Nat), pending proc < n →
    ∃ arg' proc' r err, recursiveLoop K fuel arg proc = .ok (arg', proc', r, err) ∧
      (hitsZero arg.ctr.curNodeCnt (deliveries n arg.ctr.alive proc) = true →
        arg'.ctr.recursiveLever = arg.ctr.recursiveLever + 1 ∧
        arg'.ctr.curNodeCnt = arg.ctr.nodeCnt ∧
        ((K.moDefaultRecursionMax < arg.ctr.recursiveLever + 1 ∧
            err = some .checkRecursiveLevel ∧ r = { Status := .ExecStop, Batch := none }) ∨
          (arg.ctr.recursiveLever + 1 ≤ K.moDefaultRecursionMax ∧ err = none ∧
            ∃ b, r = { Status := .ExecNext, Batch := some b } ∧ b.last = true))) ∧
      (hitsZero arg.ctr.curNodeCnt (deliveries n arg.ctr.alive proc) = false →
        arg'.ctr.recursiveLever = arg.ctr.recursiveLever ∧ err = none) := by
  intro fuel
  induction fuel with
  | zero => intro arg proc h; omega
  | succ fuel ih =>
    intro arg proc hf n hn
    obtain ⟨k, rfl⟩ : ∃ k, n = k + 1 := ⟨n - 1, by omega⟩
    obtain ⟨msg, alive', proc1, h1, _, h3, h4, _, _⟩ :=
      recvAll_spec (pending proc + 1) arg.ctr.alive proc (by omega)
    have hR : ReceiveFromAllRegs arg.ctr.alive proc = .ok (msg, alive', proc1) := h1
    unfold recursiveLoop deliveries
    simp only [hR]
    cases hb : msg.Batch with
    | none =>
      refine ⟨_, _, _, _, rfl, ?_, ?_⟩
      · intro h; simp [hitsZero, hb] at h
      · intro _; exact ⟨rfl, rfl⟩
    | some b =>
      have hlt := h4 b hb
      cases hl : b.last with
      | false =>
        simp only [hl, Bool.not_false, if_true, finish]
        refine ⟨_, _, _, _, rfl, ?_, ?_⟩
        · intro h; simp [hitsZero, hb, hl] at h
        · intro _; exact ⟨rfl, rfl⟩
      | true =>
        have hbl : ({ b with last := true } : Batch) = b := setLast_eq hl
        simp only [hl, Bool.not_true, hbl, Bool.false_eq_true, if_false]
        by_cases hz : int32 (arg.ctr.curNodeCnt - 1) = 0
        · simp only [hz, if_true]
          by_cases hmax : K.moDefaultRecursionMax < arg.ctr.recursiveLever + 1
          · simp only [hmax, if_true]
            refine ⟨_, _, _, _, rfl, ?_, ?_⟩
            · intro _; exact ⟨rfl, rfl, Or.inl ⟨trivial, rfl, rfl⟩⟩
            · intro h; simp [hitsZero, hb, hl, hz] at h
          · simp only [hmax, if_false, finish]
            refine ⟨_, _, _, _, rfl, ?_, ?_⟩
            · intro _; exact ⟨rfl, rfl, Or.inr ⟨by omega, rfl, b, rfl, hl⟩⟩
            · intro h; simp [hitsZero, hb, hl, hz] at h
        · simp only [hz, if_false]
          obtain ⟨arg', proc', r, err, e1, e2, e3⟩ := ih
            { ctr := { arg.ctr with alive := alive', curNodeCnt := int32 (arg.ctr.curNodeCnt - 1) },
              buf := some b } (proc1.PutBatch b) (by rw [pending_PutBatch]; omega) k
            (by rw [pending_PutBatch]; omega)
          have hd : deliveries k alive' (proc1.PutBatch b) = deliveries k alive' proc1 :=
            deliveries_regs k alive' _ _ rfl
          simp only [hd] at e2 e3
          have hh : hitsZero arg.ctr.curNodeCnt (msg :: deliveries k alive' proc1)
              = hitsZero (int32 (arg.ctr.curNodeCnt - 1)) (deliveries k alive' proc1) := by
            simp [hitsZero, hb, hl, hz]
          rw [hh]
          exact ⟨arg', proc', r, err, e1, e2, e3⟩

/-- The event of `hitsZero` in plain terms: with the countdown at `cur`,
`1 ≤ cur < 2^31`, a boundary marker brings it to zero exactly when the first
`cur` messages received are all boundary markers. -/
theorem hitsZero_iff : ∀ (D : List RegisterMessage) (cur : Int), 1 ≤ cur → cur < 2147483648 →
    (hitsZero cur D = true ↔
      ∃ n : Nat, (n : Int) = cur ∧ n ≤ D.length ∧
        ∀ m ∈ D.take n, ∃ b, m.Batch = some b ∧ b.last = true) := by
  intro D
  induction D with
  | nil =>
    intro cur h1 _
    simp only [hitsZero, Bool.false_eq_true, false_iff, List.length_nil, not_exists, not_and]
    intro n hn hl
    omega
  | cons m D ih =>
    intro cur h1 h2
    have hi : int32 (cur - 1) = cur - 1 := by unfold int32; omega
    obtain ⟨c, rfl⟩ : ∃ c : Nat, cur = (c : Int) + 1 := ⟨(cur - 1).toNat, by omega⟩
    have hn1 : ∀ n : Nat, (n : Int) = (c : Int) + 1 → n = c + 1 := fun n hn => by omega
    cases hb : m.Batch with
    | none =>
      simp only [hitsZero, hb, Bool.false_eq_true, false_iff, not_exists, not_and]
      intro n hn _ hall
      rw [hn1 n hn] at hall
      obtain ⟨b, hb', _⟩ := hall m (by simp)
      rw [hb] at hb'; cases hb'
    | some b =>
      cases hl : b.last with
      | false =>
        simp only [hitsZero, hb, hl, Bool.false_and, Bool.false_eq_true, false_iff, not_exists,
          not_and]
        intro n hn _ hall
        rw [hn1 n hn] at hall
        obtain ⟨b', hb', hl'⟩ := hall m (by simp)
        rw [hb] at hb'
        cases hb'
        rw [hl] at hl'; cases hl'
      | true =>
        simp only [hitsZero, hb, hl, Bool.true_and, hi, Bool.or_eq_true, decide_eq_true_eq]
        have hcc : (c : Int) + 1 - 1 = (c : Int) := by omega
        rw [hcc]
        by_cases hc : c = 0
        · subst hc
          constructor
          · intro _
            refine ⟨1, by simp, by simp, fun x hx => ?_⟩
            simp only [List.take_succ_cons, List.take_zero, List.mem_singleton] at hx
            subst hx
            exact ⟨b, hb, hl⟩
          · intro _
            exact Or.inl (by simp)
        · have hc0 : ¬ ((c : Int) = 0) := by omega
          rw [ih (c : Int) (by omega) (by omega)]
          constructor
          · intro h
            rcases h with h | ⟨n, hn, hl', hall⟩
            · exact absurd h hc0
            · refine ⟨n + 1, by omega, by simp only [List.length_cons]; omega, fun x hx => ?_⟩
              simp only [List.take_succ_cons, List.mem_cons] at hx
              rcases hx with hx | hx
              · subst hx; exact ⟨b, hb, hl⟩
              · exact hall x hx
          · intro ⟨n, hn, hl', hall⟩
            have := hn1 n hn
            subst this
            refine Or.inr ⟨c, rfl, by simp only [List.length_cons] at hl'; omega, fun x hx => ?_⟩
            exact hall x (by simp only [List.take_succ_cons, List.mem_cons]; exact Or.inr hx)

end MergeCTE

/-! ## Contracts of the merge-CTE operator: one `Call` -/

/-- C14: a `Call` in the `sendRecursive` state returns a result, and its error
is the recursion-level error if and only if during that `Call` (it is not
cancelled) a boundary marker brings the countdown to zero and the depth
counter after its increment exceeds `moDefaultRecursionMax`; that error comes
with the stop status and no batch. A marker brings the countdown to zero
exactly when the `Call` increments the depth counter; the countdown is then
reset and the marker is held. In every other case the error is none or the
one of the cancellation, not the recursion-level error. -/
theorem MergeCTE.recursion_limit (K : Consts) (arg : MergeCTE.Argument) (proc : Process)
    (hctx : proc.Ctx ≠ some .checkRecursiveLevel)
    (hs : arg.ctr.status = .sendRecursive) :
    ∃ arg' proc' r err, MergeCTE.Call K arg proc = .ok (arg', proc', r, err) ∧
      (err = some .checkRecursiveLevel ↔
        (proc.Ctx = none ∧
          MergeCTE.hitsZero arg.ctr.curNodeCnt
            (MergeCTE.deliveries (MergeCTE.pending proc + 1) arg.ctr.alive proc) = true ∧
          K.moDefaultRecursionMax < arg.ctr.recursiveLever + 1)) ∧
      (proc.Ctx = none →
        (MergeCTE.hitsZero arg.ctr.curNodeCnt
            (MergeCTE.deliveries (MergeCTE.pending proc + 1) arg.ctr.alive proc) = true ↔
          arg'.ctr.recursiveLever = arg.ctr.recursiveLever + 1)) ∧
      (err = some .checkRecursiveLevel ↔
        (arg'.ctr.recursiveLever = arg.ctr.recursiveLever + 1 ∧
          K.moDefaultRecursionMax < arg'.ctr.recursiveLever)) ∧
      (err = some .checkRecursiveLevel → r.Status = .ExecStop ∧ r.Batch = none) ∧
      (arg'.ctr.recursiveLever = arg.ctr.recursiveLever ∨
        (arg'.ctr.recursiveLever = arg.ctr.recursiveLever + 1 ∧
          arg'.ctr.curNodeCnt = arg.ctr.nodeCnt ∧
          ∃ b, arg'.buf = some b ∧ b.last = true)) ∧
      (err = none ∨ err = some .checkRecursiveLevel ∨ err = proc.Ctx) := by
  cases hc : proc.Ctx with
  | some e =>
    refine ⟨arg, proc, CancelResult, some e, MergeCTE.Call_cancel K arg proc e hc, ?_, ?_, ?_, ?_,
      Or.inl rfl, Or.inr (Or.inr rfl)⟩
    · constructor
      · intro h
        rw [hc, h] at hctx
        exact absurd rfl hctx
      · intro h
        cases h.1
    · intro h; cases h
    · constructor
      · intro h
        rw [hc, h] at hctx
        exact absurd rfl hctx
      · intro h
        omega
    · intro h
      exact ⟨rfl, rfl⟩
  | none =>
    obtain ⟨arg', proc', r, err, h1, _, _, _, _, h5, _, _⟩ :=
      MergeCTE.Call_recursive K arg proc hc hs
    obtain ⟨a2, p2, r2, e2, g1, g2, g3⟩ := MergeCTE.recursiveLoop_event K
      (MergeCTE.pending (MergeCTE.releaseBuf arg proc) + 1) { arg with buf := none }
      (MergeCTE.releaseBuf arg proc) (by omega) (MergeCTE.pending proc + 1)
      (by rw [MergeCTE.pending_releaseBuf]; omega)
    have hcall : MergeCTE.Call K arg proc = .ok (a2, p2, r2, e2) := by
      rw [MergeCTE.Call_eq K arg proc hc]
      simp only [hs]
      exact g1
    rw [h1] at hcall
    simp only [Except.ok.injEq, Prod.mk.injEq] at hcall
    obtain ⟨q1, q2, q3, q4⟩ := hcall
    subst q1 q2 q3 q4
    have hd : MergeCTE.deliveries (MergeCTE.pending proc + 1) arg.ctr.alive
        (MergeCTE.releaseBuf arg proc)
        = MergeCTE.deliveries (MergeCTE.pending proc + 1) arg.ctr.alive proc := by
      apply MergeCTE.deliveries_regs
      unfold MergeCTE.releaseBuf
      cases arg.buf <;> rfl
    simp only [hd] at g2 g3
    refine ⟨arg', proc', r, err, h1, ?_, ?_, ?_, ?_, ?_, ?_⟩
    · constructor
      · intro he
        cases hz : MergeCTE.hitsZero arg.ctr.curNodeCnt
            (MergeCTE.deliveries (MergeCTE.pending proc + 1) arg.ctr.alive proc) with
        | false =>
          have := (g3 hz).2
          rw [this] at he; cases he
        | true =>
          rcases (g2 hz).2.2 with ⟨c, _, _⟩ | ⟨_, c, _⟩
          · exact ⟨rfl, rfl, c⟩
          · rw [c] at he; cases he
      · intro ⟨_, hz, hm⟩
        rcases (g2 hz).2.2 with ⟨_, c, _⟩ | ⟨c, _, _⟩
        · exact c
        · omega
    · intro _
      constructor
      · intro hz; exact (g2 hz).1
      · intro hl
        cases hz : MergeCTE.hitsZero arg.ctr.curNodeCnt
            (MergeCTE.deliveries (MergeCTE.pending proc + 1) arg.ctr.alive proc) with
        | false =>
          have := (g3 hz).1
          simp only at this
          omega
        | true => rfl
    · constructor
      · intro he
        rcases h5 with ⟨_, h, _⟩ | ⟨a, _, b, _, _, h⟩
        · rw [h] at he; cases he
        · rcases h with ⟨c, _, _⟩ | ⟨_, h, _⟩
          · exact ⟨a, c⟩
          · rw [h] at he; cases he
      · intro ⟨ha, hb⟩
        rcases h5 with ⟨h, _, _⟩ | ⟨_, _, b, _, _, h⟩
        · simp only at h; omega
        · rcases h with ⟨_, h, _⟩ | ⟨c, _, _⟩
          · exact h
          · omega
    · intro he
      rcases h5 with ⟨_, h, _⟩ | ⟨a, _, b, _, _, h⟩
      · rw [h] at he; cases he
      · rcases h with ⟨_, _, h⟩ | ⟨_, h, _⟩
        · rw [h]; exact ⟨rfl, rfl⟩
        · rw [h] at he; cases he
    · rcases h5 with ⟨h, _, _⟩ | ⟨a, c, b, hb, hl, _⟩
      · exact Or.inl h
      · exact Or.inr ⟨a, c, b, hb, hl⟩
    · rcases h5 with ⟨_, h, _⟩ | ⟨_, _, b, _, _, h⟩
      · exact Or.inl h
      · rcases h with ⟨_, h, _⟩ | ⟨_, h, _⟩
        · exact Or.inr (Or.inl h)
        · exact Or.inl h

/-- Witness of C14: one worker, recursion maximum 0, a boundary marker on the
worker register. The marker brings the countdown from 1 to zero, the depth
counter becomes 1, which exceeds the maximum: the `Call` returns the
recursion-level error with the stop status and no batch. -/
theorem MergeCTE.recursion_limit_witness :
    (Sample.cteProc [[], [⟨some Sample.marker, none⟩]]).Ctx ≠ some .checkRecursiveLevel ∧
    (Sample.cteRec 1 1 [1]).ctr.status = .sendRecursive ∧
    MergeCTE.hitsZero 1
      (MergeCTE.deliveries 2 [1] (Sample.cteProc [[], [⟨some Sample.marker, none⟩]])) = true ∧
    MergeCTE.Call Sample.K0 (Sample.cteRec 1 1 [1])
        (Sample.cteProc [[], [⟨some Sample.marker, none⟩]])
      = .ok ({ ctr := ⟨[1], 1, 1, .sendRecursive, 1⟩, buf := some Sample.marker },
          Sample.cteProc [[], []], { Status := .ExecStop, Batch := none },
          some .checkRecursiveLevel) ∧
    ∃ arg' proc' r err,
      MergeCTE.Call Sample.K0 (Sample.cteRec 1 1 [1])
          (Sample.cteProc [[], [⟨some Sample.marker, none⟩]]) = .ok (arg', proc', r, err) ∧
      (err = some .checkRecursiveLevel ↔
        ((Sample.cteProc [[], [⟨some Sample.marker, none⟩]]).Ctx = none ∧
          MergeCTE.hitsZero (Sample.cteRec 1 1 [1]).ctr.curNodeCnt
            (MergeCTE.deliveries
              (MergeCTE.pending (Sample.cteProc [[], [⟨some Sample.marker, none⟩]]) + 1)
              (Sample.cteRec 1 1 [1]).ctr.alive
              (Sample.cteProc [[], [⟨some Sample.marker, none⟩]])) = true ∧
          Sample.K0.moDefaultRecursionMax < (Sample.cteRec 1 1 [1]).ctr.recursiveLever + 1)) ∧
      ((Sample.cteProc [[], [⟨some Sample.marker, none⟩]]).Ctx = none →
        (MergeCTE.hitsZero (Sample.cteRec 1 1 [1]).ctr.curNodeCnt
            (MergeCTE.deliveries
              (MergeCTE.pending (Sample.cteProc [[], [⟨some Sample.marker, none⟩]]) + 1)
              (Sample.cteRec 1 1 [1]).ctr.alive
              (Sample.cteProc [[], [⟨some Sample.marker, none⟩]])) = true ↔
          arg'.ctr.recursiveLever = (Sample.cteRec 1 1 [1]).ctr.recursiveLever + 1)) ∧
      (err = some .checkRecursiveLevel ↔
        (arg'.ctr.recursiveLever = (Sample.cteRec 1 1 [1]).ctr.recursiveLever + 1 ∧
          Sample.K0.moDefaultRecursionMax < arg'.ctr.recursiveLever)) ∧
      (err = some .checkRecursiveLevel → r.Status = .ExecStop ∧ r.Batch = none) ∧
      (arg'.ctr.recursiveLever = (Sample.cteRec 1 1 [1]).ctr.recursiveLever ∨
        (arg'.ctr.recursiveLever = (Sample.cteRec 1 1 [1]).ctr.recursiveLever + 1 ∧
          arg'.ctr.curNodeCnt = (Sample.cteRec 1 1 [1]).ctr.nodeCnt ∧
          ∃ b, arg'.buf = some b ∧ b.last = true)) ∧
      (err = none ∨ err = some .checkRecursiveLevel ∨
        err = (Sample.cteProc [[], [⟨some Sample.marker, none⟩]]).Ctx) :=
  ⟨by decide, rfl, rfl, rfl,
    MergeCTE.recursion_limit Sample.K0 (Sample.cteRec 1 1 [1])
      (Sample.cteProc [[], [⟨some Sample.marker, none⟩]]) (by decide) rfl⟩

namespace MergeCTE

theorem firstReady_mem {regs : List (List RegisterMessage)} : ∀ {alive : List Nat} {i : Nat},
    firstReady regs alive = some i → i ∈ alive := by
  intro alive
  induction alive with
  | nil => intro i h; cases h
  | cons a as ih =>
    intro i h
    simp only [firstReady] at h
    split at h
    · cases h
      exact List.mem_cons_self _ _
    · exact List.mem_cons_of_mem _ (ih h)

theorem recvAll_untouched (j : Nat) : ∀ (fuel : Nat) (alive : List Nat) (proc : Process)
    (msg : RegisterMessage) (alive' : List Nat) (proc' : Process), j ∉ alive →
    recvAll fuel alive proc = .ok (msg, alive', proc') →
    proc'.MergeReceivers[j]? = proc.MergeReceivers[j]? := by
  intro fuel
  induction fuel with
  | zero => intro alive proc msg alive' proc' _ h; cases h
  | succ fuel ih =>
    intro alive proc msg alive' proc' hj h
    unfold recvAll at h
    cases hfr : firstReady proc.MergeReceivers alive with
    | none =>
      simp only [hfr, Except.ok.injEq, Prod.mk.injEq] at h
      obtain ⟨_, _, h⟩ := h
      subst h
      rfl
    | some i =>
      have hi := firstReady_mem hfr
      have hne : i ≠ j := fun h => hj (h ▸ hi)
      obtain ⟨m, rest, hm⟩ := firstReady_some hfr
      simp only [hfr, hm] at h
      cases he : m.Err with
      | some e =>
        simp only [he, Except.ok.injEq, Prod.mk.injEq] at h
        obtain ⟨_, _, h⟩ := h
        subst h
        exact List.getElem?_set_ne hne
      | none =>
        simp only [he] at h
        cases hb : m.Batch with
        | none =>
          simp only [hb] at h
          have := ih _ _ _ _ _ (fun hmem => hj (List.mem_of_mem_erase hmem)) h
          rw [this]
          exact List.getElem?_set_ne hne
        | some b =>
          simp only [hb] at h
          split at h
          · have := ih _ _ _ _ _ hj h
            rw [this]
            exact List.getElem?_set_ne hne
          · simp only [Except.ok.injEq, Prod.mk.injEq] at h
            obtain ⟨_, _, h⟩ := h
            subst h
            exact List.getElem?_set_ne hne

theorem Call_status_recursive (K : Consts) (arg : Argument) (proc : Process) (arg' : Argument)
    (proc' : Process) (r : CallResult) (e : Option Error)
    (hs : arg.ctr.status = .sendRecursive) (h : Call K arg proc = .ok (arg', proc', r, e)) :
    arg'.ctr.status = .sendRecursive := by
  cases hc : proc.Ctx with
  | some e' =>
    rw [Call_cancel K arg proc e' hc] at h
    simp only [Except.ok.injEq, Prod.mk.injEq] at h
    rw [← h.1]
    exact hs
  | none =>
    obtain ⟨a, p, r', e', h1, h2, _⟩ := Call_recursive K arg proc hc hs
    rw [h1] at h
    simp only [Except.ok.injEq, Prod.mk.injEq] at h
    rw [← h.1, h2]
    exact hs

end MergeCTE

/-- C16: in the `sendRecursive` state, when the any-ready receive of a `Call`
reports end-of-stream (its message carries no batch), the `Call` returns the
stop status with no batch and no error, and the container is the one the
call started with, the polled registers apart: the countdown and the depth
counter are unchanged. The same holds for a receive made by any later
iteration of the loop, with respect to the state this iteration starts in. -/
theorem MergeCTE.end_of_stream_stops (K : Consts) (arg : MergeCTE.Argument) (proc : Process)
    (msg : RegisterMessage) (alive' : List Nat) (proc' : Process)
    (hctx : proc.Ctx = none) (hs : arg.ctr.status = .sendRecursive)
    (hr : MergeCTE.ReceiveFromAllRegs arg.ctr.alive (MergeCTE.releaseBuf arg proc)
      = .ok (msg, alive', proc'))
    (hb : msg.Batch = none) :
    MergeCTE.Call K arg proc
      = .ok ({ ctr := { arg.ctr with alive := alive' }, buf := none }, proc',
          { Status := .ExecStop, Batch := none }, none) ∧
    ({ arg.ctr with alive := alive' } : MergeCTE.container).curNodeCnt = arg.ctr.curNodeCnt ∧
    ({ arg.ctr with alive := alive' } : MergeCTE.container).recursiveLever
      = arg.ctr.recursiveLever ∧
    ∀ (fuel : Nat) (a : MergeCTE.Argument) (p p1 : Process) (m : RegisterMessage)
      (al : List Nat),
      MergeCTE.ReceiveFromAllRegs a.ctr.alive p = .ok (m, al, p1) → m.Batch = none →
      MergeCTE.recursiveLoop K (fuel + 1) a p
        = .ok ({ a with ctr := { a.ctr with alive := al } }, p1,
            { Status := .ExecStop, Batch := none }, none) := by
  have hloop : ∀ (fuel : Nat) (a : MergeCTE.Argument) (p p1 : Process) (m : RegisterMessage)
      (al : List Nat),
      MergeCTE.ReceiveFromAllRegs a.ctr.alive p = .ok (m, al, p1) → m.Batch = none →
      MergeCTE.recursiveLoop K (fuel + 1) a p
        = .ok ({ a with ctr := { a.ctr with alive := al } }, p1,
            { Status := .ExecStop, Batch := none }, none) := by
    intro fuel a p p1 m al h1 h2
    unfold MergeCTE.recursiveLoop
    simp only [h1, h2]
  refine ⟨?_, rfl, rfl, hloop⟩
  rw [MergeCTE.Call_eq K arg proc hctx]
  simp only [hs]
  rw [hloop _ { arg with buf := none } _ _ _ _ hr hb]
  simp [hs]

/-- Instance of C16: two workers, the countdown at 1, both worker registers
at end-of-stream. -/
theorem MergeCTE.end_of_stream_stops_witness :
    MergeCTE.Call Sample.K (Sample.cteRec 2 1 [1, 2])
        (Sample.cteProc [[], [NormalEndRegisterMessage], []])
      = .ok ({ ctr := { (Sample.cteRec 2 1 [1, 2]).ctr with alive := [] }, buf := none },
          Sample.cteProc [[], [], []], { Status := .ExecStop, Batch := none }, none) :=
  (MergeCTE.end_of_stream_stops Sample.K (Sample.cteRec 2 1 [1, 2])
    (Sample.cteProc [[], [NormalEndRegisterMessage], []]) NormalEndRegisterMessage []
    (Sample.cteProc [[], [], []]) rfl rfl rfl rfl).1

/-- C17: in the `sendInitial` state, a `Call` whose receive on register 0
yields a batch `b` returns `b` itself with the continue status and leaves the
container as it was (state `sendInitial`); a `Call` whose receive yields
end-of-stream returns in that same call the batch made by
`makeRecursiveBatch` (one row, one cell, boundary flag set), takes register 0
off the polled registers, after which no any-ready receive touches register
0, and leaves the operator in `sendRecursive`. A `Call` in `sendRecursive`
never leaves that state, so the marker is synthesized at most once, at the
end of the anchor stream. -/
theorem MergeCTE.anchor_phase (K : Consts) (arg : MergeCTE.Argument) (proc : Process)
    (msg : RegisterMessage) (proc' : Process)
    (hctx : proc.Ctx = none) (hs : arg.ctr.status = .sendInitial) (hnd : arg.ctr.alive.Nodup)
    (hr : ReceiveFromSingleReg (MergeCTE.releaseBuf arg proc) 0 = .ok (msg, proc'))
    (he : msg.Err = none) :
    (∀ b, msg.Batch = some b →
      MergeCTE.Call K arg proc
        = .ok ({ arg with buf := some b }, proc', { Status := .ExecNext, Batch := some b },
            none)) ∧
    (msg.Batch = none →
      MergeCTE.Call K arg proc
        = .ok ({ ctr := { arg.ctr with status := .sendRecursive,
                                       alive := arg.ctr.alive.erase 0 },
                 buf := some MergeCTE.makeRecursiveBatch }, proc',
            { Status := .ExecNext, Batch := some MergeCTE.makeRecursiveBatch }, none)) ∧
    MergeCTE.makeRecursiveBatch.rowCount = 1 ∧ MergeCTE.makeRecursiveBatch.last = true ∧
    MergeCTE.makeRecursiveBatch.Vecs.map (fun v => v.data.length) = [1] ∧
    0 ∉ arg.ctr.alive.erase 0 ∧
    (∀ (p p1 : Process) (m : RegisterMessage) (al : List Nat),
      MergeCTE.ReceiveFromAllRegs (arg.ctr.alive.erase 0) p = .ok (m, al, p1) →
      p1.MergeReceivers[0]? = p.MergeReceivers[0]?) ∧
    (∀ (a a1 : MergeCTE.Argument) (p p1 : Process) (r : CallResult) (e : Option Error),
      a.ctr.status = .sendRecursive → MergeCTE.Call K a p = .ok (a1, p1, r, e) →
      a1.ctr.status = .sendRecursive) := by
  have hz : 0 ∉ arg.ctr.alive.erase 0 := fun h => ((List.Nodup.mem_erase_iff hnd).1 h).1 rfl
  refine ⟨?_, ?_, rfl, rfl, rfl, hz, ?_, ?_⟩
  · intro b hb
    rw [MergeCTE.Call_eq K arg proc hctx]
    simp only [hs, hr, he, hb, MergeCTE.lastTag, MergeCTE.finish]
    simp
  · intro hb
    rw [MergeCTE.Call_eq K arg proc hctx]
    simp only [hs, hr, he, hb, MergeCTE.lastTag, MergeCTE.finish]
    simp [hs]
  · intro p p1 m al h
    exact MergeCTE.recvAll_untouched 0 _ _ _ _ _ _ hz h
  · intro a a1 p p1 r e h1 h2
    exact MergeCTE.Call_status_recursive K a p a1 p1 r e h1 h2

/-- Witness of C17: after `Prepare` on three registers, the anchor register
holds one batch. -/
theorem MergeCTE.anchor_phase_witness :
    MergeCTE.Call Sample.K (Sample.cteInit 2)
        (Sample.cteProc [[⟨some Sample.probeBat, none⟩], [], []])
      = .ok (Sample.cteAnchor, Sample.cteProc [[], [], []],
          { Status := .ExecNext, Batch := some Sample.probeBat }, none) ∧
    MergeCTE.Call Sample.K Sample.cteAnchor (Sample.cteProc [[], [], []])
      = .ok ({ ctr := { (Sample.cteInit 2).ctr with status := .sendRecursive, alive := [1, 2] },
               buf := some MergeCTE.makeRecursiveBatch },
          { Sample.cteProc [[], [], []] with put := [Sample.probeBat] },
          { Status := .ExecNext, Batch := some MergeCTE.makeRecursiveBatch }, none) :=
  ⟨(MergeCTE.anchor_phase Sample.K (Sample.cteInit 2)
      (Sample.cteProc [[⟨some Sample.probeBat, none⟩], [], []]) ⟨some Sample.probeBat, none⟩
      (Sample.cteProc [[], [], []]) rfl rfl (by decide) rfl rfl).1 _ rfl,
   (MergeCTE.anchor_phase Sample.K Sample.cteAnchor (Sample.cteProc [[], [], []])
      NormalEndRegisterMessage
      { Sample.cteProc [[], [], []] with put := [Sample.probeBat] } rfl rfl (by decide) rfl
      rfl).2.1 rfl⟩

/-- C18, the code at a failing input: in the `sendRecursive` state the
any-ready receive returns a message that carries the error `other 7` and no
batch; `Call` returns the stop status and no error. With a batch next to the
error, `Call` forwards the batch and returns no error. -/
theorem MergeCTE.recursive_error_swallowed :
    MergeCTE.ReceiveFromAllRegs (Sample.cteRec 2 2 [1, 2]).ctr.alive
        (Sample.cteProc [[], [⟨none, some (.other 7)⟩], []])
      = .ok (⟨none, some (.other 7)⟩, [1, 2], Sample.cteProc [[], [], []]) ∧
    MergeCTE.Call Sample.K (Sample.cteRec 2 2 [1, 2])
        (Sample.cteProc [[], [⟨none, some (.other 7)⟩], []])
      = .ok (Sample.cteRec 2 2 [1, 2], Sample.cteProc [[], [], []],
          { Status := .ExecStop, Batch := none }, none) ∧
    MergeCTE.Call Sample.K (Sample.cteRec 2 2 [1, 2])
        (Sample.cteProc [[], [⟨some Sample.probeBat, some (.other 7)⟩], []])
      = .ok ({ Sample.cteRec 2 2 [1, 2] with buf := some Sample.probeBat },
          Sample.cteProc [[], [], []],
          { Status := .ExecNext, Batch := some Sample.probeBat }, none) := by
  refine ⟨rfl, rfl, rfl⟩

/-! ### Lemmas on one recursion iteration -/

namespace MergeCTE

theorem inbox_set_of_not_mem (regs : List (List RegisterMessage)) (i : Nat)
    (rest : List RegisterMessage) : ∀ (alive : List Nat), i ∉ alive →
    inbox alive (regs.set i rest) = inbox alive regs := by
  intro alive
  induction alive with
  | nil => intro _; rfl
  | cons a as ih =>
    intro h
    have ha : i ≠ a := fun e => h (e ▸ List.mem_cons_self _ _)
    have has : i ∉ as := fun e => h (List.mem_cons_of_mem _ e)
    have := ih has
    simp only [inbox, List.map_cons, List.flatten_cons] at this ⊢
    rw [this, List.getElem?_set_ne ha]

theorem firstReady_inbox (regs : List (List RegisterMessage)) : ∀ (alive : List Nat)
    (m : RegisterMessage) (tl : List RegisterMessage), alive.Nodup →
    inbox alive regs = m :: tl →
    ∃ i rest, firstReady regs alive = some i ∧ regs[i]? = some (m :: rest) ∧
      inbox alive (regs.set i rest) = tl := by
  intro alive
  induction alive with
  | nil => intro m tl _ h; cases h
  | cons a as ih =>
    intro m tl hnd h
    have hna : a ∉ as := (List.nodup_cons.1 hnd).1
    have hnd' : as.Nodup := (List.nodup_cons.1 hnd).2
    simp only [inbox, List.map_cons, List.flatten_cons] at h
    cases hq : regs[a]? with
    | none =>
      simp only [hq, Option.getD_none, List.nil_append] at h
      obtain ⟨i, rest, h1, h2, h3⟩ := ih m tl hnd' h
      have hia : i ≠ a := by
        intro e; rw [e, hq] at h2; cases h2
      refine ⟨i, rest, ?_, h2, ?_⟩
      · simp only [firstReady, hq]; exact h1
      · simp only [inbox, List.map_cons, List.flatten_cons] at h3 ⊢
        rw [List.getElem?_set_ne hia, hq, h3]
        rfl
    | some q =>
      cases q with
      | nil =>
        simp only [hq, Option.getD_some, List.nil_append] at h
        obtain ⟨i, rest, h1, h2, h3⟩ := ih m tl hnd' h
        have hia : i ≠ a := by
          intro e; rw [e, hq] at h2; cases h2
        refine ⟨i, rest, ?_, h2, ?_⟩
        · simp only [firstReady, hq]; exact h1
        · simp only [inbox, List.map_cons, List.flatten_cons] at h3 ⊢
          rw [List.getElem?_set_ne hia, hq, h3]
          rfl
      | cons m' rest =>
        simp only [hq, Option.getD_some, List.cons_append, List.cons.injEq] at h
        obtain ⟨hm, htl⟩ := h
        subst hm
        refine ⟨a, rest, ?_, hq, ?_⟩
        · simp only [firstReady, hq]
        · have h3 := inbox_set_of_not_mem regs a rest as hna
          simp only [inbox, List.map_cons, List.flatten_cons] at h3 ⊢
          have hlt : a < regs.length := by
            rcases Nat.lt_or_ge a regs.length with h | h
            · exact h
            · rw [List.getElem?_eq_none h] at hq; cases hq
          rw [h3, List.getElem?_set_self hlt, ← htl]
          rfl

/-- The any-ready receive on an inbox whose first message carries a
non-empty batch and no error. -/
theorem recv_head (alive : List Nat) (proc : Process) (b : Batch) (tl : List RegisterMessage)
    (hnd : alive.Nodup) (hin : inbox alive proc.MergeReceivers = ⟨some b, none⟩ :: tl)
    (hne : b.IsEmpty = false) :
    ∃ proc', ReceiveFromAllRegs alive proc = .ok (⟨some b, none⟩, alive, proc') ∧
      inbox alive proc'.MergeReceivers = tl ∧ proc'.put = proc.put ∧ proc'.Ctx = proc.Ctx ∧
      pending proc' + 1 = pending proc := by
  obtain ⟨i, rest, h1, h2, h3⟩ := firstReady_inbox proc.MergeReceivers alive _ tl hnd hin
  refine ⟨{ proc with MergeReceivers := proc.MergeReceivers.set i rest }, ?_, h3, rfl, rfl,
    sum_length_set h2⟩
  unfold ReceiveFromAllRegs recvAll
  simp only [h1, h2, hne]
  rfl

theorem loop_markers (K : Consts) (x : Batch) (tl : List RegisterMessage)
    (hx : x.IsEmpty = false) :
    ∀ (ms : List Batch) (fuel : Nat) (arg : Argument) (proc : Process),
    arg.ctr.alive.Nodup →
    inbox arg.ctr.alive proc.MergeReceivers = Join.dataMsgs (ms ++ [x]) ++ tl →
    (∀ b ∈ ms, b.last = true ∧ b.IsEmpty = false) →
    (ms.length : Int) + 1 ≤ arg.ctr.curNodeCnt → arg.ctr.curNodeCnt < 2147483648 →
    (x.last = true → arg.ctr.curNodeCnt = (ms.length : Int) + 1) →
    pending proc < fuel →
    ∃ arg' proc' r err, recursiveLoop K fuel arg proc = .ok (arg', proc', r, err) ∧
      LoopRun K ms x tl arg proc arg' proc' r err := by
  intro ms
  induction ms with
  | nil =>
    intro fuel arg proc hnd hin _ hc hc2 hxl hf
    obtain ⟨f, rfl⟩ : ∃ f, fuel = f + 1 := ⟨fuel - 1, by omega⟩
    simp only [List.nil_append, Join.dataMsgs, List.map_cons, List.map_nil,
      List.singleton_append] at hin
    obtain ⟨proc1, h1, h2, h3, h4, h5⟩ := recv_head arg.ctr.alive proc x tl hnd hin hx
    unfold recursiveLoop
    simp only [h1]
    cases hl : x.last with
    | false =>
      simp only [Bool.not_false, if_true, finish]
      refine ⟨_, _, _, _, rfl, rfl, rfl, rfl, rfl, ?_, h2, h4, ?_, ?_⟩
      · simp [h3]
      · intro _
        refine ⟨?_, rfl, rfl, rfl⟩
        simp
      · intro h; rw [hl] at h; cases h
    | true =>
      have hbl : ({ x with last := true } : Batch) = x := setLast_eq hl
      have hcur := hxl hl
      have hz : int32 (arg.ctr.curNodeCnt - 1) = 0 := by
        rw [hcur]; simp [int32]
      simp only [Bool.not_true, hbl, hz, if_true, Bool.false_eq_true, if_false]
      by_cases hmax : K.moDefaultRecursionMax < arg.ctr.recursiveLever + 1
      · simp only [hmax, if_true]
        refine ⟨_, _, _, _, rfl, rfl, rfl, rfl, rfl, ?_, h2, h4, ?_, ?_⟩
        · simp [h3]
        · intro h; rw [hl] at h; cases h
        · intro _
          exact ⟨rfl, rfl, Or.inl ⟨hmax, rfl, rfl⟩⟩
      · simp only [hmax, if_false, finish]
        refine ⟨_, _, _, _, rfl, rfl, rfl, rfl, rfl, ?_, h2, h4, ?_, ?_⟩
        · simp [h3]
        · intro h; rw [hl] at h; cases h
        · intro _
          exact ⟨rfl, rfl, Or.inr ⟨by omega, rfl, rfl⟩⟩
  | cons m ms ih =>
    intro fuel arg proc hnd hin hms hc hc2 hxl hf
    obtain ⟨f, rfl⟩ : ∃ f, fuel = f + 1 := ⟨fuel - 1, by omega⟩
    have hm := hms m (List.mem_cons_self _ _)
    simp only [List.cons_append, Join.dataMsgs, List.map_cons] at hin
    obtain ⟨proc1, h1, h2, h3, h4, h5⟩ :=
      recv_head arg.ctr.alive proc m _ hnd hin hm.2
    have hbl : ({ m with last := true } : Batch) = m := setLast_eq hm.1
    have hlen : ((m :: ms).length : Int) = (ms.length : Int) + 1 := by
      simp
    rw [hlen] at hc
    have hi : int32 (arg.ctr.curNodeCnt - 1) = arg.ctr.curNodeCnt - 1 := by
      unfold int32; omega
    have hz : ¬ int32 (arg.ctr.curNodeCnt - 1) = 0 := by
      rw [hi]; omega
    unfold recursiveLoop
    simp only [h1, hm.1, Bool.not_true, hbl, hz, if_false, Bool.false_eq_true]
    obtain ⟨arg', proc', r, err, e0, e1, e2, e3, e4, e5, e6, e7, e8, e9⟩ := ih f
      { ctr := { arg.ctr with alive := arg.ctr.alive,
                              curNodeCnt := int32 (arg.ctr.curNodeCnt - 1) }, buf := some m }
      (proc1.PutBatch m) hnd (by simpa [Join.dataMsgs, Process.PutBatch] using h2)
      (fun b hb => hms b (List.mem_cons_of_mem _ hb)) (by simp only [hi]; omega)
      (by simp only [hi]; omega)
      (fun h => by
        have := hxl h
        simp only [hi]
        rw [hlen] at this
        omega)
      (by rw [pending_PutBatch]; omega)
    refine ⟨arg', proc', r, err, e0, e1, e2, e3, e4, ?_, e6, ?_, ?_, ?_⟩
    · rw [e5]; simp [Process.PutBatch, h3]
    · rw [e7]; exact h4
    · intro h
      obtain ⟨a, b, c, d⟩ := e8 h
      refine ⟨?_, b, c, d⟩
      rw [a]
      simp only [hi, hlen]
      omega
    · intro h
      exact e9 h

theorem markers_split : ∀ (body : List Batch),
    (∀ b ∈ body, b.last = true) ∨
    ∃ ms d rest, body = ms ++ d :: rest ∧ (∀ b ∈ ms, b.last = true) ∧ d.last = false := by
  intro body
  induction body with
  | nil => exact Or.inl (fun b hb => by cases hb)
  | cons a as ih =>
    cases ha : a.last with
    | false => exact Or.inr ⟨[], a, as, rfl, (fun b hb => by cases hb), ha⟩
    | true =>
      rcases ih with h | ⟨ms, d, rest, h1, h2, h3⟩
      · left
        intro b hb
        rcases List.mem_cons.1 hb with h' | h'
        · rw [h']; exact ha
        · exact h b h'
      · right
        refine ⟨a :: ms, d, rest, by rw [h1]; rfl, ?_, h3⟩
        intro b hb
        rcases List.mem_cons.1 hb with h' | h'
        · rw [h']; exact ha
        · exact h2 b h'

theorem releaseBuf_put (arg : Argument) (proc : Process) :
    (releaseBuf arg proc).put = proc.put ++ arg.buf.toList := by
  unfold releaseBuf
  cases arg.buf <;> simp [Process.PutBatch]

theorem releaseBuf_regs (arg : Argument) (proc : Process) :
    (releaseBuf arg proc).MergeReceivers = proc.MergeReceivers := by
  unfold releaseBuf
  cases arg.buf <;> rfl

theorem releaseBuf_Ctx (arg : Argument) (proc : Process) :
    (releaseBuf arg proc).Ctx = proc.Ctx := by
  unfold releaseBuf
  cases arg.buf <;> rfl

theorem run_general (K : Consts) (mN : Batch) (tl : List RegisterMessage)
    (hmN : mN.last = true) (hmN' : mN.IsEmpty = false) :
    ∀ (n : Nat) (body : List Batch), body.length ≤ n →
    ∀ (fuel : Nat) (arg : Argument) (proc : Process), body.length < fuel →
    arg.ctr.status = .sendRecursive → arg.ctr.alive.Nodup → proc.Ctx = none →
    inbox arg.ctr.alive proc.MergeReceivers = Join.dataMsgs (body ++ [mN]) ++ tl →
    (∀ b ∈ body, b.IsEmpty = false) →
    ((body.filter (fun b => b.last)).length : Int) + 1 = arg.ctr.curNodeCnt →
    arg.ctr.curNodeCnt < 2147483648 →
    arg.ctr.recursiveLever + 1 ≤ K.moDefaultRecursionMax →
    ∃ arg' proc', runIteration K fuel arg proc
        = .ok (body.filter (fun b => !b.last), arg', proc',
            { Status := .ExecNext, Batch := some mN }, none) ∧
      arg'.ctr.alive = arg.ctr.alive ∧ arg'.ctr.nodeCnt = arg.ctr.nodeCnt ∧
      arg'.ctr.status = .sendRecursive ∧ arg'.buf = some mN ∧
      proc'.put = proc.put ++ arg.buf.toList ++ body ∧
      inbox arg.ctr.alive proc'.MergeReceivers = tl ∧ proc'.Ctx = none ∧
      arg'.ctr.curNodeCnt = arg.ctr.nodeCnt ∧
      arg'.ctr.recursiveLever = arg.ctr.recursiveLever + 1 := by
  intro n
  induction n with
  | zero =>
    intro body hb fuel arg proc hf hs hnd hctx hin hne hcnt hc2 hlev
    have hnil : body = [] := List.length_eq_zero.1 (by omega)
    subst hnil
    obtain ⟨f, rfl⟩ : ∃ f, fuel = f + 1 := ⟨fuel - 1, by omega⟩
    obtain ⟨arg', proc', r, err, e0, e1, e2, e3, e4, e5, e6, e7, e8, e9⟩ :=
      loop_markers K mN tl hmN' [] (pending (releaseBuf arg proc) + 1) { arg with buf := none }
        (releaseBuf arg proc) hnd (by rw [releaseBuf_regs]; exact hin)
        (fun b hb => by cases hb) (by simp only [List.length_nil]; simp at hcnt; omega) hc2
        (fun _ => by simp at hcnt ⊢; omega) (by omega)
    obtain ⟨a, b, c⟩ := e9 hmN
    rcases c with ⟨c, _, _⟩ | ⟨_, c1, c2⟩
    · simp only at c; omega
    · subst c1 c2
      refine ⟨arg', proc', ?_, e1, e2, ?_, e4, ?_, ?_, ?_, a, b⟩
      · simp only [runIteration, Call_eq K arg proc hctx, hs, e0, hmN, if_true]
        try rfl
      · rw [e3]; exact hs
      · rw [e5, releaseBuf_put]
      · exact e6
      · rw [e7, releaseBuf_Ctx]; exact hctx
  | succ n ih =>
    intro body hb fuel arg proc hf hs hnd hctx hin hne hcnt hc2 hlev
    obtain ⟨f, rfl⟩ : ∃ f, fuel = f + 1 := ⟨fuel - 1, by omega⟩
    rcases markers_split body with hall | ⟨ms, d, rest, hbody, hms, hd⟩
    · have hfl : body.filter (fun b => b.last) = body := List.filter_eq_self.2 hall
      have hfn : body.filter (fun b => !b.last) = [] :=
        List.filter_eq_nil_iff.2 (fun b hb => by simp [hall b hb])
      rw [hfl] at hcnt
      obtain ⟨arg', proc', r, err, e0, e1, e2, e3, e4, e5, e6, e7, e8, e9⟩ :=
        loop_markers K mN tl hmN' body (pending (releaseBuf arg proc) + 1)
          { arg with buf := none } (releaseBuf arg proc) hnd
          (by rw [releaseBuf_regs]; exact hin)
          (fun b hb => ⟨hall b hb, hne b hb⟩) (by simp only; omega) hc2
          (fun _ => by simp only; omega) (by omega)
      obtain ⟨a, b, c⟩ := e9 hmN
      rcases c with ⟨c, _, _⟩ | ⟨_, c1, c2⟩
      · simp only at c; omega
      · subst c1 c2
        refine ⟨arg', proc', ?_, e1, e2, ?_, e4, ?_, ?_, ?_, a, b⟩
        · simp only [runIteration, Call_eq K arg proc hctx, hs, e0, hmN, if_true, hfn]
        · rw [e3]; exact hs
        · rw [e5, releaseBuf_put]
        · exact e6
        · rw [e7, releaseBuf_Ctx]; exact hctx
    · subst hbody
      have hdne : d.IsEmpty = false := hne d (by simp)
      have hfl : (ms ++ d :: rest).filter (fun b => b.last)
          = ms ++ rest.filter (fun b => b.last) := by
        rw [List.filter_append, List.filter_eq_self.2 hms, List.filter_cons]
        simp [hd]
      have hfn : (ms ++ d :: rest).filter (fun b => !b.last)
          = d :: rest.filter (fun b => !b.last) := by
        rw [List.filter_append,
          List.filter_eq_nil_iff.2 (fun b hb => by simp [hms b hb]), List.filter_cons]
        simp [hd]
      rw [hfl] at hcnt
      simp only [List.length_append, Nat.cast_add] at hcnt
      obtain ⟨arg1, proc1, r, err, e0, e1, e2, e3, e4, e5, e6, e7, e8, e9⟩ :=
        loop_markers K d (Join.dataMsgs (rest ++ [mN]) ++ tl) hdne ms
          (pending (releaseBuf arg proc) + 1) { arg with buf := none } (releaseBuf arg proc) hnd
          (by rw [releaseBuf_regs, hin]; simp [Join.dataMsgs])
          (fun b hb => ⟨hms b hb, hne b (by simp [hb])⟩) (by simp only; omega) hc2
          (fun h => by rw [hd] at h; cases h) (by omega)
      obtain ⟨a, b, c1, c2⟩ := e8 hd
      subst c1 c2
      simp only [List.length_append, List.length_cons] at hb hf
      obtain ⟨arg', proc', g0, g1, g2, g3, g4, g5, g6, g7, g8, g9⟩ := ih rest (by omega) f arg1
        proc1 (by omega) (by rw [e3]; exact hs) (by rw [e1]; exact hnd)
        (by rw [e7, releaseBuf_Ctx]; exact hctx) (by rw [e1]; exact e6)
        (fun b hb => hne b (by simp [hb])) (by rw [a]; simp only; omega)
        (by rw [a]; simp only; omega) (by rw [b]; exact hlev)
      refine ⟨arg', proc', ?_, g1.trans e1, g2.trans e2, g3, g4, ?_, ?_, g7, ?_, ?_⟩
      · simp only [runIteration, Call_eq K arg proc hctx, hs, e0, hd, Bool.false_eq_true,
          if_false, g0, hfn]
      · rw [g5, e5, e4, releaseBuf_put]
        simp
      · rw [← e1]; exact g6
      · rw [g8, e2]
      · rw [g9, b]

end MergeCTE

/-! ## Contracts of the merge-CTE operator: successive `Call`s -/

/-- C13 (as amended): for every worker count `N ≥ 1`, starting in the
`sendRecursive` state with the countdown equal to `N` and the depth counter
below `moDefaultRecursionMax`, let the polled registers deliver the non-empty
batches `body` followed by the boundary marker `mN`, where `body` holds
exactly `N - 1` boundary markers and any number of ordinary batches. Then the
successive `Call`s forward the ordinary batches of `body`, each unchanged and
in order, the last `Call` returns `mN` (flagged as boundary) with the continue
status, the depth counter is one more, the countdown is `N` again, and every
batch of `body`, so each of the first `N - 1` markers, has been released while
`mN` is held. -/
theorem MergeCTE.iteration_barrier (K : Consts) (arg : MergeCTE.Argument) (proc : Process)
    (N : Int) (body : List Batch) (mN : Batch) (tl : List RegisterMessage)
    (hN : N < 2147483648)
    (hs : arg.ctr.status = .sendRecursive) (hn : arg.ctr.nodeCnt = N)
    (hc : arg.ctr.curNodeCnt = N) (hnd : arg.ctr.alive.Nodup) (hctx : proc.Ctx = none)
    (hin : MergeCTE.inbox arg.ctr.alive proc.MergeReceivers
      = Join.dataMsgs (body ++ [mN]) ++ tl)
    (hne : ∀ b ∈ body ++ [mN], b.IsEmpty = false)
    (hmark : ((body.filter (fun b => b.last)).length : Int) + 1 = N)
    (hlast : mN.last = true)
    (hlev : arg.ctr.recursiveLever + 1 ≤ K.moDefaultRecursionMax) :
    ∃ arg' proc',
      MergeCTE.runIteration K (body.length + 1) arg proc
        = .ok (body.filter (fun b => !b.last), arg', proc',
            { Status := .ExecNext, Batch := some mN }, none) ∧
      arg'.ctr.recursiveLever = arg.ctr.recursiveLever + 1 ∧
      arg'.ctr.curNodeCnt = N ∧ arg'.ctr.nodeCnt = N ∧
      arg'.ctr.status = .sendRecursive ∧ arg'.buf = some mN ∧
      proc'.put = proc.put ++ arg.buf.toList ++ body ∧
      MergeCTE.inbox arg'.ctr.alive proc'.MergeReceivers = tl := by
  obtain ⟨arg', proc', g0, g1, g2, g3, g4, g5, g6, _, g8, g9⟩ :=
    MergeCTE.run_general K mN tl hlast (hne mN (by simp)) body.length body (le_refl _)
      (body.length + 1) arg proc (by omega) hs hnd hctx hin (fun b hb => hne b (by simp [hb]))
      (by rw [hc]; exact hmark) (by rw [hc]; exact hN) hlev
  refine ⟨arg', proc', g0, g9, ?_, ?_, g3, g4, g5, ?_⟩
  · rw [g8, hn]
  · rw [g2, hn]
  · rw [g1]; exact g6

/-- Witness of C13: three workers; the worker registers deliver an ordinary
batch and a marker, a marker, and an ordinary batch and a marker. -/
theorem MergeCTE.iteration_barrier_witness :
    ∃ arg' proc',
      MergeCTE.runIteration Sample.K 5 (Sample.cteRec 3 3 [1, 2, 3])
          (Sample.cteProc [[], [⟨some Sample.probeBat, none⟩, ⟨some Sample.marker, none⟩],
            [⟨some Sample.marker, none⟩],
            [⟨some Sample.buildBat, none⟩, ⟨some Sample.marker, none⟩]])
        = .ok ([Sample.probeBat, Sample.buildBat], arg', proc',
            { Status := .ExecNext, Batch := some Sample.marker }, none) ∧
      arg'.ctr.recursiveLever = 0 + 1 ∧
      arg'.ctr.curNodeCnt = 3 ∧ arg'.ctr.nodeCnt = 3 ∧
      arg'.ctr.status = .sendRecursive ∧ arg'.buf = some Sample.marker ∧
      proc'.put = [] ++ [] ++ [Sample.probeBat, Sample.marker, Sample.marker, Sample.buildBat] ∧
      MergeCTE.inbox arg'.ctr.alive proc'.MergeReceivers = [] :=
  MergeCTE.iteration_barrier Sample.K (Sample.cteRec 3 3 [1, 2, 3])
    (Sample.cteProc [[], [⟨some Sample.probeBat, none⟩, ⟨some Sample.marker, none⟩],
      [⟨some Sample.marker, none⟩],
      [⟨some Sample.buildBat, none⟩, ⟨some Sample.marker, none⟩]])
    3 [Sample.probeBat, Sample.marker, Sample.marker, Sample.buildBat] Sample.marker []
    (by decide) rfl rfl rfl (by decide) rfl rfl (by decide) (by decide) rfl (by decide)

/-- Counterexample to C13 as stated: three workers, the depth counter at the
maximum (here 0). After the three markers the depth counter is
one more and the countdown is 3 again, but the third marker is not returned
downstream: the call returns the stop status, no batch and the recursion
error. -/
theorem MergeCTE.iteration_barrier_at_limit :
    MergeCTE.runIteration Sample.K0 1 (Sample.cteRec 3 3 [1, 2, 3])
        (Sample.cteProc [[], [⟨some Sample.marker, none⟩], [⟨some Sample.marker, none⟩],
          [⟨some Sample.marker, none⟩]])
      = .ok ([], { ctr := { (Sample.cteRec 3 3 [1, 2, 3]).ctr with recursiveLever := 1 },
                   buf := some Sample.marker },
          { Sample.cteProc [[], [], [], []] with put := [Sample.marker, Sample.marker] },
          { Status := .ExecStop, Batch := none }, some .checkRecursiveLevel) := by
  rfl

namespace MergeCTE

theorem lastTag_ctr (arg : Argument) (proc : Process) (arg' : Argument) (proc' : Process)
    (r : CallResult) (err : Option Error) (h : lastTag arg proc = .ok (arg', proc', r, err)) :
    arg'.ctr.nodeCnt = arg.ctr.nodeCnt ∧ arg'.ctr.curNodeCnt = arg.ctr.curNodeCnt ∧
    arg'.ctr.recursiveLever = arg.ctr.recursiveLever := by
  unfold lastTag finish at h
  split at h
  · simp only [Except.ok.injEq, Prod.mk.injEq] at h
    obtain ⟨h, _⟩ := h
    subst h
    exact ⟨rfl, rfl, rfl⟩
  · simp only [Except.ok.injEq, Prod.mk.injEq] at h
    obtain ⟨h, _⟩ := h
    subst h
    exact ⟨rfl, rfl, rfl⟩

theorem Call_counters (K : Consts) (arg : Argument) (proc : Process) (arg' : Argument)
    (proc' : Process) (r : CallResult) (err : Option Error)
    (h : Call K arg proc = .ok (arg', proc', r, err)) : CounterStep K arg arg' err := by
  cases hc : proc.Ctx with
  | some e =>
    rw [Call_cancel K arg proc e hc] at h
    simp only [Except.ok.injEq, Prod.mk.injEq] at h
    obtain ⟨h, _⟩ := h
    subst h
    exact ⟨rfl, Or.inl rfl, fun a b _ => ⟨a, b⟩⟩
  | none =>
    rw [Call_eq K arg proc hc] at h
    cases hs : arg.ctr.status with
    | sendInitial =>
      simp only [hs] at h
      cases hr : ReceiveFromSingleReg (releaseBuf arg proc) 0 with
      | error p => simp [hr] at h
      | ok v =>
        obtain ⟨msg, p1⟩ := v
        simp only [hr] at h
        cases he : msg.Err with
        | some e =>
          simp only [he, Except.ok.injEq, Prod.mk.injEq] at h
          obtain ⟨h, _⟩ := h
          subst h
          exact ⟨rfl, Or.inl rfl, fun a b _ => ⟨a, b⟩⟩
        | none =>
          simp only [he] at h
          cases hb : msg.Batch with
          | some b =>
            simp only [hb] at h
            obtain ⟨a, b, c⟩ := lastTag_ctr _ _ _ _ _ _ h
            exact ⟨a, Or.inl c, fun x y _ => by rw [b]; exact ⟨x, y⟩⟩
          | none =>
            simp only [hb] at h
            obtain ⟨a, b, c⟩ := lastTag_ctr _ _ _ _ _ _ h
            exact ⟨a, Or.inl c, fun x y _ => by rw [b]; exact ⟨x, y⟩⟩
    | sendLastTag =>
      simp only [hs] at h
      obtain ⟨a, b, c⟩ := lastTag_ctr _ _ _ _ _ _ h
      exact ⟨a, Or.inl c, fun x y _ => by rw [b]; exact ⟨x, y⟩⟩
    | sendRecursive =>
      simp only [hs] at h
      obtain ⟨a1, p1, r1, e1, g0, _, g2, _, _, g5, g6, _⟩ :=
        recursiveLoop_spec K (pending (releaseBuf arg proc) + 1) { arg with buf := none }
          (releaseBuf arg proc) (by omega)
      rw [g0] at h
      simp only [Except.ok.injEq, Prod.mk.injEq] at h
      obtain ⟨h1, _, _, h4⟩ := h
      subst h1 h4
      refine ⟨g2, ?_, g6⟩
      rcases g5 with ⟨a, _, _⟩ | ⟨a, _, b, _, _, c⟩
      · exact Or.inl a
      · right
        refine ⟨a, ?_⟩
        rcases c with ⟨c1, c2, _⟩ | ⟨c1, c2, _⟩
        · exact Or.inl ⟨c1, c2⟩
        · exact Or.inr ⟨c1, c2⟩

theorem Reachable_inv (K : Consts) (h0 : 0 ≤ K.moDefaultRecursionMax) (arg : Argument)
    (h : Reachable K arg) :
    1 ≤ arg.ctr.curNodeCnt ∧ arg.ctr.curNodeCnt ≤ arg.ctr.nodeCnt ∧
    arg.ctr.nodeCnt < 2147483648 ∧ 0 ≤ arg.ctr.recursiveLever ∧
    arg.ctr.recursiveLever ≤ K.moDefaultRecursionMax := by
  induction h with
  | prepare proc arg h1 h2 =>
    simp only [Prepare, int32]
    omega
  | call arg arg' proc proc' r _ hc ih =>
    obtain ⟨a, b, c⟩ := Call_counters K arg proc arg' proc' r none hc
    obtain ⟨i1, i2, i3, i4, i5⟩ := ih
    obtain ⟨c1, c2⟩ := c i1 i2 i3
    refine ⟨c1, by rw [a]; exact c2, by rw [a]; exact i3, ?_, ?_⟩
    · rcases b with b | ⟨b, _⟩ <;> omega
    · rcases b with b | ⟨b, b' | b'⟩
      · omega
      · cases b'.2
      · exact b'.1

end MergeCTE

/-- C15 (as amended): in every state reachable from `Prepare` (at least one
worker register, fewer than `2^31` registers, `moDefaultRecursionMax ≥ 0`)
by `Call`s that returned no error, on any register inputs, the countdown
satisfies `1 ≤ curNodeCnt ≤ nodeCnt` and the depth counter lies between `0`
and `moDefaultRecursionMax`; and for any further `Call`, whatever it
returns, the depth counter does not decrease, the countdown stays in
`1 .. nodeCnt`, and the depth counter is at most `moDefaultRecursionMax + 1`,
exceeding the maximum only when this `Call` returns the recursion error. -/
theorem MergeCTE.counter_invariant (K : Consts) (arg : MergeCTE.Argument)
    (h0 : 0 ≤ K.moDefaultRecursionMax) (h : MergeCTE.Reachable K arg) :
    (1 ≤ arg.ctr.curNodeCnt ∧ arg.ctr.curNodeCnt ≤ arg.ctr.nodeCnt) ∧
    (0 ≤ arg.ctr.recursiveLever ∧ arg.ctr.recursiveLever ≤ K.moDefaultRecursionMax) ∧
    ∀ (proc : Process) (arg' : MergeCTE.Argument) (proc' : Process) (r : CallResult)
      (err : Option Error), MergeCTE.Call K arg proc = .ok (arg', proc', r, err) →
      arg.ctr.recursiveLever ≤ arg'.ctr.recursiveLever ∧
      arg'.ctr.recursiveLever ≤ K.moDefaultRecursionMax + 1 ∧
      (K.moDefaultRecursionMax < arg'.ctr.recursiveLever → err = some .checkRecursiveLevel) ∧
      1 ≤ arg'.ctr.curNodeCnt ∧ arg'.ctr.curNodeCnt ≤ arg'.ctr.nodeCnt := by
  obtain ⟨i1, i2, i3, i4, i5⟩ := MergeCTE.Reachable_inv K h0 arg h
  refine ⟨⟨i1, i2⟩, ⟨i4, i5⟩, ?_⟩
  intro proc arg' proc' r err hc
  obtain ⟨a, b, c⟩ := MergeCTE.Call_counters K arg proc arg' proc' r err hc
  obtain ⟨c1, c2⟩ := c i1 i2 i3
  refine ⟨?_, ?_, ?_, c1, by rw [a]; exact c2⟩
  · rcases b with b | ⟨b, _⟩ <;> omega
  · rcases b with b | ⟨b, _⟩ <;> omega
  · intro hlt
    rcases b with b | ⟨b, b' | b'⟩
    · omega
    · exact b'.2
    · omega

/-- Witness of C15: the state after `Prepare` on three registers and one
`Call` that forwards an anchor batch. -/
theorem MergeCTE.counter_invariant_witness :
    (1 ≤ Sample.cteAnchor.ctr.curNodeCnt ∧
      Sample.cteAnchor.ctr.curNodeCnt ≤ Sample.cteAnchor.ctr.nodeCnt) ∧
    (0 ≤ Sample.cteAnchor.ctr.recursiveLever ∧
      Sample.cteAnchor.ctr.recursiveLever ≤ Sample.K.moDefaultRecursionMax) :=
  ⟨(MergeCTE.counter_invariant Sample.K Sample.cteAnchor (by decide)
      (MergeCTE.Reachable.call (Sample.cteInit 2) Sample.cteAnchor
        (Sample.cteProc [[⟨some Sample.probeBat, none⟩], [], []]) (Sample.cteProc [[], [], []])
        { Status := .ExecNext, Batch := some Sample.probeBat }
        (MergeCTE.Reachable.prepare _ _ (by decide) (by decide)) rfl)).1,
   (MergeCTE.counter_invariant Sample.K Sample.cteAnchor (by decide)
      (MergeCTE.Reachable.call (Sample.cteInit 2) Sample.cteAnchor
        (Sample.cteProc [[⟨some Sample.probeBat, none⟩], [], []]) (Sample.cteProc [[], [], []])
        { Status := .ExecNext, Batch := some Sample.probeBat }
        (MergeCTE.Reachable.prepare _ _ (by decide) (by decide)) rfl)).2.1⟩

/-- Counterexample to C15 as stated: one worker, recursion maximum 0. After `Prepare`, the first `Call` returns the synthesized marker,
the second receives the worker's marker and returns the recursion error; the
state it leaves has the depth counter at 1, above the maximum. -/
theorem MergeCTE.depth_exceeds_maximum :
    MergeCTE.Call Sample.K0 (Sample.cteInit 1) (Sample.cteProc [[], [⟨some Sample.marker, none⟩]])
      = .ok ({ ctr := { (Sample.cteInit 1).ctr with status := .sendRecursive, alive := [1] },
               buf := some MergeCTE.makeRecursiveBatch },
          Sample.cteProc [[], [⟨some Sample.marker, none⟩]],
          { Status := .ExecNext, Batch := some MergeCTE.makeRecursiveBatch }, none) ∧
    MergeCTE.Call Sample.K0
        { ctr := { (Sample.cteInit 1).ctr with status := .sendRecursive, alive := [1] },
          buf := some MergeCTE.makeRecursiveBatch }
        (Sample.cteProc [[], [⟨some Sample.marker, none⟩]])
      = .ok ({ ctr := { (Sample.cteInit 1).ctr with status := .sendRecursive, alive := [1],
                                                    recursiveLever := 1 },
               buf := some Sample.marker },
          { Sample.cteProc [[], []] with put := [MergeCTE.makeRecursiveBatch] },
          { Status := .ExecStop, Batch := none }, some .checkRecursiveLevel) ∧
    Sample.K0.moDefaultRecursionMax
      < ({ (Sample.cteInit 1).ctr with status := .sendRecursive, alive := [1],
                                       recursiveLever := 1 } : MergeCTE.container).recursiveLever := by
  refine ⟨rfl, rfl, by decide⟩

namespace MergeCTE

theorem recvSingle_count (proc : Process) (idx : Nat) (msg : RegisterMessage) (proc' : Process)
    (h : ReceiveFromSingleReg proc idx = .ok (msg, proc')) :
    proc'.put = proc.put ∧
    ∀ x, msg.Batch.toList.count x + (pendingBatches proc').count x
      = (pendingBatches proc).count x := by
  unfold ReceiveFromSingleReg at h
  cases hq : proc.MergeReceivers[idx]? with
  | none => simp [hq] at h
  | some q =>
    cases q with
    | nil =>
      simp only [hq, Except.ok.injEq, Prod.mk.injEq] at h
      obtain ⟨h1, h2⟩ := h
      subst h1 h2
      exact ⟨rfl, fun x => by simp [NormalEndRegisterMessage]⟩
    | cons m rest =>
      simp only [hq, Except.ok.injEq, Prod.mk.injEq] at h
      obtain ⟨h1, h2⟩ := h
      subst h1 h2
      refine ⟨rfl, fun x => ?_⟩
      have := count_pending_set x hq
      simp only [pendingBatches]
      omega

theorem known_count (arg : Argument) (proc : Process) (x : Batch) :
    (known arg proc).count x
      = proc.put.count x + arg.buf.toList.count x + (pendingBatches proc).count x
        + (if arg.ctr.status = .sendRecursive then 0 else [makeRecursiveBatch].count x) := by
  unfold known
  split <;> (simp only [List.count_append, List.append_nil]; try omega)

/-- One `Call` keeps the releases apart: no batch is released twice, the
batch returned is not released, and when the call returns the continue
status and no error the batches the operator has to do with are still
pairwise distinct. -/
theorem Call_release (K : Consts) (arg : Argument) (proc : Process) (arg' : Argument)
    (proc' : Process) (r : CallResult) (err : Option Error)
    (hJ : ∀ x, (known arg proc).count x ≤ 1)
    (h : Call K arg proc = .ok (arg', proc', r, err)) :
    (∀ x, proc'.put.count x ≤ 1) ∧ (∀ b, r.Batch = some b → proc'.put.count b = 0) ∧
    (r.Status = .ExecNext → err = none → ∀ x, (known arg' proc').count x ≤ 1) := by
  simp only [known_count] at hJ ⊢
  cases hc : proc.Ctx with
  | some e =>
    rw [Call_cancel K arg proc e hc] at h
    simp only [Except.ok.injEq, Prod.mk.injEq] at h
    obtain ⟨h1, h2, h3, h4⟩ := h
    subst h1 h2 h3 h4
    refine ⟨fun x => ?_, (fun b hb => by cases hb), (fun hr => by cases hr)⟩
    have := hJ x
    omega
  | none =>
    rw [Call_eq K arg proc hc] at h
    have hput := releaseBuf_put arg proc
    have hpend : pendingBatches (releaseBuf arg proc) = pendingBatches proc := by
      unfold releaseBuf; cases arg.buf <;> rfl
    cases hs : arg.ctr.status with
    | sendInitial =>
      simp only [hs] at h hJ
      simp only [reduceCtorEq, if_false] at hJ
      cases hr : ReceiveFromSingleReg (releaseBuf arg proc) 0 with
      | error p => simp [hr] at h
      | ok v =>
        obtain ⟨msg, p1⟩ := v
        obtain ⟨q1, q2⟩ := recvSingle_count _ _ _ _ hr
        rw [hput] at q1
        rw [hpend] at q2
        simp only [hr] at h
        cases he : msg.Err with
        | some e =>
          simp only [he, Except.ok.injEq, Prod.mk.injEq] at h
          obtain ⟨h1, h2, h3, h4⟩ := h
          subst h1 h2 h3 h4
          refine ⟨fun x => ?_, (fun b hb => by cases hb), (fun hr => by cases hr)⟩
          have := hJ x
          have := q2 x
          simp only [q1, List.count_append]
          omega
        | none =>
          simp only [he] at h
          cases hb : msg.Batch with
          | some b =>
            simp only [hb, lastTag, hs, finish, Except.ok.injEq, Prod.mk.injEq] at h
            simp only [reduceCtorEq, if_false, Except.ok.injEq, Prod.mk.injEq] at h
            obtain ⟨h1, h2, h3, h4⟩ := h
            subst h1 h2 h3 h4
            simp only [hb] at q2
            refine ⟨fun x => ?_, fun b' hb' => ?_, fun _ _ x => ?_⟩
            · have := hJ x
              have := q2 x
              simp only [q1, List.count_append]
              omega
            · simp only [Option.some.injEq] at hb'
              subst hb'
              have := hJ b
              have := q2 b
              simp only [q1, List.count_append, Option.toList_some, List.count_cons_self] at *
              omega
            · have := hJ x
              have := q2 x
              simp only [q1, List.count_append, hs]
              simp only [reduceCtorEq, if_false] at this ⊢
              omega
          | none =>
            simp only [hb, lastTag, finish, if_true, Except.ok.injEq, Prod.mk.injEq] at h
            obtain ⟨h1, h2, h3, h4⟩ := h
            subst h1 h2 h3 h4
            simp only [hb] at q2
            refine ⟨fun x => ?_, fun b' hb' => ?_, fun _ _ x => ?_⟩
            · have := hJ x
              have := q2 x
              simp only [q1, List.count_append]
              omega
            · simp only [Option.some.injEq] at hb'
              subst hb'
              have := hJ makeRecursiveBatch
              have := q2 makeRecursiveBatch
              simp only [q1, List.count_append, reduceCtorEq, if_false,
                List.count_cons_self] at *
              omega
            · have := hJ x
              have := q2 x
              simp only [q1, List.count_append, if_true, Option.toList_some]
              simp only [reduceCtorEq, if_false, Option.toList_none, List.count_nil] at this
              omega
    | sendLastTag =>
      simp only [hs, lastTag, finish, if_true, Except.ok.injEq, Prod.mk.injEq] at h
      simp only [hs] at hJ
      simp only [reduceCtorEq, if_false] at hJ
      obtain ⟨h1, h2, h3, h4⟩ := h
      subst h1 h2 h3 h4
      refine ⟨fun x => ?_, fun b' hb' => ?_, fun _ _ x => ?_⟩
      · have := hJ x
        simp only [hput, List.count_append]
        omega
      · simp only [Option.some.injEq] at hb'
        subst hb'
        have := hJ makeRecursiveBatch
        simp only [hput, List.count_append, reduceCtorEq, if_false, List.count_cons_self] at *
        omega
      · have := hJ x
        simp only [hput, hpend, List.count_append, if_true, Option.toList_some]
        simp only [reduceCtorEq, if_false] at this
        omega
    | sendRecursive =>
      simp only [hs] at h hJ
      obtain ⟨a1, p1, r1, e1, g0, g1, _, _, _, g5, _, g7⟩ :=
        recursiveLoop_spec K (pending (releaseBuf arg proc) + 1) { arg with buf := none }
          (releaseBuf arg proc) (by omega)
      rw [g0] at h
      simp only [Except.ok.injEq, Prod.mk.injEq] at h
      obtain ⟨h1, h2, h3, h4⟩ := h
      subst h1 h2 h3 h4
      rw [hput, hpend] at g7
      simp only [List.count_append] at g7
      simp only [if_true] at hJ
      refine ⟨fun x => ?_, fun b hb => ?_, fun hn he x => ?_⟩
      · have := hJ x
        have := g7 x
        omega
      · have := hJ b
        have := g7 b
        simp only [hb, Option.toList_some, List.count_cons_self] at this
        omega
      · have := hJ x
        have := g7 x
        have hst : a1.ctr.status = .sendRecursive := by rw [g1]; exact hs
        have hbuf : a1.buf = r1.Batch := by
          rcases g5 with ⟨_, _, c | ⟨b, c, d, _⟩⟩ | ⟨_, _, b, c, _, d | d⟩
          · rw [c] at hn; cases hn
          · rw [c, d]
          · rw [d.2.1] at he; cases he
          · rw [d.2.2, c]
        simp only [hst, if_true, hbuf]
        omega

theorem drive_release (K : Consts) : ∀ (n : Nat) (arg : Argument) (proc : Process)
    (outs : List (CallResult × Option Error)) (arg' : Argument) (proc' : Process),
    (∀ x, (known arg proc).count x ≤ 1) →
    drive K n arg proc = .ok (outs, arg', proc') →
    (∀ x, proc'.put.count x ≤ 1) ∧
    ∀ r e b, outs.getLast? = some (r, e) → r.Batch = some b → proc'.put.count b = 0 := by
  intro n
  induction n with
  | zero =>
    intro arg proc outs arg' proc' hJ h
    simp only [drive, Except.ok.injEq, Prod.mk.injEq] at h
    obtain ⟨h1, h2, h3⟩ := h
    subst h1 h2 h3
    refine ⟨fun x => ?_, fun r e b hl => by cases hl⟩
    have := hJ x
    rw [known_count] at this
    omega
  | succ n ih =>
    intro arg proc outs arg' proc' hJ h
    simp only [drive] at h
    cases hc : Call K arg proc with
    | error p => simp [hc] at h
    | ok v =>
      obtain ⟨a1, p1, r1, e1⟩ := v
      obtain ⟨s1, s2, s3⟩ := Call_release K arg proc a1 p1 r1 e1 hJ hc
      simp only [hc] at h
      by_cases hgo : r1.Status = .ExecNext ∧ e1 = none
      · simp only [hgo, and_self, if_true] at h
        cases hd : drive K n a1 p1 with
        | error p => simp [hd] at h
        | ok w =>
          obtain ⟨outs1, a2, p2⟩ := w
          simp only [hd, Except.ok.injEq, Prod.mk.injEq] at h
          obtain ⟨h1, h2, h3⟩ := h
          subst h1 h2 h3
          obtain ⟨t1, t2⟩ := ih a1 p1 outs1 a2 p2 (s3 hgo.1 hgo.2) hd
          refine ⟨t1, fun r e b hl hb => ?_⟩
          cases n with
          | zero =>
            simp only [drive, Except.ok.injEq, Prod.mk.injEq] at hd
            obtain ⟨d1, d2, d3⟩ := hd
            subst d1 d2 d3
            simp only [List.getLast?_singleton, Option.some.injEq, Prod.mk.injEq] at hl
            obtain ⟨l1, _⟩ := hl
            subst l1
            exact s2 b hb
          | succ n =>
            have hne : outs1 ≠ [] := by
              intro hnil
              subst hnil
              simp only [drive] at hd
              repeat' split at hd
              all_goals simp at hd
            obtain ⟨o, os, rfl⟩ := List.exists_cons_of_ne_nil hne
            rw [List.getLast?_cons_cons] at hl
            exact t2 r e b hl hb
      · simp only [hgo, if_false, Except.ok.injEq, Prod.mk.injEq] at h
        obtain ⟨h1, h2, h3⟩ := h
        subst h1 h2 h3
        refine ⟨s1, fun r e b hl hb => ?_⟩
        simp only [List.getLast?_singleton, Option.some.injEq, Prod.mk.injEq] at hl
        obtain ⟨l1, _⟩ := hl
        subst l1
        exact s2 b hb

end MergeCTE

/-- C19: let the batches the operator has to do with (the released ones, the
held one, the pending ones and the marker it synthesizes) be pairwise
distinct. Then after any number of successive `Call`s, made by the driver as
long as the calls return the continue status and no error, on any register
contents, no batch occurs twice in the log of releases (`PutBatch`): each batch
received or synthesized is released at most once; and the batch returned
downstream by the last `Call` made is not in that log: it is not released
before the next `Call` begins. -/
theorem MergeCTE.release_at_most_once (K : Consts) (arg : MergeCTE.Argument) (proc : Process)
    (n : Nat) (outs : List (CallResult × Option Error)) (arg' : MergeCTE.Argument)
    (proc' : Process)
    (hnd : (MergeCTE.known arg proc).Nodup)
    (hd : MergeCTE.drive K n arg proc = .ok (outs, arg', proc')) :
    proc'.put.Nodup ∧
    ∀ r e b, outs.getLast? = some (r, e) → r.Batch = some b → b ∉ proc'.put := by
  obtain ⟨h1, h2⟩ := MergeCTE.drive_release K n arg proc outs arg' proc'
    (fun x => List.nodup_iff_count_le_one.1 hnd x) hd
  refine ⟨List.nodup_iff_count_le_one.2 h1, fun r e b hl hb => ?_⟩
  exact List.count_eq_zero.1 (h2 r e b hl hb)

/-- Witness of C19: one worker; the anchor register delivers one batch, the
worker register one boundary marker; three calls. -/
theorem MergeCTE.release_at_most_once_witness :
    (MergeCTE.known (Sample.cteInit 1)
      (Sample.cteProc [[⟨some Sample.probeBat, none⟩], [⟨some Sample.marker, none⟩]])).Nodup ∧
    MergeCTE.drive Sample.K 3 (Sample.cteInit 1)
        (Sample.cteProc [[⟨some Sample.probeBat, none⟩], [⟨some Sample.marker, none⟩]])
      = .ok ([({ Status := .ExecNext, Batch := some Sample.probeBat }, none),
              ({ Status := .ExecNext, Batch := some MergeCTE.makeRecursiveBatch }, none),
              ({ Status := .ExecNext, Batch := some Sample.marker }, none)],
          { ctr := { (Sample.cteInit 1).ctr with status := .sendRecursive, alive := [1],
                                                 recursiveLever := 1 },
            buf := some Sample.marker },
          { Sample.cteProc [[], []] with
              put := [Sample.probeBat, MergeCTE.makeRecursiveBatch] }) ∧
    [Sample.probeBat, MergeCTE.makeRecursiveBatch].Nodup ∧
    Sample.marker ∉ [Sample.probeBat, MergeCTE.makeRecursiveBatch] :=
  ⟨by decide, rfl,
   (MergeCTE.release_at_most_once Sample.K (Sample.cteInit 1)
      (Sample.cteProc [[⟨some Sample.probeBat, none⟩], [⟨some Sample.marker, none⟩]]) 3 _ _
      { Sample.cteProc [[], []] with put := [Sample.probeBat, MergeCTE.makeRecursiveBatch] }
      (by decide) rfl).1,
   (MergeCTE.release_at_most_once Sample.K (Sample.cteInit 1)
      (Sample.cteProc [[⟨some Sample.probeBat, none⟩], [⟨some Sample.marker, none⟩]]) 3 _ _
      { Sample.cteProc [[], []] with put := [Sample.probeBat, MergeCTE.makeRecursiveBatch] }
      (by decide) rfl).2 _ none _ rfl rfl⟩

/-- Beyond the stop status: two workers; the anchor register is at
end-of-stream and one worker register delivers one boundary marker. The
batches are pairwise distinct. The first `Call` returns the synthesized
marker. The second releases it, receives the worker's marker, releases it
(the countdown is not at zero) and, on the end-of-stream that follows,
returns the stop status while `buf` still holds the released marker. Were a
third `Call` made after that stop, it would release `buf` once more. -/
theorem MergeCTE.marker_released_twice :
    (MergeCTE.known (Sample.cteInit 2)
      (Sample.cteProc [[], [⟨some Sample.marker, none⟩], []])).Nodup ∧
    MergeCTE.Call Sample.K (Sample.cteInit 2)
        (Sample.cteProc [[], [⟨some Sample.marker, none⟩], []])
      = .ok ({ ctr := ⟨[1, 2], 2, 2, .sendRecursive, 0⟩,
               buf := some MergeCTE.makeRecursiveBatch },
          Sample.cteProc [[], [⟨some Sample.marker, none⟩], []],
          { Status := .ExecNext, Batch := some MergeCTE.makeRecursiveBatch }, none) ∧
    MergeCTE.Call Sample.K
        { ctr := ⟨[1, 2], 2, 2, .sendRecursive, 0⟩, buf := some MergeCTE.makeRecursiveBatch }
        (Sample.cteProc [[], [⟨some Sample.marker, none⟩], []])
      = .ok ({ ctr := ⟨[], 2, 1, .sendRecursive, 0⟩, buf := some Sample.marker },
          { Sample.cteProc [[], [], []] with
              put := [MergeCTE.makeRecursiveBatch, Sample.marker] },
          { Status := .ExecStop, Batch := none }, none) ∧
    MergeCTE.Call Sample.K { ctr := ⟨[], 2, 1, .sendRecursive, 0⟩, buf := some Sample.marker }
        { Sample.cteProc [[], [], []] with put := [MergeCTE.makeRecursiveBatch, Sample.marker] }
      = .ok ({ ctr := ⟨[], 2, 1, .sendRecursive, 0⟩, buf := none },
          { Sample.cteProc [[], [], []] with
              put := [MergeCTE.makeRecursiveBatch, Sample.marker, Sample.marker] },
          { Status := .ExecStop, Batch := none }, none) := by
  refine ⟨by decide, rfl, rfl, rfl⟩

/-! ### Lemmas on `GetAccounts` -/

namespace Pubsub

theorem foldl_readBatch (batches : List (List AccountRow)) : ∀ s : Accounts,
    batches.foldl readBatch s = batches.flatten.foldl addRow s := by
  induction batches with
  | nil => intro s; rfl
  | cons b bs ih =>
    intro s
    simp only [List.foldl_cons, List.flatten_cons, List.foldl_append, ih, readBatch]

theorem get_assign_self {κ : Type} [BEq κ] [LawfulBEq κ] (m : PtrMap κ) (k : κ) (p : Nat) :
    (m.assign k p).get k = some p := by
  simp [PtrMap.assign, PtrMap.get, List.lookup]

theorem get_assign_ne {κ : Type} [BEq κ] [LawfulBEq κ] (m : PtrMap κ) {k k' : κ} (p : Nat)
    (h : k' ≠ k) : (m.assign k p).get k' = m.get k' := by
  have : (k' == k) = false := by simpa using h
  simp [PtrMap.assign, PtrMap.get, List.lookup, this]

theorem consistent_addRow (rows : List AccountRow) (s : Accounts) (row : AccountRow)
    (h : Consistent rows s) : Consistent (rows ++ [row]) (addRow s row) := by
  obtain ⟨h1, h2, h3, h4, h5, h6⟩ := h
  have hlen : s.heap.length = rows.length := by rw [h1, List.length_map]
  have hnew : (s.heap ++ [infoOf row])[rows.length]? = some (infoOf row) := by
    rw [← hlen]; simp
  have hold : ∀ (p : Nat) (a : AccountInfo), s.heap[p]? = some a → (s.heap ++ [infoOf row])[p]? = some a := by
    intro p a hp
    have hlt : p < s.heap.length := by
      rcases Nat.lt_or_ge p s.heap.length with h | h
      · exact h
      · rw [List.getElem?_eq_none h] at hp; cases hp
    rw [List.getElem?_append_left hlt]
    exact hp
  have hidx : ∀ (i : Nat) (r : AccountRow), (rows ++ [row])[i]? = some r →
      (i < rows.length ∧ rows[i]? = some r) ∨ (i = rows.length ∧ r = row) := by
    intro i r hr
    rcases Nat.lt_or_ge i rows.length with h | h
    · rw [List.getElem?_append_left h] at hr
      exact Or.inl ⟨h, hr⟩
    · rw [List.getElem?_append_right h] at hr
      rcases Nat.eq_zero_or_pos (i - rows.length) with h0 | h0
      · rw [h0] at hr
        simp only [List.getElem?_cons_zero, Option.some.injEq] at hr
        exact Or.inr ⟨by omega, hr.symm⟩
      · obtain ⟨n, hn⟩ : ∃ n, i - rows.length = n + 1 := ⟨i - rows.length - 1, by omega⟩
        rw [hn] at hr
        simp at hr
  have hlast : (rows ++ [row])[rows.length]? = some row := by simp
  refine ⟨?_, ?_, ?_, ?_, ?_, ?_⟩
  · simp only [addRow, h1, List.map_append, List.map_cons, List.map_nil]
  · intro k p hk
    simp only [addRow] at hk ⊢
    by_cases hkn : k = row.name
    · subst hkn
      rw [get_assign_self] at hk
      cases hk
      rw [hlen]
      exact ⟨infoOf row, hnew, rfl⟩
    · rw [get_assign_ne _ _ hkn] at hk
      obtain ⟨a, ha, hn⟩ := h2 k p hk
      exact ⟨a, hold p a ha, hn⟩
  · intro k p hk
    simp only [addRow] at hk ⊢
    by_cases hkn : k = row.id
    · subst hkn
      rw [get_assign_self] at hk
      cases hk
      rw [hlen]
      exact ⟨infoOf row, hnew, rfl⟩
    · rw [get_assign_ne _ _ hkn] at hk
      obtain ⟨a, ha, hn⟩ := h3 k p hk
      exact ⟨a, hold p a ha, hn⟩
  · intro i r hr
    simp only [addRow, PtrMap.assign]
    rcases hidx i r hr with ⟨_, hr'⟩ | ⟨hi, hrr⟩
    · obtain ⟨a, b, c, d⟩ := h4 i r hr'
      refine ⟨List.mem_cons_of_mem _ a, List.mem_cons_of_mem _ b, ?_, ?_⟩
      · by_cases hkn : r.name = row.name
        · rw [hkn]
          rw [show ((row.name, s.heap.length) :: s.nameInfoMap)
            = PtrMap.assign s.nameInfoMap row.name s.heap.length from rfl, get_assign_self]
          rfl
        · rw [show ((row.name, s.heap.length) :: s.nameInfoMap)
            = PtrMap.assign s.nameInfoMap row.name s.heap.length from rfl,
            get_assign_ne _ _ hkn]
          exact c
      · by_cases hkn : r.id = row.id
        · rw [hkn]
          rw [show ((row.id, s.heap.length) :: s.idInfoMap)
            = PtrMap.assign s.idInfoMap row.id s.heap.length from rfl, get_assign_self]
          rfl
        · rw [show ((row.id, s.heap.length) :: s.idInfoMap)
            = PtrMap.assign s.idInfoMap row.id s.heap.length from rfl,
            get_assign_ne _ _ hkn]
          exact d
    · subst hrr hi
      rw [hlen]
      refine ⟨List.mem_cons_self _ _, List.mem_cons_self _ _, ?_, ?_⟩
      · rw [show ((r.name, rows.length) :: s.nameInfoMap)
          = PtrMap.assign s.nameInfoMap r.name rows.length from rfl, get_assign_self]
        rfl
      · rw [show ((r.id, rows.length) :: s.idInfoMap)
          = PtrMap.assign s.idInfoMap r.id rows.length from rfl, get_assign_self]
        rfl
  · intro i r hr hlater
    simp only [addRow]
    rcases hidx i r hr with ⟨hi, hr'⟩ | ⟨hi, hrr⟩
    · have hne : r.name ≠ row.name := fun e => hlater rows.length row hi hlast e.symm
      rw [get_assign_ne _ _ hne]
      refine h5 i r hr' (fun j r' hij hj => hlater j r' hij ?_)
      have hjl : j < rows.length := by
        rcases Nat.lt_or_ge j rows.length with h | h
        · exact h
        · rw [List.getElem?_eq_none h] at hj; cases hj
      rw [List.getElem?_append_left hjl]
      exact hj
    · subst hrr hi
      rw [hlen, get_assign_self]
  · intro i r hr hlater
    simp only [addRow]
    rcases hidx i r hr with ⟨hi, hr'⟩ | ⟨hi, hrr⟩
    · have hne : r.id ≠ row.id := fun e => hlater rows.length row hi hlast e.symm
      rw [get_assign_ne _ _ hne]
      refine h6 i r hr' (fun j r' hij hj => hlater j r' hij ?_)
      have hjl : j < rows.length := by
        rcases Nat.lt_or_ge j rows.length with h | h
        · exact h
        · rw [List.getElem?_eq_none h] at hj; cases hj
      rw [List.getElem?_append_left hjl]
      exact hj
    · subst hrr hi
      rw [hlen, get_assign_self]

theorem consistent_foldl : ∀ (rows : List AccountRow),
    Consistent rows (rows.foldl addRow { heap := [], nameInfoMap := [], idInfoMap := [] }) := by
  intro rows
  induction rows using List.reverseRecOn with
  | nil =>
    refine ⟨rfl, ?_, ?_, ?_, ?_, ?_⟩
    · intro k p h; simp [PtrMap.get, List.lookup] at h
    · intro k p h; simp [PtrMap.get, List.lookup] at h
    · intro i row h; simp at h
    · intro i row h; simp at h
    · intro i row h; simp at h
  | append_singleton rows row ih =>
    rw [List.foldl_append]
    exact consistent_addRow rows _ row ih

end Pubsub

/-! ## Contract of `GetAccounts` -/

/-- C20: for every result of the account query (batches of rows, `rows`
being all rows in order), `GetAccounts` returns no error and two maps such
that: every key `k` of `nameInfoMap` points to an object whose `Name` is `k`
and every key `k` of `idInfoMap` to an object whose `Id` is `k`; one object is
allocated per row, in order; for the `i`-th row both maps were assigned the
same pointer `i` under the row's name and id, and both are keys; and for a
key shared by several rows the map holds the pointer of the last such row. -/
theorem Pubsub.getAccounts_consistent (batches : List (List Pubsub.AccountRow)) :
    ∃ acc, Pubsub.GetAccounts (.ok batches) = (some acc, none) ∧
      acc.heap = batches.flatten.map Pubsub.infoOf ∧
      (∀ k p, acc.nameInfoMap.get k = some p → ∃ a, acc.heap[p]? = some a ∧ a.Name = k) ∧
      (∀ k p, acc.idInfoMap.get k = some p → ∃ a, acc.heap[p]? = some a ∧ a.Id = k) ∧
      (∀ i row, batches.flatten[i]? = some row →
        (row.name, i) ∈ acc.nameInfoMap ∧ (row.id, i) ∈ acc.idInfoMap ∧
        (acc.nameInfoMap.get row.name).isSome ∧ (acc.idInfoMap.get row.id).isSome) ∧
      (∀ i row, batches.flatten[i]? = some row →
        (∀ j row', i < j → batches.flatten[j]? = some row' → row'.name ≠ row.name) →
        acc.nameInfoMap.get row.name = some i) ∧
      (∀ i row, batches.flatten[i]? = some row →
        (∀ j row', i < j → batches.flatten[j]? = some row' → row'.id ≠ row.id) →
        acc.idInfoMap.get row.id = some i) := by
  refine ⟨_, rfl, ?_⟩
  rw [Pubsub.foldl_readBatch]
  exact Pubsub.consistent_foldl batches.flatten

/-! ### Lemmas on the text rendering -/

namespace Bytes

theorem mapAll_eq_map {α β : Type} (f : α → Option β) (g : α → β) : ∀ (xs : List α),
    (∀ x ∈ xs, f x = some (g x)) → mapAll f xs = some (xs.map g) := by
  intro xs
  induction xs with
  | nil => intro _; rfl
  | cons x xs ih =>
    intro h
    simp only [mapAll, h x (List.mem_cons_self _ _),
      ih (fun y hy => h y (List.mem_cons_of_mem _ hy)), List.map_cons]

theorem value_of_WF {a : Bytes} (h : a.WF) (hw : a.NoWrap) {i : Nat} (hi : i < a.Os.length) :
    a.value i = some (a.cell i) := by
  have hi' : i < a.Ns.length := by rw [← h.1]; exact hi
  have ho : a.Os[i]? = some a.Os[i] := List.getElem?_eq_getElem hi
  have hn : a.Ns[i]? = some a.Ns[i] := List.getElem?_eq_getElem hi'
  have hle := WF_getElem? h ho hn
  have hz : (a.Os.zip a.Ns)[i]? = some (a.Os[i], a.Ns[i]) := by
    rw [List.getElem?_zip_eq_some]; exact ⟨ho, hn⟩
  have hlt := hw _ (List.getElem?_mem hz)
  simp only at hlt
  simp only [value, cell, ho, hn, uint32_of_lt hlt]
  rw [slice_eq_some _ (by omega) hle]
  congr 2
  omega

theorem stringLoop_range' (a : Bytes) (g : Nat → List Byte) : ∀ (n s : Nat) (buf : List Byte),
    (∀ i, s ≤ i → i < s + n → a.value i = some (g i)) →
    stringLoop a ((s : Int) + n - 1) (List.range' s n) buf
      = some (buf ++ joinSpaces ((List.range' s n).map g)) := by
  intro n
  induction n with
  | zero => intro s buf _; simp [stringLoop, joinSpaces]
  | succ n ih =>
    intro s buf h
    have hv := h s (le_refl _) (by omega)
    have ih' := ih (s + 1)
    have hj : ((s + 1 : Nat) : Int) + (n : Int) - 1 = (s : Int) + ((n + 1 : Nat) : Int) - 1 := by
      push_cast; ring
    rw [hj] at ih'
    simp only [List.range', stringLoop, hv]
    cases n with
    | zero =>
      have : ¬ ((s : Int) ≠ (s : Int) + ((0 + 1 : Nat) : Int) - 1) := by
        push_cast; simp
      rw [if_neg this]
      simp only [List.range', stringLoop, List.map_cons, List.map_nil, joinSpaces]
    | succ m =>
      have : (s : Int) ≠ (s : Int) + ((m + 1 + 1 : Nat) : Int) - 1 := by
        push_cast; omega
      rw [if_pos this]
      rw [ih' (buf ++ g s ++ [32]) (fun i h1 h2 => h i (by omega) (by omega))]
      simp only [List.range', List.map_cons, joinSpaces, List.append_assoc]

theorem render_wraps (v : List Byte) (hv : v.length = 4294967295) :
    (empty.Append [v, [0]]).WF ∧ (empty.Append [v, [0]]).ToStrings = none ∧
    (empty.Append [v, [0]]).String = none := by
  refine ⟨WF_Append (by decide) _, ?_, ?_⟩
  · rw [Append_eq]
    simp [empty, offsets, uint32, hv, ToStrings, value, slice, mapAll, List.range_succ]
  · rw [Append_eq]
    simp [empty, offsets, uint32, hv, String, stringLoop, value, slice, List.range_succ]

end Bytes

/-! ## Contract of `String` and `ToStrings` -/

/-- C21 (as amended): for every well-formed column with `N` values each of
which ends before byte `2^32` of the arena, `ToStrings` returns a list of
exactly `N` strings whose `i`-th element has the bytes
`Data[Os[i] : Os[i]+Ns[i]]`, and `String` returns `[` followed by those `N`
values separated by single spaces followed by `]`: `[]` for an empty column,
and no space after the last value. -/
theorem Bytes.text_rendering (a : Bytes) (h : a.WF) (hw : a.NoWrap) :
    ∃ vals, a.ToStrings = some vals ∧ vals.length = a.Os.length ∧
      (∀ (i o n : Nat), a.Os[i]? = some o → a.Ns[i]? = some n →
        vals[i]? = some ((a.Data.drop o).take n)) ∧
      a.String = some ([91] ++ Bytes.joinSpaces vals ++ [93]) ∧
      (a.Os.length = 0 → a.String = some [91, 93]) := by
  have hval : ∀ i ∈ List.range a.Os.length, a.value i = some (a.cell i) :=
    fun i hi => Bytes.value_of_WF h hw (List.mem_range.1 hi)
  have hstr : a.String = some ([91] ++ Bytes.joinSpaces ((List.range a.Os.length).map a.cell)
      ++ [93]) := by
    have := Bytes.stringLoop_range' a a.cell a.Os.length 0 [91]
      (fun i _ hi => Bytes.value_of_WF h hw (by omega))
    simp only [Nat.cast_zero, zero_add, ← List.range_eq_range'] at this
    simp only [Bytes.String, this, Option.map_some']
  refine ⟨(List.range a.Os.length).map a.cell, Bytes.mapAll_eq_map _ _ _ hval, by simp, ?_,
    hstr, ?_⟩
  · intro i o n ho hn
    have hi : i < a.Os.length := by
      rcases Nat.lt_or_ge i a.Os.length with h | h
      · exact h
      · rw [List.getElem?_eq_none h] at ho; cases ho
    rw [List.getElem?_map, List.getElem?_range hi]
    simp only [Option.map_some', Bytes.cell, ho, hn]
  · intro h0
    rw [hstr, h0]
    rfl

/-- Witness of C21: three values, the second one empty. -/
theorem Bytes.text_rendering_witness :
    ∃ vals, (Bytes.empty.Append [[104, 105], [], [33]]).ToStrings = some vals ∧
      vals.length = (Bytes.empty.Append [[104, 105], [], [33]]).Os.length ∧
      (∀ (i o n : Nat), (Bytes.empty.Append [[104, 105], [], [33]]).Os[i]? = some o →
        (Bytes.empty.Append [[104, 105], [], [33]]).Ns[i]? = some n →
        vals[i]? = some (((Bytes.empty.Append [[104, 105], [], [33]]).Data.drop o).take n)) ∧
      (Bytes.empty.Append [[104, 105], [], [33]]).String
        = some ([91] ++ Bytes.joinSpaces vals ++ [93]) ∧
      ((Bytes.empty.Append [[104, 105], [], [33]]).Os.length = 0 →
        (Bytes.empty.Append [[104, 105], [], [33]]).String = some [91, 93]) :=
  Bytes.text_rendering (Bytes.empty.Append [[104, 105], [], [33]]) (by decide) (by decide)

/-- Counterexample to C21 as stated: a value of `2^32 - 1` bytes and a value
of one byte are appended to an empty column. The column is well formed, the
second value has offset `2^32 - 1` and length `1`, and the `uint32` sum
`Os[1] + Ns[1]` wraps to `0`: the slice expression of `ToStrings` and of
`String` panics. -/
theorem Bytes.text_rendering_overflow :
    (Bytes.empty.Append [List.replicate 4294967295 0, [0]]).WF ∧
    (Bytes.empty.Append [List.replicate 4294967295 0, [0]]).ToStrings = none ∧
    (Bytes.empty.Append [List.replicate 4294967295 0, [0]]).String = none :=
  Bytes.render_wraps (List.replicate 4294967295 0) (List.length_replicate _ _)

/-! ### Lemmas on the cursor of `probe` -/

namespace Join

theorem probe_cursor (K : Consts) (ap : InnerJoin) (ctr ctr' : container) (proc proc' : Process)
    (rb : Option Batch) (bat : Batch) (hU : 0 < K.UnitLimit) (hD : 0 < K.DefaultBatchSize)
    (hb : ctr.bat = some bat) (h : probe K ap ctr proc = .ok (ctr', proc', rb, none)) :
    ctr'.lastrow = 0 ∨ (ctr.lastrow < ctr'.lastrow ∧ ctr'.lastrow < bat.rowCount) := by
  unfold probe at h
  simp only [hb] at h
  cases h1 : newResultVecs bat ctr.batches ap.Result with
  | error p => simp [h1] at h
  | ok vs =>
    simp only [h1] at h
    cases h2 : evalJoinCondition bat ap.Conditions 0 ctr.vecs with
    | error p => simp [h2] at h
    | ok v =>
      obtain ⟨vecs, e⟩ := v
      simp only [h2] at h
      cases e with
      | some e => simp at h
      | none =>
        simp only at h
        cases h3 : setupJoinBat2 ctr with
        | error p => simp [h3] at h
        | ok jb2 =>
          simp only [h3] at h
          cases h4 : ctr.mp with
          | none => simp [h4] at h
          | some mp =>
            simp only [h4] at h
            cases h5 : probeLoop K ap bat ctr.batches true jb2 mp vecs bat.rowCount bat.rowCount
                ctr.lastrow ctr.inBuckets { vecs := vs, rowCount := 0 } with
            | error p => simp [h5] at h
            | ok out =>
              simp only [h5] at h
              cases h6 : out.err with
              | some e => simp [h6] at h
              | none =>
                simp only [h6, Except.ok.injEq, Prod.mk.injEq] at h
                obtain ⟨hc, _⟩ := h
                subst hc
                obtain ⟨_, _, b3⟩ := probeLoop_spec K ap bat ctr.batches true jb2 mp vecs
                  bat.rowCount hU bat.rowCount ctr.lastrow ctr.inBuckets
                  { vecs := vs, rowCount := 0 } (by omega)
                obtain ⟨r, _, hcase⟩ := b3 out h5 h6
                rcases hcase with ⟨h0, _⟩ | ⟨hl, hlt, hz⟩
                · exact Or.inl h0
                · right
                  have hr : 0 < r := by
                    rcases Nat.eq_zero_or_pos r with h | h
                    · have := hz h
                      simp only at this
                      omega
                    · exact h
                  simp only
                  omega

end Join

/-! ## Contract of `probe`: forward progress -/

/-- C22: for every `probe` call that returns without error on the held probe
batch, with positive `UnitLimit` and `DefaultBatchSize`, the cursor `lastrow`
it saves is `0` or lies strictly between the cursor the call started from and
the row count of the batch. Consequently the part of `Call` that runs `probe`
on the held batch returns the batch of `probe` with the continue status and
no error: the branch that returns the "inner join hanging" error is not
taken, also when `Call` is entered in state `Probe` with that batch held. -/
theorem Join.probe_progress (K : Consts) (ap : Join.InnerJoin) (ctr ctr' : Join.container)
    (proc proc' : Process) (rb : Option Batch) (bat : Batch)
    (hU : 0 < K.UnitLimit) (hD : 0 < K.DefaultBatchSize)
    (hb : ctr.bat = some bat)
    (h : Join.probe K ap ctr proc = .ok (ctr', proc', rb, none)) :
    (ctr'.lastrow = 0 ∨ (ctr.lastrow < ctr'.lastrow ∧ ctr'.lastrow < bat.rowCount)) ∧
    (∃ c p, Join.callProbeHeld K ap ctr proc
      = .ok (c, p, { Status := .ExecNext, Batch := rb }, none)) ∧
    (proc.Ctx = none → ctr.state = .Probe →
      ∃ c p, Join.Call K ap ctr proc = .ok (c, p, { Status := .ExecNext, Batch := rb }, none)) := by
  have hcur := Join.probe_cursor K ap ctr ctr' proc proc' rb bat hU hD hb h
  have hheld : ∃ c p, Join.callProbeHeld K ap ctr proc
      = .ok (c, p, { Status := .ExecNext, Batch := rb }, none) := by
    unfold Join.callProbeHeld
    simp only [h]
    by_cases h0 : ctr'.lastrow = 0
    · simp only [h0, if_true]
      cases ctr'.bat with
      | some b => exact ⟨_, _, rfl⟩
      | none => exact ⟨_, _, rfl⟩
    · have hne' : ¬ ctr'.lastrow = ctr.lastrow := by
        rcases hcur with h | h
        · exact absurd h h0
        · omega
      simp only [h0, hne', if_false]
      exact ⟨_, _, rfl⟩
  refine ⟨hcur, hheld, ?_⟩
  intro hctx hs
  unfold Join.Call Join.callProbe
  simp only [CancelCheck, hctx, hs, hb]
  exact hheld

/-- Witness of C22: the first `probe` call on the five-row batch `probeBat`
(chunks of 2 rows, output batches of 3 rows) starts at row 0 and stops with
the cursor at row 2. -/
theorem Join.probe_progress_witness :
    ((Join.probe Sample.K Sample.ap Sample.probing (Sample.proc [])).toOption.map
        (fun r => (r.1.lastrow, r.2.2.2)) = some (2, none)) ∧
    (2 = 0 ∨ (0 < 2 ∧ 2 < 5)) ∧
    (∃ c p, Join.callProbeHeld Sample.K Sample.ap Sample.probing (Sample.proc [])
      = .ok (c, p, { Status := .ExecNext,
                     Batch := (Join.probe Sample.K Sample.ap Sample.probing
                       (Sample.proc [])).toOption.bind (fun r => r.2.2.1) }, none)) :=
  ⟨rfl,
   (Join.probe_progress Sample.K Sample.ap Sample.probing _ (Sample.proc []) _ _
      Sample.probeBat (by decide) (by decide) rfl rfl).1,
   (Join.probe_progress Sample.K Sample.ap Sample.probing _ (Sample.proc []) _ _
      Sample.probeBat (by decide) (by decide) rfl rfl).2.1⟩

/-! ### Lemmas on `RemoveTable` -/

namespace Pubsub

theorem lexLe_total : ∀ (x y : List Byte), lexLe x y = true ∨ lexLe y x = true := by
  intro x
  induction x with
  | nil => intro y; exact Or.inl (by cases y <;> rfl)
  | cons a as ih =>
    intro y
    cases y with
    | nil => exact Or.inr rfl
    | cons b bs =>
      simp only [lexLe, Bool.or_eq_true, Bool.and_eq_true, decide_eq_true_eq]
      rcases Nat.lt_trichotomy a b with h | h | h
      · exact Or.inl (Or.inl h)
      · subst h
        rcases ih bs with h | h
        · exact Or.inl (Or.inr ⟨rfl, h⟩)
        · exact Or.inr (Or.inr ⟨rfl, h⟩)
      · exact Or.inr (Or.inl h)

theorem lexLe_trans : ∀ (x y z : List Byte), lexLe x y = true → lexLe y z = true →
    lexLe x z = true := by
  intro x
  induction x with
  | nil => intro y z _ _; cases z <;> rfl
  | cons a as ih =>
    intro y z hxy hyz
    cases y with
    | nil => cases hxy
    | cons b bs =>
      cases z with
      | nil => cases hyz
      | cons c cs =>
        simp only [lexLe, Bool.or_eq_true, Bool.and_eq_true, decide_eq_true_eq] at *
        rcases hxy with h1 | ⟨h1, h1'⟩
        · rcases hyz with h2 | ⟨h2, _⟩
          · exact Or.inl (Nat.lt_trans h1 h2)
          · exact Or.inl (h2 ▸ h1)
        · rcases hyz with h2 | ⟨h2, h2'⟩
          · exact Or.inl (h1 ▸ h2)
          · exact Or.inr ⟨h1.trans h2, ih bs cs h1' h2'⟩

theorem slicesSort_sorted (xs : List (List Byte)) :
    (slicesSort xs).Sorted (fun x y => lexLe x y = true) :=
  @List.sorted_insertionSort _ (fun x y => lexLe x y = true) _ ⟨lexLe_total⟩
    ⟨lexLe_trans⟩ xs

theorem slicesSort_perm (xs : List (List Byte)) : (slicesSort xs).Perm xs :=
  List.perm_insertionSort _ xs

theorem slicesSort_of_sorted {xs : List (List Byte)}
    (h : xs.Sorted (fun x y => lexLe x y = true)) : slicesSort xs = xs :=
  List.Sorted.insertionSort_eq h

theorem stringsSplit_ne_nil (sep : Byte) : ∀ s : List Byte, stringsSplit sep s ≠ [] := by
  intro s
  induction s with
  | nil => simp [stringsSplit]
  | cons c cs ih =>
    simp only [stringsSplit]
    split
    · simp
    · split <;> simp

theorem stringsSplit_no_sep (sep : Byte) : ∀ (s : List Byte), ∀ w ∈ stringsSplit sep s,
    sep ∉ w := by
  intro s
  induction s with
  | nil =>
    intro w hw
    simp only [stringsSplit, List.mem_singleton] at hw
    subst hw
    simp
  | cons c cs ih =>
    intro w hw
    simp only [stringsSplit] at hw
    by_cases hc : c = sep
    · simp only [hc, if_true, List.mem_cons] at hw
      rcases hw with h | h
      · subst h; simp
      · exact ih w h
    · simp only [hc, if_false] at hw
      cases hs : stringsSplit sep cs with
      | nil => exact absurd hs (stringsSplit_ne_nil sep cs)
      | cons v vs =>
        simp only [hs, List.mem_cons] at hw
        rw [hs] at ih
        rcases hw with h | h
        · subst h
          intro hmem
          rcases List.mem_cons.1 hmem with h' | h'
          · exact hc h'.symm
          · exact ih v (List.mem_cons_self _ _) h'
        · exact ih w (List.mem_cons_of_mem _ h)

theorem stringsSplit_of_no_sep (sep : Byte) : ∀ (w : List Byte), sep ∉ w →
    stringsSplit sep w = [w] := by
  intro w
  induction w with
  | nil => intro _; rfl
  | cons c cs ih =>
    intro h
    have hc : ¬ c = sep := fun e => h (e ▸ List.mem_cons_self _ _)
    have := ih (fun e => h (List.mem_cons_of_mem _ e))
    simp only [stringsSplit, hc, if_false, this]

theorem stringsSplit_append_sep (sep : Byte) (rest : List Byte) : ∀ (w : List Byte), sep ∉ w →
    stringsSplit sep (w ++ sep :: rest) = w :: stringsSplit sep rest := by
  intro w
  induction w with
  | nil => intro _; simp [stringsSplit]
  | cons c cs ih =>
    intro h
    have hc : ¬ c = sep := fun e => h (e ▸ List.mem_cons_self _ _)
    have := ih (fun e => h (List.mem_cons_of_mem _ e))
    simp only [List.cons_append, stringsSplit, List.append_eq, hc, if_false, this]

theorem stringsSplit_join (sep : Byte) : ∀ (L : List (List Byte)), L ≠ [] →
    (∀ w ∈ L, sep ∉ w) → stringsSplit sep (stringsJoin sep L) = L := by
  intro L
  induction L with
  | nil => intro h; exact absurd rfl h
  | cons w ws ih =>
    intro _ hno
    cases ws with
    | nil => exact stringsSplit_of_no_sep sep w (hno w (List.mem_cons_self _ _))
    | cons v vs =>
      simp only [stringsJoin]
      rw [stringsSplit_append_sep sep _ w (hno w (List.mem_cons_self _ _)),
        ih (by simp) (fun x hx => hno x (List.mem_cons_of_mem _ hx))]

/-- What `RemoveTable` returns for a list other than `TableAll`, by parts. -/
theorem removed_list (N : Names) (old t : List Byte) :
    (slicesSort ((stringsSplit N.Sep old).filter (fun name => decide (name ≠ t)))).Sorted
        (fun x y => lexLe x y = true) ∧
    (slicesSort ((stringsSplit N.Sep old).filter (fun name => decide (name ≠ t)))).Perm
        ((stringsSplit N.Sep old).filter (fun name => decide (name ≠ t))) ∧
    t ∉ slicesSort ((stringsSplit N.Sep old).filter (fun name => decide (name ≠ t))) ∧
    ∀ w ∈ slicesSort ((stringsSplit N.Sep old).filter (fun name => decide (name ≠ t))),
      N.Sep ∉ w := by
  refine ⟨slicesSort_sorted _, slicesSort_perm _, ?_, ?_⟩
  · intro h
    have := (slicesSort_perm _).mem_iff.1 h
    simp at this
  · intro w hw
    have := (slicesSort_perm _).mem_iff.1 hw
    exact stringsSplit_no_sep N.Sep old w (List.mem_of_mem_filter this)

theorem RemoveTable_idem (N : Names) (old t : List Byte) :
    RemoveTable N (RemoveTable N old t) t = RemoveTable N old t := by
  by_cases h1 : old = N.TableAll
  · simp [RemoveTable, h1]
  · obtain ⟨hs, _, ht, hno⟩ := removed_list N old t
    have hr : RemoveTable N old t = stringsJoin N.Sep
        (slicesSort ((stringsSplit N.Sep old).filter (fun name => decide (name ≠ t)))) := by
      simp [RemoveTable, h1]
    generalize slicesSort ((stringsSplit N.Sep old).filter (fun name => decide (name ≠ t)))
      = L at hs ht hno hr
    rw [hr]
    by_cases h2 : stringsJoin N.Sep L = N.TableAll
    · simp [RemoveTable, h2]
    · simp only [RemoveTable, h2, if_false]
      by_cases hL : L = []
      · subst hL
        simp only [stringsJoin, stringsSplit]
        by_cases ht0 : ([] : List Byte) = t
        · simp [ht0, slicesSort, stringsJoin]
        · simp [ht0, slicesSort, stringsJoin]
      · rw [stringsSplit_join N.Sep L hL hno]
        have hf : L.filter (fun name => decide (name ≠ t)) = L := by
          rw [List.filter_eq_self]
          intro x hx
          simp only [ne_eq, decide_not, Bool.not_eq_true', decide_eq_false_iff_not]
          intro e
          exact ht (e ▸ hx)
        rw [hf, slicesSort_of_sorted hs]

end Pubsub

/-! ## Contract of `RemoveTable` -/

/-- C23 (as amended): for every table-list string `old` different from
`TableAll` and every table name `t`, `RemoveTable(old, t)` is the `Sep`-joined
list `L` where `L` is in ascending order and holds exactly the elements of
`old` (split on `Sep`, with multiplicity) that differ from `t`, so `t` is not
an element of `L`; splitting the result on `Sep` gives `L` back when `L` is not
empty, and the one empty piece of the empty string when `L` is empty, so `t`
is an element of the result exactly when `t` is the empty string and every
element of `old` equals `t`. `RemoveTable(TableAll, t)` is `TableAll`, and
removing is idempotent:
`RemoveTable(RemoveTable(old, t), t) = RemoveTable(old, t)` for every `old`. -/
theorem Pubsub.removeTable_spec (N : Pubsub.Names) (old t : List Byte) :
    (old ≠ N.TableAll →
      ∃ L, Pubsub.RemoveTable N old t = Pubsub.stringsJoin N.Sep L ∧
        L.Sorted (fun x y => Pubsub.lexLe x y = true) ∧
        L.Perm ((Pubsub.stringsSplit N.Sep old).filter (fun name => decide (name ≠ t))) ∧
        t ∉ L ∧
        (L ≠ [] → Pubsub.stringsSplit N.Sep (Pubsub.RemoveTable N old t) = L) ∧
        (L = [] → Pubsub.stringsSplit N.Sep (Pubsub.RemoveTable N old t) = [[]]) ∧
        (t ∈ Pubsub.stringsSplit N.Sep (Pubsub.RemoveTable N old t) ↔
          (t = [] ∧ ∀ w ∈ Pubsub.stringsSplit N.Sep old, w = t))) ∧
    Pubsub.RemoveTable N N.TableAll t = N.TableAll ∧
    Pubsub.RemoveTable N (Pubsub.RemoveTable N old t) t = Pubsub.RemoveTable N old t := by
  refine ⟨?_, by simp [Pubsub.RemoveTable], Pubsub.RemoveTable_idem N old t⟩
  intro h1
  obtain ⟨hs, hp, ht, hno⟩ := Pubsub.removed_list N old t
  have hr : Pubsub.RemoveTable N old t = Pubsub.stringsJoin N.Sep
      (Pubsub.slicesSort ((Pubsub.stringsSplit N.Sep old).filter
        (fun name => decide (name ≠ t)))) := by
    simp [Pubsub.RemoveTable, h1]
  have hne : ∀ L : List (List Byte), L ≠ [] → (∀ w ∈ L, N.Sep ∉ w) →
      Pubsub.stringsSplit N.Sep (Pubsub.stringsJoin N.Sep L) = L :=
    fun L a b => Pubsub.stringsSplit_join N.Sep L a b
  rw [hr]
  generalize Pubsub.slicesSort ((Pubsub.stringsSplit N.Sep old).filter
    (fun name => decide (name ≠ t))) = L at hs hp ht hno
  refine ⟨L, rfl, hs, hp, ht, fun hL => hne L hL hno, fun hL => by rw [hL]; rfl, ?_⟩
  by_cases hL : L = []
  · subst hL
    have hnil : (Pubsub.stringsSplit N.Sep old).filter (fun name => decide (name ≠ t)) = [] :=
      List.Perm.eq_nil hp.symm
    have hall : ∀ w ∈ Pubsub.stringsSplit N.Sep old, w = t := by
      intro w hw
      by_contra hwt
      have : w ∈ (Pubsub.stringsSplit N.Sep old).filter (fun name => decide (name ≠ t)) :=
        List.mem_filter.2 ⟨hw, by simpa using hwt⟩
      rw [hnil] at this
      cases this
    simp only [Pubsub.stringsJoin, Pubsub.stringsSplit, List.mem_singleton]
    exact ⟨fun h => ⟨h, hall⟩, fun h => h.1⟩
  · rw [hne L hL hno]
    constructor
    · intro h; exact absurd h ht
    · intro ⟨_, hall⟩
      obtain ⟨w, ws, rfl⟩ := List.exists_cons_of_ne_nil hL
      have hw : w ∈ (Pubsub.stringsSplit N.Sep old).filter (fun name => decide (name ≠ t)) :=
        hp.mem_iff.1 (List.mem_cons_self _ _)
      have h2 := List.mem_filter.1 hw
      have := hall w h2.1
      simp [this] at h2

/-- Witness of C23: with `,` as separator and `*` as `TableAll`, removing
`a` from `b,a,c,a` gives `b,c`; the list is not `TableAll`, and the joined
list `L` is `[b, c]`. -/
theorem Pubsub.removeTable_spec_witness :
    Pubsub.RemoveTable ⟨44, [42]⟩ [98, 44, 97, 44, 99, 44, 97] [97] = [98, 44, 99] ∧
    ∃ L, Pubsub.RemoveTable ⟨44, [42]⟩ [98, 44, 97, 44, 99, 44, 97] [97]
          = Pubsub.stringsJoin 44 L ∧
      L.Sorted (fun x y => Pubsub.lexLe x y = true) ∧
      L.Perm ((Pubsub.stringsSplit 44 [98, 44, 97, 44, 99, 44, 97]).filter
        (fun name => decide (name ≠ [97]))) ∧
      [97] ∉ L ∧
      (L ≠ [] →
        Pubsub.stringsSplit 44 (Pubsub.RemoveTable ⟨44, [42]⟩ [98, 44, 97, 44, 99, 44, 97] [97])
          = L) ∧
      (L = [] →
        Pubsub.stringsSplit 44 (Pubsub.RemoveTable ⟨44, [42]⟩ [98, 44, 97, 44, 99, 44, 97] [97])
          = [[]]) ∧
      ([97] ∈ Pubsub.stringsSplit 44
          (Pubsub.RemoveTable ⟨44, [42]⟩ [98, 44, 97, 44, 99, 44, 97] [97]) ↔
        (([97] : List Byte) = [] ∧
          ∀ w ∈ Pubsub.stringsSplit 44 [98, 44, 97, 44, 99, 44, 97], w = [97])) :=
  ⟨by decide,
   (Pubsub.removeTable_spec ⟨44, [42]⟩ [98, 44, 97, 44, 99, 44, 97] [97]).1 (by decide)⟩

/-- Counterexample to C23 as stated: with `,` as separator and `*` as
`TableAll`, the empty table name is removed from the empty table list and from
the list `,` of two empty names. Neither list is `TableAll`; the result is the
empty string, and the empty string split on the separator has one element,
the empty name: the removed name is an element of the result. -/
theorem Pubsub.removeTable_empty_name :
    ([] : List Byte) ≠ (⟨44, [42]⟩ : Pubsub.Names).TableAll ∧
    Pubsub.RemoveTable ⟨44, [42]⟩ [] [] = [] ∧
    ([] : List Byte) ∈ Pubsub.stringsSplit 44 (Pubsub.RemoveTable ⟨44, [42]⟩ [] []) ∧
    ([44] : List Byte) ≠ (⟨44, [42]⟩ : Pubsub.Names).TableAll ∧
    Pubsub.RemoveTable ⟨44, [42]⟩ [44] [] = [] ∧
    ([] : List Byte) ∈ Pubsub.stringsSplit 44 (Pubsub.RemoveTable ⟨44, [42]⟩ [44] []) := by
  decide

end Matrixone
